import Mathlib

/-!
# ofxMeshGen: a verification development

Shallow embedding of `src/ofxMeshGen.cpp` / `src/ofxMeshGen.h`.

Modelling conventions.

* `glm::vec3` is `Vec3 K` over an exact scalar field `K`; float rounding is not
  modelled.  `glm::normalize` and `sqrt` belong to external libraries and are
  taken as parameters (`normalize`, `sqrt`).
* `ofMesh` is the record `ofMesh K` (primitive mode, vertices, normals, indices).
  `ofIndexType` and `std::size_t` are declared outside the repository; indices
  and counters are natural numbers, except for the `xRes - 1` / `yRes - 1`
  loop bounds of `makePlane`, which wrap at `2^64` as `std::size_t` does.
* A function `void f(ofMesh& mesh, ...)` becomes `f : ofMesh K → ... → Outcome K`:
  the mesh as the call leaves it, together with the exception thrown, if any.
* Reads outside a buffer (undefined behaviour in C++) return `0`; writes outside
  a buffer are dropped.
* `glm::normalize` of the zero vector is not a number.  Where a statement turns on
  that, the normal buffer is computed with such results kept (`recalcNormalsNaN`):
  a value is an `Option (Vec3 K)`, `none` standing for a vector of NaNs, which
  `-n`, `normals[i] += n` and `normalize` all pass on.
-/

namespace OfxMeshGen

/-! ## Vectors -/

/-- Exact counterpart of `glm::vec3`. -/
structure Vec3 (K : Type) where
  x : K
  y : K
  z : K
deriving DecidableEq, Repr

namespace Vec3

variable {K : Type}

instance [Zero K] : Zero (Vec3 K) := ⟨⟨0, 0, 0⟩⟩

instance [Add K] : Add (Vec3 K) := ⟨fun a b => ⟨a.x + b.x, a.y + b.y, a.z + b.z⟩⟩

instance [Sub K] : Sub (Vec3 K) := ⟨fun a b => ⟨a.x - b.x, a.y - b.y, a.z - b.z⟩⟩

instance [Neg K] : Neg (Vec3 K) := ⟨fun a => ⟨-a.x, -a.y, -a.z⟩⟩

/-- Product `v * s` (equally `s * v`) of a vector and a scalar. -/
def scale [Mul K] (v : Vec3 K) (s : K) : Vec3 K := ⟨v.x * s, v.y * s, v.z * s⟩

/-- Cross product `glm::cross`. -/
def cross [Mul K] [Sub K] (a b : Vec3 K) : Vec3 K :=
  ⟨a.y * b.z - b.y * a.z, a.z * b.x - b.z * a.x, a.x * b.y - b.x * a.y⟩

/-- Dot product `glm::dot`. -/
def dot [Mul K] [Add K] (a b : Vec3 K) : K := a.x * b.x + a.y * b.y + a.z * b.z

end Vec3

/-! ## Meshes -/

/-- Primitive modes of the host mesh (`ofPrimitiveMode`). -/
inductive ofPrimitiveMode where
  | OF_PRIMITIVE_TRIANGLES
  | OF_PRIMITIVE_TRIANGLE_STRIP
  | OF_PRIMITIVE_TRIANGLE_FAN
  | OF_PRIMITIVE_LINES
  | OF_PRIMITIVE_LINE_STRIP
  | OF_PRIMITIVE_LINE_LOOP
  | OF_PRIMITIVE_POINTS
deriving DecidableEq, Repr

/-- The part of the host mesh `ofMesh` that the library reads and writes. -/
structure ofMesh (K : Type) where
  mode : ofPrimitiveMode
  vertices : List (Vec3 K)
  normals : List (Vec3 K)
  indices : List Nat
deriving DecidableEq, Repr

/-- The exception thrown by the library: `std::invalid_argument`. -/
inductive MeshError where
  | invalid_argument
deriving DecidableEq, Repr

/-- What a call on `ofMesh&` leaves behind: the mesh, and the exception thrown (if any). -/
structure Outcome (K : Type) where
  thrown : Option MeshError
  mesh : ofMesh K
deriving DecidableEq, Repr

section Ops

variable {K : Type} [Field K]

/-- A default-constructed `ofMesh`: empty buffers; the host's default mode is the triangle list. -/
def ofMesh.empty : ofMesh K :=
  { mode := .OF_PRIMITIVE_TRIANGLES, vertices := [], normals := [], indices := [] }

/-- The host's `mesh.getVertex(i)`. -/
def ofMesh.getVertex (mesh : ofMesh K) (i : Nat) : Vec3 K := mesh.vertices.getD i 0

/-- The host's `mesh.addVertex(v)`. -/
def ofMesh.addVertex (mesh : ofMesh K) (v : Vec3 K) : ofMesh K :=
  { mesh with vertices := mesh.vertices ++ [v] }

/-- The host's `mesh.addNormal(n)`. -/
def ofMesh.addNormal (mesh : ofMesh K) (n : Vec3 K) : ofMesh K :=
  { mesh with normals := mesh.normals ++ [n] }

/-- The host's `mesh.addTriangle(i1, i2, i3)`: three indices appended. -/
def ofMesh.addTriangle (mesh : ofMesh K) (i1 i2 i3 : Nat) : ofMesh K :=
  { mesh with indices := mesh.indices ++ [i1, i2, i3] }

/-- The index triples visited by `for (i = 0; i < n; i += 3)` reading
`getIndex(i)`, `getIndex(i + 1)`, `getIndex(i + 2)`. -/
def triangles : List Nat → List (Nat × Nat × Nat)
  | i1 :: i2 :: i3 :: rest => (i1, i2, i3) :: triangles rest
  | [i1, i2] => [(i1, i2, 0)]
  | [i1] => [(i1, 0, 0)]
  | [] => []

/-- The statement `normals[i] += n`. -/
def addAt (normals : List (Vec3 K)) (i : Nat) (n : Vec3 K) : List (Vec3 K) :=
  normals.set i (normals.getD i 0 + n)

/-- Body of the first loop of `recalcNormals`, for the triangle `(i1, i2, i3)`. -/
def recalcStep (normalize : Vec3 K → Vec3 K) (vertices : List (Vec3 K)) (CW_winding : Bool)
    (normals : List (Vec3 K)) (t : Nat × Nat × Nat) : List (Vec3 K) :=
  let v1 := vertices.getD t.1 0
  let v2 := vertices.getD t.2.1 0
  let v3 := vertices.getD t.2.2 0
  let n := normalize (Vec3.cross (v2 - v1) (v3 - v1))
  let n := if CW_winding then -n else n
  addAt (addAt (addAt normals t.1 n) t.2.1 n) t.2.2 n

/-- The normal buffer computed by `recalcNormals`. -/
def computeNormals (normalize : Vec3 K → Vec3 K) (vertices : List (Vec3 K)) (indices : List Nat)
    (CW_winding : Bool) : List (Vec3 K) :=
  ((triangles indices).foldl (recalcStep normalize vertices CW_winding)
    (List.replicate vertices.length 0)).map normalize

/-- `void recalcNormals(ofMesh& mesh, bool CW_winding)`. -/
def recalcNormals (normalize : Vec3 K → Vec3 K) (mesh : ofMesh K) (CW_winding : Bool) :
    Outcome K :=
  if mesh.mode ≠ .OF_PRIMITIVE_TRIANGLES then
    { thrown := some .invalid_argument, mesh := mesh }
  else
    { thrown := none
      mesh := { mesh with
        normals := computeNormals normalize mesh.vertices mesh.indices CW_winding } }

/-- The loop of `swapWindingOrder`: `std::swap(indices[i], indices[i + 1])` for `i = 0, 3, 6, ...`. -/
def swapPairs : List Nat → List Nat
  | a :: b :: c :: rest => b :: a :: c :: swapPairs rest
  | [a, b] => [b, a]
  | [a] => [a]
  | [] => []

/-- `void swapWindingOrder(ofMesh& mesh)`. -/
def swapWindingOrder (mesh : ofMesh K) : Outcome K :=
  if mesh.mode ≠ .OF_PRIMITIVE_TRIANGLES then
    { thrown := some .invalid_argument, mesh := mesh }
  else
    { thrown := none, mesh := { mesh with indices := swapPairs mesh.indices } }

/-- `void scaleMesh(ofMesh& mesh, float scale)`. -/
def scaleMesh (mesh : ofMesh K) (scale : K) : ofMesh K :=
  { mesh with vertices := mesh.vertices.map (fun v => v.scale scale) }

/-! ## Subdivision -/

/-- An edge key `std::pair<Idx, Idx>`. -/
abbrev Edge := Nat × Nat

/-- The symmetric hash `pairHash`, over the host's `std::hash<Idx>`. -/
def pairHash (hashIdx : Nat → Nat) (p : Edge) : Nat := hashIdx p.1 ^^^ hashIdx p.2

/-- The key equality `pairCompare`: `(a, b) = (b, a)`. -/
def pairCompare (p1 p2 : Edge) : Bool :=
  (p1.1 == p2.1 && p1.2 == p2.2) || (p1.1 == p2.2 && p1.2 == p2.1)

/-- The local state of `subdivide` while it walks the index buffer: the table `midpoints`
(an `unordered_map` keyed up to `pairCompare`, held as its list of entries), the counter
`currV`, the mesh's vertex buffer and the buffer `newIndices`. -/
structure SubdivState (K : Type) where
  midpoints : List (Edge × Nat)
  currV : Nat
  vertices : List (Vec3 K)
  newIndices : List Nat
deriving DecidableEq, Repr

/-- The entry of the table whose key equals `e` under `pairCompare`, if there is one. -/
def findMidpoint (midpoints : List (Edge × Nat)) (e : Edge) : Option (Edge × Nat) :=
  midpoints.find? (fun entry => pairCompare entry.1 e)

/-- The lambda `addMidpoint`: `midpoints.emplace((i1, i2), currV)`, then either a new vertex
(and `currV++`) or the index stored before. -/
def addMidpoint (normalize : Vec3 K → Vec3 K) (normalizeVert : Bool) (s : SubdivState K)
    (i1 i2 : Nat) : Nat × SubdivState K :=
  match findMidpoint s.midpoints (i1, i2) with
  | none =>
    let v1 := s.vertices.getD i1 0
    let v2 := s.vertices.getD i2 0
    let v := if normalizeVert then normalize (v1 + v2) else (v1 + v2).scale (1 / 2)
    (s.currV,
      { s with
        midpoints := s.midpoints ++ [((i1, i2), s.currV)]
        currV := s.currV + 1
        vertices := s.vertices ++ [v] })
  | some entry => (entry.2, s)

/-- Body of the main loop of `subdivide`, for the triangle `(i1, i2, i3)`. -/
def subdivideStep (normalize : Vec3 K → Vec3 K) (CW_winding normalizeVert : Bool)
    (s : SubdivState K) (t : Nat × Nat × Nat) : SubdivState K :=
  let i1 := t.1
  let i2 := t.2.1
  let i3 := t.2.2
  let r12 := addMidpoint normalize normalizeVert s i1 i2
  let r23 := addMidpoint normalize normalizeVert r12.2 i2 i3
  let r13 := addMidpoint normalize normalizeVert r23.2 i1 i3
  let i12 := r12.1
  let i23 := r23.1
  let i13 := r13.1
  let s := r13.2
  if CW_winding then
    { s with newIndices := s.newIndices ++
        [i12, i1, i13, i2, i12, i23, i23, i12, i13, i23, i13, i3] }
  else
    { s with newIndices := s.newIndices ++
        [i1, i12, i13, i12, i2, i23, i12, i23, i13, i13, i23, i3] }

/-- The state of `subdivide` when its main loop ends. -/
def subdivideLoop (normalize : Vec3 K → Vec3 K) (mesh : ofMesh K)
    (CW_winding normalizeVert : Bool) : SubdivState K :=
  (triangles mesh.indices).foldl (subdivideStep normalize CW_winding normalizeVert)
    { midpoints := [], currV := mesh.vertices.length, vertices := mesh.vertices, newIndices := [] }

/-- The helper `static void subdivide(ofMesh& mesh, bool recalcNormal, bool CW_winding,
bool normalizeVert)`.  Its last statement is `recalcNormals(mesh)`, with the declared default
`CW_winding = false`. -/
def subdivide (normalize : Vec3 K → Vec3 K) (mesh : ofMesh K)
    (recalcNormal CW_winding normalizeVert : Bool) : Outcome K :=
  let s := subdivideLoop normalize mesh CW_winding normalizeVert
  let mesh := { mesh with vertices := s.vertices, indices := s.newIndices }
  if recalcNormal then recalcNormals normalize mesh false
  else { thrown := none, mesh := mesh }

/-- The loop `for (i = 0; i < iter; ++i) subdivide(...)` of `subdivideMesh`; an exception
ends it. -/
def subdivideIter (normalize : Vec3 K → Vec3 K) (recalcNormal CW_winding normalizeVert : Bool) :
    Nat → ofMesh K → Outcome K
  | 0, mesh => { thrown := none, mesh := mesh }
  | iter + 1, mesh =>
    let r := subdivide normalize mesh recalcNormal CW_winding normalizeVert
    match r.thrown with
    | none => subdivideIter normalize recalcNormal CW_winding normalizeVert iter r.mesh
    | some e => { thrown := some e, mesh := r.mesh }

/-- `void subdivideMesh(ofMesh& mesh, std::size_t iter, bool recalcNormal, bool CW_winding,
bool normalizeVert)`. -/
def subdivideMesh (normalize : Vec3 K → Vec3 K) (mesh : ofMesh K) (iter : Nat)
    (recalcNormal CW_winding normalizeVert : Bool) : Outcome K :=
  if mesh.mode ≠ .OF_PRIMITIVE_TRIANGLES then
    { thrown := some .invalid_argument, mesh := mesh }
  else subdivideIter normalize recalcNormal CW_winding normalizeVert iter mesh

/-! ## Primitive builders -/

/-- What a function returning `ofMesh` by value yields: the mesh, or the exception. -/
def Outcome.result (r : Outcome K) : Except MeshError (ofMesh K) :=
  match r.thrown with
  | none => .ok r.mesh
  | some e => .error e

/-- The `std::size_t` value of `n - 1` (it wraps for `n = 0`). -/
def sizePred (n : Nat) : Nat := (n + 2 ^ 64 - 1) % 2 ^ 64

/-- `ofMesh makePlane(float width, float height, std::size_t xRes, std::size_t yRes)`. -/
def makePlane (width height : K) (xRes yRes : Nat) : ofMesh K :=
  let mesh : ofMesh K := { (ofMesh.empty : ofMesh K) with mode := .OF_PRIMITIVE_TRIANGLES }
  let xOffset := -width / 2
  let yOffset := -height / 2
  let xScale := width / (xRes : K)
  let yScale := height / (yRes : K)
  let n : Vec3 K := ⟨0, 0, 1⟩
  let mesh := (List.range xRes).foldl (fun mesh x =>
    (List.range yRes).foldl (fun mesh y =>
      (mesh.addVertex ⟨(x : K) * xScale + xOffset, (y : K) * yScale + yOffset, 0⟩).addNormal n)
      mesh) mesh
  (List.range (sizePred xRes)).foldl (fun mesh x =>
    (List.range (sizePred yRes)).foldl (fun mesh y =>
      (mesh.addTriangle (x * xRes + y) ((x + 1) * xRes + y) ((x + 1) * xRes + (y + 1))).addTriangle
        (x * xRes + y) ((x + 1) * xRes + (y + 1)) (x * xRes + (y + 1)))
      mesh) mesh

/-- The mesh with the vertices `vs` added in order, then the triangles `ts`. -/
def fromTables (vs : List (Vec3 K)) (ts : List (Nat × Nat × Nat)) : ofMesh K :=
  ts.foldl (fun mesh t => mesh.addTriangle t.1 t.2.1 t.2.2)
    (vs.foldl (fun mesh v => mesh.addVertex v) ofMesh.empty)

/-- `ofMesh makeCube(float length)`. -/
def makeCube (normalize : Vec3 K → Vec3 K) (length : K) : Except MeshError (ofMesh K) :=
  let scaling := length / 2
  let mesh := fromTables
    ([⟨-1, -1, 1⟩, ⟨1, -1, 1⟩, ⟨1, 1, 1⟩, ⟨-1, 1, 1⟩,
      ⟨-1, -1, -1⟩, ⟨1, -1, -1⟩, ⟨1, 1, -1⟩, ⟨-1, 1, -1⟩].map
        (fun v : Vec3 K => v.scale scaling))
    [(0, 1, 2), (2, 3, 0), (1, 5, 6), (6, 2, 1), (7, 6, 5), (5, 4, 7),
     (4, 0, 3), (3, 7, 4), (4, 5, 1), (1, 0, 4), (3, 2, 6), (6, 7, 3)]
  (recalcNormals normalize mesh false).result

/-- The host's `mesh.removeVertex(index)`: the vertex buffer loses that position. -/
def ofMesh.removeVertex (mesh : ofMesh K) (index : Nat) : ofMesh K :=
  { mesh with vertices := mesh.vertices.eraseIdx index }

/-- The face loop of `makeKST3` for one triangle: a face at `IDX_CUT` is dropped, the others are
renumbered. -/
def kst3Step (IDX_CUT : Nat) (newIndices : List Nat) (t : Nat × Nat × Nat) : List Nat :=
  if t.1 = IDX_CUT ∨ t.2.1 = IDX_CUT ∨ t.2.2 = IDX_CUT then newIndices
  else
    newIndices ++ [t.1 - (if t.1 < IDX_CUT then 0 else 1),
      t.2.1 - (if t.2.1 < IDX_CUT then 0 else 1),
      t.2.2 - (if t.2.2 < IDX_CUT then 0 else 1)]

/-- `ofMesh makeKST3(float length)`. -/
def makeKST3 (normalize : Vec3 K → Vec3 K) (length : K) : Except MeshError (ofMesh K) :=
  match makeCube normalize length with
  | .error e => .error e
  | .ok mesh =>
    let r := subdivideMesh normalize mesh 1 true false false
    match r.thrown with
    | some e => .error e
    | none =>
      let IDX_CUT := 2
      let IDX_LEFT := 8
      let IDX_RIGHT := 10
      let IDX_BELOW := 15
      let IDX_TOP := 9
      let mesh := r.mesh.removeVertex IDX_CUT
      let newIndices := (triangles mesh.indices).foldl (kst3Step IDX_CUT) []
      let newIndices := newIndices ++ [IDX_TOP, IDX_LEFT, IDX_RIGHT]
      let newIndices := newIndices ++ [IDX_LEFT, IDX_BELOW, IDX_RIGHT]
      (recalcNormals normalize { mesh with indices := newIndices } false).result

/-- `ofMesh makeTetrahedron(float radius)`.  The third components are the C++ expression
`-1 / 3`, a quotient of two `int`s. -/
def makeTetrahedron (sqrt : K → K) (normalize : Vec3 K → Vec3 K) (radius : K) :
    Except MeshError (ofMesh K) :=
  let sqrt2 := sqrt 2
  let sqrt6 := sqrt 6
  let third : K := ((Int.tdiv (-1) 3 : Int) : K)
  let mesh := fromTables
    ([⟨0, 0, 1⟩, ⟨2 * sqrt2 / 3, 0, third⟩, ⟨-sqrt2 / 3, sqrt6 / 3, third⟩,
      ⟨-sqrt2 / 3, -sqrt6 / 3, third⟩].map (fun v : Vec3 K => v.scale radius))
    [(0, 1, 2), (0, 2, 3), (0, 3, 1), (1, 3, 2)]
  (recalcNormals normalize mesh false).result

/-- `ofMesh makeIcosahedron(float radius)`. -/
def makeIcosahedron (sqrt : K → K) (normalize : Vec3 K → Vec3 K) (radius : K) :
    Except MeshError (ofMesh K) :=
  let t := (1 + sqrt 5) / 2
  let scaling := radius / sqrt (t * t + 1)
  let mesh := fromTables
    ([⟨t, 1, 0⟩, ⟨-t, 1, 0⟩, ⟨t, -1, 0⟩, ⟨-t, -1, 0⟩,
      ⟨1, 0, t⟩, ⟨1, 0, -t⟩, ⟨-1, 0, t⟩, ⟨-1, 0, -t⟩,
      ⟨0, t, 1⟩, ⟨0, -t, 1⟩, ⟨0, t, -1⟩, ⟨0, -t, -1⟩].map (fun v : Vec3 K => v.scale scaling))
    [(0, 8, 4), (0, 5, 10), (2, 4, 9), (2, 11, 5), (1, 6, 8), (1, 10, 7), (3, 9, 6),
     (3, 7, 11), (0, 10, 8), (1, 8, 10), (2, 9, 11), (3, 11, 9), (4, 2, 0), (5, 0, 2),
     (6, 1, 3), (7, 3, 1), (8, 6, 4), (9, 4, 6), (10, 5, 7), (11, 7, 5)]
  (recalcNormals normalize mesh false).result

/-- `ofMesh makeIcosphere(float radius, std::size_t iterations)`. -/
def makeIcosphere (sqrt : K → K) (normalize : Vec3 K → Vec3 K) (radius : K) (iterations : Nat) :
    Except MeshError (ofMesh K) :=
  match makeIcosahedron sqrt normalize 1 with
  | .error e => .error e
  | .ok mesh =>
    let r := subdivideMesh normalize mesh iterations false false true
    match r.thrown with
    | some e => .error e
    | none => (recalcNormals normalize (scaleMesh r.mesh radius) false).result

end Ops

/-! ## Derived notions used in the statements -/

section Notions

variable {K : Type} [Field K]

/-- The value stored in the table for the edge `e`, if any. -/
def lookupMidpoint (midpoints : List (Edge × Nat)) (e : Edge) : Option Nat :=
  (findMidpoint midpoints e).map Prod.snd

/-- The vertex index that one pass of `subdivide` on `mesh` uses as midpoint of the edge
`(a, b)`: the entry of the table `midpoints` at the end of the pass (`0` when the pass never
saw the edge). -/
def midpointOf (normalize : Vec3 K → Vec3 K) (mesh : ofMesh K) (CW_winding normalizeVert : Bool)
    (a b : Nat) : Nat :=
  (lookupMidpoint (subdivideLoop normalize mesh CW_winding normalizeVert).midpoints (a, b)).getD 0

/-- The three edges `(i1, i2)`, `(i2, i3)`, `(i1, i3)` of a triangle, as `subdivide` visits them. -/
def triangleEdges (t : Nat × Nat × Nat) : List Edge :=
  [(t.1, t.2.1), (t.2.1, t.2.2), (t.1, t.2.2)]

/-- All edges of the triangles of an index buffer. -/
def meshEdges (indices : List Nat) : List Edge :=
  (triangles indices).flatMap triangleEdges

/-- The unordered pair behind an edge, as the ordered pair (smaller, larger). -/
def undirected (e : Edge) : Edge := (min e.1 e.2, max e.1 e.2)

/-- Number of distinct undirected edges of an index buffer. -/
def numUndirectedEdges (indices : List Nat) : Nat :=
  ((meshEdges indices).map undirected).dedup.length

/-- The twelve indices `subdivide` emits for the triangle `t`, given the midpoint indices. -/
def children (CW_winding : Bool) (mid : Edge → Nat) (t : Nat × Nat × Nat) : List Nat :=
  let i1 := t.1
  let i2 := t.2.1
  let i3 := t.2.2
  let i12 := mid (i1, i2)
  let i23 := mid (i2, i3)
  let i13 := mid (i1, i3)
  if CW_winding then [i12, i1, i13, i2, i12, i23, i23, i12, i13, i23, i13, i3]
  else [i1, i12, i13, i12, i2, i23, i12, i23, i13, i13, i23, i3]

/-- The position `addMidpoint` gives the new vertex of the edge `e`, computed from the vertex
buffer `vertices`. -/
def midpointPosition (normalize : Vec3 K → Vec3 K) (normalizeVert : Bool)
    (vertices : List (Vec3 K)) (e : Edge) : Vec3 K :=
  if normalizeVert then normalize (vertices.getD e.1 0 + vertices.getD e.2 0)
  else (vertices.getD e.1 0 + vertices.getD e.2 0).scale (1 / 2)

/-- The mesh invariant of the data model: triangle-list mode, index count a multiple of 3,
every index below the vertex count. -/
def ofMesh.WellFormed (mesh : ofMesh K) : Prop :=
  mesh.mode = .OF_PRIMITIVE_TRIANGLES ∧ 3 ∣ mesh.indices.length ∧
    ∀ i ∈ mesh.indices, i < mesh.vertices.length

/-- Invariant of the loop of `subdivide` on a mesh that had `V` vertices when the pass began:
the table's values are `V, V + 1, ...` in insertion order, `currV` and the vertex count are
`V` plus the table's size, and no two keys are equal under `pairCompare`. -/
structure TableInv (V : Nat) (s : SubdivState K) : Prop where
  values : s.midpoints.map Prod.snd = List.range' V s.midpoints.length
  currV_eq : s.currV = V + s.midpoints.length
  verts_len : s.vertices.length = V + s.midpoints.length
  keys : s.midpoints.Pairwise (fun e1 e2 => pairCompare e1.1 e2.1 = false)

/-- A line-strip mesh, on which the triangle operations are not defined. -/
def lineStrip : ofMesh ℚ :=
  { mode := .OF_PRIMITIVE_LINE_STRIP
    vertices := [⟨0, 0, 0⟩, ⟨1, 0, 0⟩, ⟨0, 1, 0⟩]
    normals := []
    indices := [0, 1, 2] }

/-- The triangle `(0,0,0)`, `(1,0,0)`, `(0,1,0)`: a 3-vertex, 1-triangle mesh. -/
def unitTriangle (K : Type) [Field K] : ofMesh K :=
  { mode := .OF_PRIMITIVE_TRIANGLES
    vertices := [⟨0, 0, 0⟩, ⟨1, 0, 0⟩, ⟨0, 1, 0⟩]
    normals := []
    indices := [0, 1, 2] }

/-- Two triangles on four vertices, sharing the edge between vertices 1 and 2 (visited as
`(1, 2)` by the first triangle and as `(2, 1)` by the second). -/
def twoTriangles : ofMesh ℚ :=
  { mode := .OF_PRIMITIVE_TRIANGLES
    vertices := [⟨0, 0, 0⟩, ⟨1, 0, 0⟩, ⟨0, 1, 0⟩, ⟨1, 1, 0⟩]
    normals := []
    indices := [0, 1, 2, 2, 1, 3] }

end Notions

/-! ## Further notions -/

/-- A mesh over the rationals with `V` vertices at the origin and the given index buffer: what
`subdivide` does to the index buffer and to the vertex count of a mesh depends on the mesh
through its vertex count and index buffer only, and can be read off this one. -/
def skeleton (V : Nat) (indices : List Nat) : ofMesh ℚ :=
  { mode := .OF_PRIMITIVE_TRIANGLES, vertices := List.replicate V 0, normals := [],
    indices := indices }

/-- The directed edges `(a, b)`, `(b, c)`, `(c, a)` of a triangle `(a, b, c)`. -/
def directedEdges (t : Nat × Nat × Nat) : List Edge :=
  [(t.1, t.2.1), (t.2.1, t.2.2), (t.2.2, t.1)]

/-- Number of triangles of an index buffer that have `e` among their directed edges. -/
def trianglesWithEdge (indices : List Nat) (e : Edge) : Nat :=
  ((triangles indices).filter (fun t => decide (e ∈ directedEdges t))).length

section NormalNotions

variable {K : Type} [Field K]

/-- The buffer `normals` of `recalcNormals` when its first loop ends: for each vertex the
accumulated face normals, not yet normalised. -/
def accumulatedNormals (normalize : Vec3 K → Vec3 K) (vertices : List (Vec3 K))
    (indices : List Nat) (CW_winding : Bool) : List (Vec3 K) :=
  (triangles indices).foldl (recalcStep normalize vertices CW_winding)
    (List.replicate vertices.length 0)

/-- The unit face normal `recalcNormals` gives the triangle `t`: `normalize(cross(v2 - v1,
v3 - v1))`, negated for the clockwise convention. -/
def faceNormal (normalize : Vec3 K → Vec3 K) (vertices : List (Vec3 K)) (CW_winding : Bool)
    (t : Nat × Nat × Nat) : Vec3 K :=
  if CW_winding then
    -normalize (Vec3.cross (vertices.getD t.2.1 0 - vertices.getD t.1 0)
      (vertices.getD t.2.2 0 - vertices.getD t.1 0))
  else
    normalize (Vec3.cross (vertices.getD t.2.1 0 - vertices.getD t.1 0)
      (vertices.getD t.2.2 0 - vertices.getD t.1 0))

/-- The face normals incident to vertex `i`: one entry for every corner of a triangle that is
the vertex `i`, in buffer order. -/
def incidentNormals (normalize : Vec3 K → Vec3 K) (vertices : List (Vec3 K))
    (indices : List Nat) (CW_winding : Bool) (i : Nat) : List (Vec3 K) :=
  (triangles indices).flatMap (fun t =>
    ([t.1, t.2.1, t.2.2].filter (fun j => decide (j = i))).map
      (fun _ => faceNormal normalize vertices CW_winding t))

/-- The sum of the unit face normals incident to vertex `i`. -/
def incidentNormalSum (normalize : Vec3 K → Vec3 K) (vertices : List (Vec3 K))
    (indices : List Nat) (CW_winding : Bool) (i : Nat) : Vec3 K :=
  (incidentNormals normalize vertices indices CW_winding i).foldl (fun a n => a + n) 0

end NormalNotions

/-- The corners of a triangle, as a set. -/
def vertexSet (t : Nat × Nat × Nat) : Finset Nat := {t.1, t.2.1, t.2.2}

/-- A triangle list without degenerate triangles and without two triangles on the same three
vertices. -/
def SimpleTriangles (ts : List (Nat × Nat × Nat)) : Prop :=
  (∀ t ∈ ts, t.1 ≠ t.2.1 ∧ t.2.1 ≠ t.2.2 ∧ t.1 ≠ t.2.2) ∧
    ts.Pairwise (fun t t' => vertexSet t ≠ vertexSet t')

/-- The four triangles a counterclockwise pass emits for `t`, given the midpoint indices. -/
def childTriangles (mid : Edge → Nat) (t : Nat × Nat × Nat) : List (Nat × Nat × Nat) :=
  triangles (children false mid t)

/-- The two halves of an old edge `u`, each from an endpoint to the midpoint. -/
def halfEdges (mid : Edge → Nat) (u : Edge) : List Edge := [(u.1, mid u), (u.2, mid u)]

/-- The three edges between the midpoints of a triangle. -/
def innerEdges (mid : Edge → Nat) (t : Nat × Nat × Nat) : List Edge :=
  [undirected (mid (t.1, t.2.1), mid (t.1, t.2.2)),
    undirected (mid (t.1, t.2.1), mid (t.2.1, t.2.2)),
    undirected (mid (t.2.1, t.2.2), mid (t.1, t.2.2))]

/-- What one pass knows about its input triangles `ts` (on `V` vertices) and its midpoint
function `mid`: old indices are below `V`, midpoints are at least `V`, `mid` is a function of
the unordered pair and injective on the undirected edges, and the triangles are simple. -/
structure PassData (V : Nat) (ts : List (Nat × Nat × Nat)) (mid : Edge → Nat) : Prop where
  lt : ∀ t ∈ ts, t.1 < V ∧ t.2.1 < V ∧ t.2.2 < V
  symm : ∀ a b, mid (a, b) = mid (b, a)
  inj : ∀ e1 ∈ ts.flatMap triangleEdges, ∀ e2 ∈ ts.flatMap triangleEdges,
    mid e1 = mid e2 → undirected e1 = undirected e2
  ge : ∀ e ∈ ts.flatMap triangleEdges, V ≤ mid e
  simple : SimpleTriangles ts

/-! ## Normals that are not numbers -/

section NaNNotions

variable {K : Type} [Field K]

end NaNNotions

section Basic

variable {K : Type} [Field K]

theorem triangles_length (T : Nat) : ∀ l : List Nat, l.length = 3 * T → (triangles l).length = T := by
  induction T with
  | zero =>
    intro l h
    have : l = [] := List.length_eq_zero.mp (by simpa using h)
    subst this
    rfl
  | succ T ih =>
    intro l h
    match l, h with
    | a :: b :: c :: rest, h =>
      have hr : rest.length = 3 * T := by
        simp only [List.length_cons] at h
        omega
      simp [triangles, ih rest hr]
    | [_, _], h => simp at h; omega
    | [_], h => simp at h; omega
    | [], h => simp at h

theorem triangles_mem_lt {V : Nat} : ∀ (n : Nat) (l : List Nat), l.length = 3 * n →
    (∀ i ∈ l, i < V) → ∀ t ∈ triangles l, t.1 < V ∧ t.2.1 < V ∧ t.2.2 < V := by
  intro n
  induction n with
  | zero =>
    intro l h _ t ht
    have : l = [] := List.length_eq_zero.mp (by simpa using h)
    subst this
    simp [triangles] at ht
  | succ n ih =>
    intro l h hl t ht
    match l, h, hl, ht with
    | a :: b :: c :: rest, h, hl, ht =>
      have hr : rest.length = 3 * n := by
        simp only [List.length_cons] at h
        omega
      simp only [triangles, List.mem_cons] at ht
      rcases ht with rfl | ht
      · exact ⟨hl a (by simp), hl b (by simp), hl c (by simp)⟩
      · exact ih rest hr (fun i hi => hl i (by simp [hi])) t ht
    | [_, _], h, _, _ => simp at h; omega
    | [_], h, _, _ => simp at h; omega
    | [], h, _, _ => simp at h

theorem swapPairs_swapPairs : ∀ l : List Nat, swapPairs (swapPairs l) = l
  | a :: b :: c :: rest => by simp [swapPairs, swapPairs_swapPairs rest]
  | [_, _] => rfl
  | [_] => rfl
  | [] => rfl

theorem pairHash_congr (hashIdx : Nat → Nat) (p q : Edge) (h : pairCompare p q = true) :
    pairHash hashIdx p = pairHash hashIdx q := by
  obtain ⟨a, b⟩ := p
  obtain ⟨c, d⟩ := q
  simp only [pairCompare, Bool.or_eq_true, Bool.and_eq_true, beq_iff_eq] at h
  rcases h with ⟨rfl, rfl⟩ | ⟨rfl, rfl⟩
  · rfl
  · simp [pairHash, Nat.xor_comm]

theorem pairCompare_iff (p q : Edge) : pairCompare p q = true ↔ undirected p = undirected q := by
  obtain ⟨a, b⟩ := p
  obtain ⟨c, d⟩ := q
  simp only [pairCompare, undirected, Bool.or_eq_true, Bool.and_eq_true, beq_iff_eq,
    Prod.mk.injEq]
  constructor
  · rintro (⟨rfl, rfl⟩ | ⟨rfl, rfl⟩)
    · exact ⟨rfl, rfl⟩
    · exact ⟨Nat.min_comm _ _, Nat.max_comm _ _⟩
  · intro ⟨h1, h2⟩
    simp only [Nat.min_def, Nat.max_def] at h1 h2
    split_ifs at h1 h2 <;> omega

theorem pairCompare_comm (p q : Edge) : pairCompare p q = pairCompare q p := by
  rw [Bool.eq_iff_iff, pairCompare_iff, pairCompare_iff]
  exact eq_comm

theorem pairCompare_swap (a b : Nat) (q : Edge) : pairCompare q (a, b) = pairCompare q (b, a) := by
  rw [Bool.eq_iff_iff, pairCompare_iff, pairCompare_iff]
  simp [undirected, Nat.min_comm, Nat.max_comm]

theorem lookupMidpoint_swap (m : List (Edge × Nat)) (a b : Nat) :
    lookupMidpoint m (a, b) = lookupMidpoint m (b, a) := by
  have h : (fun entry : Edge × Nat => pairCompare entry.1 (a, b)) =
      fun entry => pairCompare entry.1 (b, a) := funext fun entry => pairCompare_swap a b entry.1
  simp only [lookupMidpoint, findMidpoint, h]

theorem lookupMidpoint_append_of_some {m : List (Edge × Nat)} {e : Edge} {v : Nat}
    (h : lookupMidpoint m e = some v) (ext : List (Edge × Nat)) :
    lookupMidpoint (m ++ ext) e = some v := by
  simp only [lookupMidpoint, findMidpoint, List.find?_append] at h ⊢
  cases hf : m.find? (fun entry => pairCompare entry.1 e) with
  | none => simp [hf] at h
  | some x => simpa [hf] using h

theorem lookupMidpoint_mem {m : List (Edge × Nat)} {e : Edge} {v : Nat}
    (h : lookupMidpoint m e = some v) : ∃ k, (k, v) ∈ m ∧ pairCompare k e = true := by
  simp only [lookupMidpoint, findMidpoint, Option.map_eq_some'] at h
  obtain ⟨⟨k, w⟩, hfind, rfl⟩ := h
  exact ⟨k, List.mem_of_find?_eq_some hfind, by simpa using List.find?_some hfind⟩

end Basic

/-! ## The midpoint table during one pass -/

section Loop

variable {K : Type} [Field K] (normalize : Vec3 K → Vec3 K) (CW_winding normalizeVert : Bool)

theorem addMidpoint_newIndices (s : SubdivState K) (i1 i2 : Nat) :
    (addMidpoint normalize normalizeVert s i1 i2).2.newIndices = s.newIndices := by
  unfold addMidpoint
  split <;> rfl

theorem addMidpoint_midpoints (s : SubdivState K) (i1 i2 : Nat) :
    ∃ ext, (addMidpoint normalize normalizeVert s i1 i2).2.midpoints = s.midpoints ++ ext ∧
      ∀ entry ∈ ext, entry.1 = (i1, i2) := by
  unfold addMidpoint
  split
  · exact ⟨[((i1, i2), s.currV)], rfl, by simp⟩
  · exact ⟨[], by simp, by simp⟩

theorem addMidpoint_lookup (s : SubdivState K) (i1 i2 : Nat) :
    lookupMidpoint (addMidpoint normalize normalizeVert s i1 i2).2.midpoints (i1, i2) =
      some (addMidpoint normalize normalizeVert s i1 i2).1 := by
  unfold addMidpoint
  split
  next h =>
    simp only [lookupMidpoint, findMidpoint] at h ⊢
    rw [List.find?_append, h]
    simp [pairCompare]
  next entry h =>
    simp only [lookupMidpoint, h, Option.map_some']

theorem addMidpoint_inv {V : Nat} {s : SubdivState K} (hs : TableInv V s) (i1 i2 : Nat) :
    TableInv V (addMidpoint normalize normalizeVert s i1 i2).2 := by
  unfold addMidpoint
  split
  next h =>
    refine ⟨?_, ?_, ?_, ?_⟩
    · simp only [List.map_append, List.map_cons, List.map_nil, List.length_append,
        List.length_singleton, hs.values, hs.currV_eq, List.range'_concat, Nat.one_mul]
    · simp only [List.length_append, List.length_singleton, hs.currV_eq]
      omega
    · simp only [List.length_append, List.length_singleton, hs.verts_len]
      omega
    · simp only [findMidpoint, List.find?_eq_none] at h
      rw [List.pairwise_append]
      refine ⟨hs.keys, List.pairwise_singleton _ _, ?_⟩
      intro a ha b hb
      simp only [List.mem_singleton] at hb
      subst hb
      simpa using h a ha
  next entry h => exact hs

theorem subdivideStep_midpoints (s : SubdivState K) (t : Nat × Nat × Nat) :
    (subdivideStep normalize CW_winding normalizeVert s t).midpoints =
      (addMidpoint normalize normalizeVert
        (addMidpoint normalize normalizeVert
          (addMidpoint normalize normalizeVert s t.1 t.2.1).2 t.2.1 t.2.2).2 t.1 t.2.2).2.midpoints := by
  unfold subdivideStep
  split <;> rfl

theorem subdivideStep_extends (s : SubdivState K) (t : Nat × Nat × Nat) :
    ∃ ext, (subdivideStep normalize CW_winding normalizeVert s t).midpoints = s.midpoints ++ ext ∧
      ∀ entry ∈ ext, entry.1 ∈ triangleEdges t := by
  rw [subdivideStep_midpoints]
  obtain ⟨e1, h1, k1⟩ := addMidpoint_midpoints normalize normalizeVert s t.1 t.2.1
  obtain ⟨e2, h2, k2⟩ := addMidpoint_midpoints normalize normalizeVert
    (addMidpoint normalize normalizeVert s t.1 t.2.1).2 t.2.1 t.2.2
  obtain ⟨e3, h3, k3⟩ := addMidpoint_midpoints normalize normalizeVert
    (addMidpoint normalize normalizeVert
      (addMidpoint normalize normalizeVert s t.1 t.2.1).2 t.2.1 t.2.2).2 t.1 t.2.2
  refine ⟨e1 ++ (e2 ++ e3), by rw [h3, h2, h1, List.append_assoc, List.append_assoc], ?_⟩
  intro entry he
  simp only [List.mem_append] at he
  simp only [triangleEdges, List.mem_cons, List.mem_singleton, List.not_mem_nil, or_false]
  rcases he with he | he | he
  · exact Or.inl (k1 entry he)
  · exact Or.inr (Or.inl (k2 entry he))
  · exact Or.inr (Or.inr (k3 entry he))

theorem subdivideStep_lookup (s : SubdivState K) (t : Nat × Nat × Nat) :
    ∀ e ∈ triangleEdges t,
      (lookupMidpoint (subdivideStep normalize CW_winding normalizeVert s t).midpoints e).isSome := by
  rw [subdivideStep_midpoints]
  obtain ⟨e2, h2, -⟩ := addMidpoint_midpoints normalize normalizeVert
    (addMidpoint normalize normalizeVert s t.1 t.2.1).2 t.2.1 t.2.2
  obtain ⟨e3, h3, -⟩ := addMidpoint_midpoints normalize normalizeVert
    (addMidpoint normalize normalizeVert
      (addMidpoint normalize normalizeVert s t.1 t.2.1).2 t.2.1 t.2.2).2 t.1 t.2.2
  have l1 := addMidpoint_lookup normalize normalizeVert s t.1 t.2.1
  have l2 := addMidpoint_lookup normalize normalizeVert
    (addMidpoint normalize normalizeVert s t.1 t.2.1).2 t.2.1 t.2.2
  have l3 := addMidpoint_lookup normalize normalizeVert
    (addMidpoint normalize normalizeVert
      (addMidpoint normalize normalizeVert s t.1 t.2.1).2 t.2.1 t.2.2).2 t.1 t.2.2
  intro e he
  simp only [triangleEdges, List.mem_cons, List.mem_singleton, List.not_mem_nil, or_false] at he
  rcases he with rfl | rfl | rfl
  · rw [h3, h2, List.append_assoc, lookupMidpoint_append_of_some l1]
    rfl
  · rw [h3, lookupMidpoint_append_of_some l2]
    rfl
  · rw [l3]
    rfl

theorem subdivideStep_newIndices (s : SubdivState K) (t : Nat × Nat × Nat) :
    (subdivideStep normalize CW_winding normalizeVert s t).newIndices =
      s.newIndices ++ children CW_winding
        (fun e => (lookupMidpoint
          (subdivideStep normalize CW_winding normalizeVert s t).midpoints e).getD 0) t := by
  obtain ⟨e2, h2, -⟩ := addMidpoint_midpoints normalize normalizeVert
    (addMidpoint normalize normalizeVert s t.1 t.2.1).2 t.2.1 t.2.2
  obtain ⟨e3, h3, -⟩ := addMidpoint_midpoints normalize normalizeVert
    (addMidpoint normalize normalizeVert
      (addMidpoint normalize normalizeVert s t.1 t.2.1).2 t.2.1 t.2.2).2 t.1 t.2.2
  have l1 := addMidpoint_lookup normalize normalizeVert s t.1 t.2.1
  have l2 := addMidpoint_lookup normalize normalizeVert
    (addMidpoint normalize normalizeVert s t.1 t.2.1).2 t.2.1 t.2.2
  have l3 := addMidpoint_lookup normalize normalizeVert
    (addMidpoint normalize normalizeVert
      (addMidpoint normalize normalizeVert s t.1 t.2.1).2 t.2.1 t.2.2).2 t.1 t.2.2
  have m1 := lookupMidpoint_append_of_some (lookupMidpoint_append_of_some l1 e2) e3
  have m2 := lookupMidpoint_append_of_some l2 e3
  rw [← h2, ← h3] at m1
  rw [← h3] at m2
  simp only [children, subdivideStep_midpoints, m1, m2, l3, Option.getD_some]
  unfold subdivideStep
  split <;> simp [addMidpoint_newIndices, *]

theorem subdivideStep_inv {V : Nat} {s : SubdivState K} (hs : TableInv V s)
    (t : Nat × Nat × Nat) : TableInv V (subdivideStep normalize CW_winding normalizeVert s t) := by
  have h := addMidpoint_inv normalize normalizeVert
    (addMidpoint_inv normalize normalizeVert
      (addMidpoint_inv normalize normalizeVert hs t.1 t.2.1) t.2.1 t.2.2) t.1 t.2.2
  unfold subdivideStep
  split <;> exact ⟨h.values, h.currV_eq, h.verts_len, h.keys⟩

theorem children_congr (t : Nat × Nat × Nat) {mid mid' : Edge → Nat}
    (h : ∀ e ∈ triangleEdges t, mid e = mid' e) :
    children CW_winding mid t = children CW_winding mid' t := by
  have h1 := h (t.1, t.2.1) (by simp [triangleEdges])
  have h2 := h (t.2.1, t.2.2) (by simp [triangleEdges])
  have h3 := h (t.1, t.2.2) (by simp [triangleEdges])
  simp only [children, h1, h2, h3]

theorem children_length (mid : Edge → Nat) (t : Nat × Nat × Nat) :
    (children CW_winding mid t).length = 12 := by
  unfold children
  split <;> rfl

theorem foldl_extends (ts : List (Nat × Nat × Nat)) : ∀ s : SubdivState K,
    ∃ ext, (ts.foldl (subdivideStep normalize CW_winding normalizeVert) s).midpoints =
        s.midpoints ++ ext ∧ ∀ entry ∈ ext, entry.1 ∈ ts.flatMap triangleEdges := by
  induction ts with
  | nil => intro s; exact ⟨[], by simp, by simp⟩
  | cons t ts ih =>
    intro s
    obtain ⟨e1, h1, k1⟩ := subdivideStep_extends normalize CW_winding normalizeVert s t
    obtain ⟨e2, h2, k2⟩ := ih (subdivideStep normalize CW_winding normalizeVert s t)
    refine ⟨e1 ++ e2, by rw [List.foldl_cons, h2, h1, List.append_assoc], ?_⟩
    intro entry he
    rw [List.flatMap_cons, List.mem_append]
    rcases List.mem_append.mp he with he | he
    · exact Or.inl (k1 entry he)
    · exact Or.inr (k2 entry he)

theorem foldl_lookup (ts : List (Nat × Nat × Nat)) : ∀ s : SubdivState K,
    ∀ e ∈ ts.flatMap triangleEdges,
      (lookupMidpoint (ts.foldl (subdivideStep normalize CW_winding normalizeVert) s).midpoints
        e).isSome := by
  induction ts with
  | nil => intro s e he; simp at he
  | cons t ts ih =>
    intro s e he
    rw [List.flatMap_cons, List.mem_append] at he
    rw [List.foldl_cons]
    rcases he with he | he
    · obtain ⟨ext, hext, -⟩ := foldl_extends normalize CW_winding normalizeVert ts
        (subdivideStep normalize CW_winding normalizeVert s t)
      have h := subdivideStep_lookup normalize CW_winding normalizeVert s t e he
      obtain ⟨v, hv⟩ := Option.isSome_iff_exists.mp h
      rw [hext, lookupMidpoint_append_of_some hv]
      rfl
    · exact ih _ e he

theorem foldl_newIndices (ts : List (Nat × Nat × Nat)) : ∀ s : SubdivState K,
    (ts.foldl (subdivideStep normalize CW_winding normalizeVert) s).newIndices =
      s.newIndices ++ ts.flatMap (children CW_winding (fun e => (lookupMidpoint
        (ts.foldl (subdivideStep normalize CW_winding normalizeVert) s).midpoints e).getD 0)) := by
  induction ts with
  | nil => intro s; simp
  | cons t ts ih =>
    intro s
    obtain ⟨ext, hext, -⟩ := foldl_extends normalize CW_winding normalizeVert ts
      (subdivideStep normalize CW_winding normalizeVert s t)
    rw [List.foldl_cons, ih, subdivideStep_newIndices, List.flatMap_cons, List.append_assoc]
    congr 2
    apply children_congr
    intro e he
    have h := subdivideStep_lookup normalize CW_winding normalizeVert s t e he
    obtain ⟨v, hv⟩ := Option.isSome_iff_exists.mp h
    simp only [hext, lookupMidpoint_append_of_some hv, hv]

theorem foldl_inv {V : Nat} (ts : List (Nat × Nat × Nat)) : ∀ s : SubdivState K,
    TableInv V s → TableInv V (ts.foldl (subdivideStep normalize CW_winding normalizeVert) s) := by
  induction ts with
  | nil => intro s hs; exact hs
  | cons t ts ih =>
    intro s hs
    exact ih _ (subdivideStep_inv normalize CW_winding normalizeVert hs t)

theorem subdivideLoop_inv (mesh : ofMesh K) :
    TableInv mesh.vertices.length (subdivideLoop normalize mesh CW_winding normalizeVert) :=
  foldl_inv normalize CW_winding normalizeVert _ _
    ⟨by simp, by simp, by simp, List.Pairwise.nil⟩

theorem subdivideLoop_newIndices (mesh : ofMesh K) :
    (subdivideLoop normalize mesh CW_winding normalizeVert).newIndices =
      (triangles mesh.indices).flatMap (children CW_winding
        (fun e => midpointOf normalize mesh CW_winding normalizeVert e.1 e.2)) := by
  unfold subdivideLoop midpointOf
  rw [foldl_newIndices]
  rfl

theorem subdivideLoop_lookup (mesh : ofMesh K) :
    ∀ e ∈ meshEdges mesh.indices,
      lookupMidpoint (subdivideLoop normalize mesh CW_winding normalizeVert).midpoints e =
        some (midpointOf normalize mesh CW_winding normalizeVert e.1 e.2) := by
  intro e he
  have h := foldl_lookup normalize CW_winding normalizeVert (triangles mesh.indices)
    { midpoints := [], currV := mesh.vertices.length, vertices := mesh.vertices,
      newIndices := [] } e he
  obtain ⟨v, hv⟩ := Option.isSome_iff_exists.mp h
  unfold midpointOf subdivideLoop
  rw [hv]
  rfl

theorem subdivideLoop_keys (mesh : ofMesh K) :
    ∀ entry ∈ (subdivideLoop normalize mesh CW_winding normalizeVert).midpoints,
      entry.1 ∈ meshEdges mesh.indices := by
  obtain ⟨ext, hext, hk⟩ := foldl_extends normalize CW_winding normalizeVert
    (triangles mesh.indices)
    { midpoints := [], currV := mesh.vertices.length, vertices := mesh.vertices,
      newIndices := [] }
  intro entry he
  unfold subdivideLoop at he
  rw [hext] at he
  exact hk entry (by simpa using he)

theorem midpointOf_comm (mesh : ofMesh K) (a b : Nat) :
    midpointOf normalize mesh CW_winding normalizeVert a b =
      midpointOf normalize mesh CW_winding normalizeVert b a := by
  unfold midpointOf
  rw [lookupMidpoint_swap]

/-- The midpoint index of an edge of the mesh is a new index, below the new vertex count. -/
theorem midpointOf_range (mesh : ofMesh K) (e : Edge) (he : e ∈ meshEdges mesh.indices) :
    mesh.vertices.length ≤ midpointOf normalize mesh CW_winding normalizeVert e.1 e.2 ∧
      midpointOf normalize mesh CW_winding normalizeVert e.1 e.2 <
        (subdivideLoop normalize mesh CW_winding normalizeVert).vertices.length := by
  have hinv := subdivideLoop_inv normalize CW_winding normalizeVert mesh
  obtain ⟨k, hk, -⟩ := lookupMidpoint_mem
    (subdivideLoop_lookup normalize CW_winding normalizeVert mesh e he)
  have hmem : midpointOf normalize mesh CW_winding normalizeVert e.1 e.2 ∈
      (subdivideLoop normalize mesh CW_winding normalizeVert).midpoints.map Prod.snd :=
    List.mem_map.mpr ⟨_, hk, rfl⟩
  rw [hinv.values, List.mem_range'_1] at hmem
  rw [hinv.verts_len]
  exact hmem

end Loop

/-! ## One pass and its iteration -/

section Pass

variable {K : Type} [Field K] (normalize : Vec3 K → Vec3 K)

theorem recalcNormals_of_triangles (mesh : ofMesh K) (CW_winding : Bool)
    (h : mesh.mode = .OF_PRIMITIVE_TRIANGLES) :
    recalcNormals normalize mesh CW_winding =
      { thrown := none
        mesh := { mesh with
          normals := computeNormals normalize mesh.vertices mesh.indices CW_winding } } := by
  simp [recalcNormals, h]

theorem subdivide_of_triangles (mesh : ofMesh K) (recalcNormal CW_winding normalizeVert : Bool)
    (h : mesh.mode = .OF_PRIMITIVE_TRIANGLES) :
    (subdivide normalize mesh recalcNormal CW_winding normalizeVert).thrown = none ∧
    (subdivide normalize mesh recalcNormal CW_winding normalizeVert).mesh.mode =
      .OF_PRIMITIVE_TRIANGLES ∧
    (subdivide normalize mesh recalcNormal CW_winding normalizeVert).mesh.vertices =
      (subdivideLoop normalize mesh CW_winding normalizeVert).vertices ∧
    (subdivide normalize mesh recalcNormal CW_winding normalizeVert).mesh.indices =
      (subdivideLoop normalize mesh CW_winding normalizeVert).newIndices := by
  unfold subdivide
  cases recalcNormal
  · simp [h]
  · simp [recalcNormals, h]

theorem subdivideMesh_of_triangles (mesh : ofMesh K) (iter : Nat)
    (recalcNormal CW_winding normalizeVert : Bool) (h : mesh.mode = .OF_PRIMITIVE_TRIANGLES) :
    subdivideMesh normalize mesh iter recalcNormal CW_winding normalizeVert =
      subdivideIter normalize recalcNormal CW_winding normalizeVert iter mesh := by
  simp [subdivideMesh, h]

theorem subdivideIter_succ (mesh : ofMesh K) (iter : Nat)
    (recalcNormal CW_winding normalizeVert : Bool) (h : mesh.mode = .OF_PRIMITIVE_TRIANGLES) :
    subdivideIter normalize recalcNormal CW_winding normalizeVert (iter + 1) mesh =
      subdivideIter normalize recalcNormal CW_winding normalizeVert iter
        (subdivide normalize mesh recalcNormal CW_winding normalizeVert).mesh := by
  have h0 := (subdivide_of_triangles normalize mesh recalcNormal CW_winding normalizeVert h).1
  simp only [subdivideIter, h0]

theorem subdivide_indices_length (mesh : ofMesh K) (recalcNormal CW_winding normalizeVert : Bool)
    (h : mesh.mode = .OF_PRIMITIVE_TRIANGLES) :
    (subdivide normalize mesh recalcNormal CW_winding normalizeVert).mesh.indices.length =
      12 * (triangles mesh.indices).length := by
  rw [(subdivide_of_triangles normalize mesh recalcNormal CW_winding normalizeVert h).2.2.2,
    subdivideLoop_newIndices]
  generalize triangles mesh.indices = ts
  induction ts with
  | nil => rfl
  | cons t ts ih =>
    rw [List.flatMap_cons, List.length_append, ih, children_length, List.length_cons]
    omega

theorem children_mem {CW_winding : Bool} {mid : Edge → Nat} {t : Nat × Nat × Nat} {x : Nat}
    (hx : x ∈ children CW_winding mid t) :
    x = t.1 ∨ x = t.2.1 ∨ x = t.2.2 ∨ ∃ e ∈ triangleEdges t, x = mid e := by
  unfold children at hx
  simp only [triangleEdges, List.mem_cons, List.mem_singleton, List.not_mem_nil, or_false,
    exists_eq_or_imp, exists_eq_left]
  split at hx <;> simp only [List.mem_cons, List.mem_singleton, List.not_mem_nil, or_false] at hx
    <;> tauto

theorem subdivide_wellFormed (mesh : ofMesh K) (recalcNormal CW_winding normalizeVert : Bool)
    (h : mesh.WellFormed) :
    (subdivide normalize mesh recalcNormal CW_winding normalizeVert).mesh.WellFormed := by
  obtain ⟨hmode, ⟨T, hT⟩, hlt⟩ := h
  have hs := subdivide_of_triangles normalize mesh recalcNormal CW_winding normalizeVert hmode
  refine ⟨hs.2.1, ?_, ?_⟩
  · rw [subdivide_indices_length normalize mesh recalcNormal CW_winding normalizeVert hmode]
    exact ⟨4 * (triangles mesh.indices).length, by omega⟩
  · intro i hi
    rw [hs.2.2.2, subdivideLoop_newIndices] at hi
    rw [hs.2.2.1]
    have hV := (subdivideLoop_inv normalize CW_winding normalizeVert mesh).verts_len
    obtain ⟨t, ht, hit⟩ := List.mem_flatMap.mp hi
    have htlt := triangles_mem_lt T mesh.indices hT hlt t ht
    rcases children_mem hit with rfl | rfl | rfl | ⟨e, he, rfl⟩
    · omega
    · omega
    · omega
    · exact (midpointOf_range normalize CW_winding normalizeVert mesh e
        (List.mem_flatMap.mpr ⟨t, ht, he⟩)).2

theorem subdivideIter_count (recalcNormal CW_winding normalizeVert : Bool) (k : Nat) :
    ∀ (mesh : ofMesh K) (T : Nat), mesh.mode = .OF_PRIMITIVE_TRIANGLES →
      mesh.indices.length = 3 * T →
      (subdivideIter normalize recalcNormal CW_winding normalizeVert k mesh).thrown = none ∧
      (subdivideIter normalize recalcNormal CW_winding normalizeVert k
        mesh).mesh.indices.length = 3 * 4 ^ k * T := by
  induction k with
  | zero => intro mesh T _ hT; simp [subdivideIter, hT]
  | succ k ih =>
    intro mesh T hmode hT
    rw [subdivideIter_succ normalize mesh k recalcNormal CW_winding normalizeVert hmode]
    have hs := subdivide_of_triangles normalize mesh recalcNormal CW_winding normalizeVert hmode
    have hlen := subdivide_indices_length normalize mesh recalcNormal CW_winding normalizeVert
      hmode
    rw [triangles_length T mesh.indices hT] at hlen
    have := ih _ (4 * T) hs.2.1 (by rw [hlen]; ring)
    refine ⟨this.1, ?_⟩
    rw [this.2]
    ring

theorem subdivideIter_wellFormed (recalcNormal CW_winding normalizeVert : Bool) (k : Nat) :
    ∀ mesh : ofMesh K, mesh.WellFormed →
      (subdivideIter normalize recalcNormal CW_winding normalizeVert k mesh).thrown = none ∧
      (subdivideIter normalize recalcNormal CW_winding normalizeVert k mesh).mesh.WellFormed := by
  induction k with
  | zero => intro mesh h; exact ⟨rfl, h⟩
  | succ k ih =>
    intro mesh h
    rw [subdivideIter_succ normalize mesh k recalcNormal CW_winding normalizeVert h.1]
    exact ih _ (subdivide_wellFormed normalize mesh recalcNormal CW_winding normalizeVert h)

end Pass

/-! ## Reading the output triangle by triangle; counting the table -/

theorem table_keys_nodup {K : Type} {V : Nat} {s : SubdivState K} (hs : TableInv V s) :
    ((s.midpoints.map Prod.fst).map undirected).Nodup := by
  rw [List.map_map]
  refine (List.pairwise_map.mpr ?_ : List.Pairwise _ (s.midpoints.map _))
  refine hs.keys.imp ?_
  intro e1 e2 h heq
  have := (pairCompare_iff e1.1 e2.1).mpr heq
  rw [h] at this
  exact Bool.false_ne_true this

section Counting

variable {K : Type} [Field K] (normalize : Vec3 K → Vec3 K)

theorem triangles_append (n : Nat) : ∀ (l r : List Nat), l.length = 3 * n →
    triangles (l ++ r) = triangles l ++ triangles r := by
  induction n with
  | zero =>
    intro l r h
    have : l = [] := List.length_eq_zero.mp (by simpa using h)
    subst this
    rfl
  | succ n ih =>
    intro l r h
    match l, h with
    | a :: b :: c :: rest, h =>
      have hr : rest.length = 3 * n := by
        simp only [List.length_cons] at h
        omega
      simp [triangles, ih rest r hr]
    | [_, _], h => simp at h; omega
    | [_], h => simp at h; omega
    | [], h => simp at h

theorem triangles_flatMap_children (CW_winding : Bool) (mid : Edge → Nat)
    (ts : List (Nat × Nat × Nat)) :
    triangles (ts.flatMap (children CW_winding mid)) =
      ts.flatMap (fun t => triangles (children CW_winding mid t)) := by
  induction ts with
  | nil => rfl
  | cons t ts ih =>
    rw [List.flatMap_cons, List.flatMap_cons,
      triangles_append 4 _ _ (children_length CW_winding mid t), ih]

theorem flatMap_getElem?_four {α β : Type} (f : α → List β) (hf : ∀ a, (f a).length = 4)
    (ts : List α) : ∀ (t : Nat) (a : α), ts[t]? = some a → ∀ j, j < 4 →
      (ts.flatMap f)[4 * t + j]? = (f a)[j]? := by
  induction ts with
  | nil => intro t a h; simp at h
  | cons x xs ih =>
    intro t a h j hj
    rw [List.flatMap_cons]
    cases t with
    | zero =>
      simp only [List.getElem?_cons_zero, Option.some.injEq] at h
      subst h
      rw [List.getElem?_append_left (by rw [hf]; omega)]
      simp
    | succ t =>
      simp only [List.getElem?_cons_succ] at h
      rw [List.getElem?_append_right (by rw [hf]; omega), hf]
      have : 4 * (t + 1) + j - 4 = 4 * t + j := by omega
      rw [this]
      exact ih t a h j hj

theorem lookupMidpoint_congr (m : List (Edge × Nat)) {e1 e2 : Edge}
    (h : undirected e1 = undirected e2) : lookupMidpoint m e1 = lookupMidpoint m e2 := by
  have hp : (fun entry : Edge × Nat => pairCompare entry.1 e1) =
      fun entry => pairCompare entry.1 e2 := by
    funext entry
    rw [Bool.eq_iff_iff, pairCompare_iff, pairCompare_iff, h]
  simp only [lookupMidpoint, findMidpoint, hp]

theorem subdivideLoop_table_size (mesh : ofMesh K) (CW_winding normalizeVert : Bool) :
    (subdivideLoop normalize mesh CW_winding normalizeVert).midpoints.length =
      numUndirectedEdges mesh.indices := by
  have hinv := subdivideLoop_inv normalize CW_winding normalizeVert mesh
  have hperm : (((subdivideLoop normalize mesh CW_winding normalizeVert).midpoints.map
      Prod.fst).map undirected).Perm ((meshEdges mesh.indices).map undirected).dedup := by
    rw [List.perm_ext_iff_of_nodup (table_keys_nodup hinv) (List.nodup_dedup _)]
    intro u
    simp only [List.mem_dedup, List.mem_map]
    constructor
    · rintro ⟨k, ⟨entry, hentry, rfl⟩, rfl⟩
      exact ⟨entry.1, subdivideLoop_keys normalize CW_winding normalizeVert mesh entry hentry,
        rfl⟩
    · rintro ⟨e, he, rfl⟩
      obtain ⟨k, hk, hc⟩ := lookupMidpoint_mem
        (subdivideLoop_lookup normalize CW_winding normalizeVert mesh e he)
      exact ⟨k, ⟨_, hk, rfl⟩, (pairCompare_iff k e).mp hc⟩
  have := hperm.length_eq
  simpa [numUndirectedEdges] using this

theorem midpointOf_injective (mesh : ofMesh K) (CW_winding normalizeVert : Bool)
    (e1 e2 : Edge) (h1 : e1 ∈ meshEdges mesh.indices) (h2 : e2 ∈ meshEdges mesh.indices)
    (h : midpointOf normalize mesh CW_winding normalizeVert e1.1 e1.2 =
      midpointOf normalize mesh CW_winding normalizeVert e2.1 e2.2) :
    undirected e1 = undirected e2 := by
  have hinv := subdivideLoop_inv normalize CW_winding normalizeVert mesh
  obtain ⟨k1, hk1, hc1⟩ := lookupMidpoint_mem
    (subdivideLoop_lookup normalize CW_winding normalizeVert mesh e1 h1)
  obtain ⟨k2, hk2, hc2⟩ := lookupMidpoint_mem
    (subdivideLoop_lookup normalize CW_winding normalizeVert mesh e2 h2)
  have hnd : ((subdivideLoop normalize mesh CW_winding normalizeVert).midpoints.map
      Prod.snd).Nodup := by
    rw [hinv.values]
    exact List.nodup_range' _ _
  have heq := List.inj_on_of_nodup_map hnd hk1 hk2 h
  have hk : k1 = k2 := congrArg Prod.fst heq
  subst hk
  rw [← (pairCompare_iff k1 e1).mp hc1, (pairCompare_iff k1 e2).mp hc2]

theorem numUndirectedEdges_triangle (a b c : Nat) (hab : a ≠ b) (hbc : b ≠ c) (hac : a ≠ c) :
    numUndirectedEdges [a, b, c] = 3 := by
  have hnd : ([(a, b), (b, c), (a, c)].map undirected).Nodup := by
    simp only [List.map_cons, List.map_nil, List.nodup_cons, List.mem_cons, List.mem_singleton,
      List.not_mem_nil, not_false_eq_true, List.nodup_nil, and_true, not_or, undirected,
      Prod.mk.injEq, Nat.min_def, Nat.max_def]
    refine ⟨⟨?_, ?_⟩, ?_⟩ <;> split_ifs <;> omega
  simp only [numUndirectedEdges, meshEdges, triangles, triangleEdges, List.flatMap_cons,
    List.flatMap_nil, List.append_nil]
  rw [hnd.dedup]
  rfl

end Counting

/-! ## Where the new vertices are -/

section Positions

variable {K : Type} [Field K] (normalize : Vec3 K → Vec3 K) (CW_winding normalizeVert : Bool)

theorem Vec3.add_comm' (a b : Vec3 K) : a + b = b + a := by
  show Vec3.mk _ _ _ = Vec3.mk _ _ _
  rw [add_comm a.x, add_comm a.y, add_comm a.z]

theorem midpointPosition_congr (vertices : List (Vec3 K)) {k e : Edge}
    (h : pairCompare k e = true) :
    midpointPosition normalize normalizeVert vertices k =
      midpointPosition normalize normalizeVert vertices e := by
  obtain ⟨a, b⟩ := k
  obtain ⟨c, d⟩ := e
  simp only [pairCompare, Bool.or_eq_true, Bool.and_eq_true, beq_iff_eq] at h
  rcases h with ⟨rfl, rfl⟩ | ⟨rfl, rfl⟩
  · rfl
  · simp only [midpointPosition]
    rw [Vec3.add_comm']

theorem addMidpoint_vertices (vs0 : List (Vec3 K)) (s : SubdivState K) (i1 i2 : Nat)
    (h1 : i1 < vs0.length) (h2 : i2 < vs0.length)
    (hs : s.vertices = vs0 ++ s.midpoints.map
      (fun entry => midpointPosition normalize normalizeVert vs0 entry.1)) :
    (addMidpoint normalize normalizeVert s i1 i2).2.vertices =
      vs0 ++ (addMidpoint normalize normalizeVert s i1 i2).2.midpoints.map
        (fun entry => midpointPosition normalize normalizeVert vs0 entry.1) := by
  unfold addMidpoint
  split
  · have g1 : s.vertices.getD i1 0 = vs0.getD i1 0 := by
      rw [hs, List.getD_eq_getElem?_getD, List.getD_eq_getElem?_getD,
        List.getElem?_append_left h1]
    have g2 : s.vertices.getD i2 0 = vs0.getD i2 0 := by
      rw [hs, List.getD_eq_getElem?_getD, List.getD_eq_getElem?_getD,
        List.getElem?_append_left h2]
    simp only [g1, g2, List.map_append, List.map_cons, List.map_nil, midpointPosition]
    simp only [midpointPosition] at hs
    rw [hs, List.append_assoc]
  · exact hs

theorem subdivideStep_vertices (vs0 : List (Vec3 K)) (s : SubdivState K) (t : Nat × Nat × Nat)
    (ht : t.1 < vs0.length ∧ t.2.1 < vs0.length ∧ t.2.2 < vs0.length)
    (hs : s.vertices = vs0 ++ s.midpoints.map
      (fun entry => midpointPosition normalize normalizeVert vs0 entry.1)) :
    (subdivideStep normalize CW_winding normalizeVert s t).vertices =
      vs0 ++ (subdivideStep normalize CW_winding normalizeVert s t).midpoints.map
        (fun entry => midpointPosition normalize normalizeVert vs0 entry.1) := by
  have h := addMidpoint_vertices normalize normalizeVert vs0 _ t.1 t.2.2 ht.1 ht.2.2
    (addMidpoint_vertices normalize normalizeVert vs0 _ t.2.1 t.2.2 ht.2.1 ht.2.2
      (addMidpoint_vertices normalize normalizeVert vs0 s t.1 t.2.1 ht.1 ht.2.1 hs))
  unfold subdivideStep
  split <;> exact h

theorem foldl_vertices (vs0 : List (Vec3 K)) (ts : List (Nat × Nat × Nat)) :
    ∀ s : SubdivState K,
      (∀ t ∈ ts, t.1 < vs0.length ∧ t.2.1 < vs0.length ∧ t.2.2 < vs0.length) →
      s.vertices = vs0 ++ s.midpoints.map
        (fun entry => midpointPosition normalize normalizeVert vs0 entry.1) →
      (ts.foldl (subdivideStep normalize CW_winding normalizeVert) s).vertices =
        vs0 ++ (ts.foldl (subdivideStep normalize CW_winding normalizeVert) s).midpoints.map
          (fun entry => midpointPosition normalize normalizeVert vs0 entry.1) := by
  induction ts with
  | nil => intro s _ hs; exact hs
  | cons t ts ih =>
    intro s hts hs
    exact ih _ (fun u hu => hts u (List.mem_cons_of_mem _ hu))
      (subdivideStep_vertices normalize CW_winding normalizeVert vs0 s t
        (hts t (List.mem_cons_self _ _)) hs)

/-- On a well-formed mesh the pass keeps the old vertices and appends, for each table entry in
insertion order, the midpoint position of its key. -/
theorem subdivideLoop_vertices (mesh : ofMesh K) (hwf : mesh.WellFormed) :
    (subdivideLoop normalize mesh CW_winding normalizeVert).vertices =
      mesh.vertices ++ (subdivideLoop normalize mesh CW_winding normalizeVert).midpoints.map
        (fun entry => midpointPosition normalize normalizeVert mesh.vertices entry.1) := by
  obtain ⟨-, ⟨T, hT⟩, hlt⟩ := hwf
  exact foldl_vertices normalize CW_winding normalizeVert mesh.vertices _ _
    (triangles_mem_lt T mesh.indices hT hlt) (by simp)

/-- An old index still names the old vertex after the pass. -/
theorem subdivideLoop_vertex_old (mesh : ofMesh K) (hwf : mesh.WellFormed) (i : Nat)
    (hi : i < mesh.vertices.length) :
    (subdivideLoop normalize mesh CW_winding normalizeVert).vertices.getD i 0 =
      mesh.vertices.getD i 0 := by
  rw [subdivideLoop_vertices normalize CW_winding normalizeVert mesh hwf,
    List.getD_eq_getElem?_getD, List.getD_eq_getElem?_getD, List.getElem?_append_left hi]

/-- The vertex stored at the midpoint index of an edge is the midpoint position of that edge. -/
theorem subdivideLoop_vertex_midpoint (mesh : ofMesh K) (hwf : mesh.WellFormed) (e : Edge)
    (he : e ∈ meshEdges mesh.indices) :
    (subdivideLoop normalize mesh CW_winding normalizeVert).vertices.getD
        (midpointOf normalize mesh CW_winding normalizeVert e.1 e.2) 0 =
      midpointPosition normalize normalizeVert mesh.vertices e := by
  have hinv := subdivideLoop_inv normalize CW_winding normalizeVert mesh
  obtain ⟨k, hk, hc⟩ := lookupMidpoint_mem
    (subdivideLoop_lookup normalize CW_winding normalizeVert mesh e he)
  obtain ⟨j, hj, hget⟩ := List.mem_iff_getElem.mp hk
  have hval : ((subdivideLoop normalize mesh CW_winding normalizeVert).midpoints.map
      Prod.snd)[j]? = some (midpointOf normalize mesh CW_winding normalizeVert e.1 e.2) := by
    rw [List.getElem?_map, List.getElem?_eq_getElem hj, hget]
    rfl
  rw [hinv.values, List.getElem?_range' _ _ hj] at hval
  simp only [Nat.one_mul, Option.some.injEq] at hval
  rw [← hval, subdivideLoop_vertices normalize CW_winding normalizeVert mesh hwf,
    List.getD_eq_getElem?_getD, List.getElem?_append_right (Nat.le_add_right _ _),
    Nat.add_sub_cancel_left, List.getElem?_map, List.getElem?_eq_getElem hj, hget]
  exact midpointPosition_congr normalize normalizeVert mesh.vertices hc

end Positions

/-! ## Vector algebra -/

section Algebra

variable {K : Type}

theorem Vec3.add_def [Add K] (a b : Vec3 K) : a + b = ⟨a.x + b.x, a.y + b.y, a.z + b.z⟩ := rfl

theorem Vec3.sub_def [Sub K] (a b : Vec3 K) : a - b = ⟨a.x - b.x, a.y - b.y, a.z - b.z⟩ := rfl

theorem Vec3.neg_def [Neg K] (a : Vec3 K) : -a = ⟨-a.x, -a.y, -a.z⟩ := rfl

theorem Vec3.zero_def [Zero K] : (0 : Vec3 K) = ⟨0, 0, 0⟩ := rfl

theorem Vec3.ext_iff' (a b : Vec3 K) : a = b ↔ a.x = b.x ∧ a.y = b.y ∧ a.z = b.z := by
  cases a
  cases b
  simp

/-- A non-zero vector is not a positive multiple of its own `-1/4` multiple. -/
theorem Vec3.scale_neg_quarter_ne [LinearOrderedField K] (n : Vec3 K) (hn : n ≠ 0) (c : K)
    (hc : 0 < c) : n.scale (-(1 / 4)) ≠ n.scale c := by
  intro h
  apply hn
  rw [Vec3.ext_iff'] at h ⊢
  simp only [Vec3.scale, Vec3.zero_def] at h ⊢
  have hpos : c + 1 / 4 ≠ 0 := by positivity
  refine ⟨?_, ?_, ?_⟩
  · have : n.x * (c + 1 / 4) = 0 := by linear_combination -h.1
    exact (mul_eq_zero.mp this).resolve_right hpos
  · have : n.y * (c + 1 / 4) = 0 := by linear_combination -h.2.1
    exact (mul_eq_zero.mp this).resolve_right hpos
  · have : n.z * (c + 1 / 4) = 0 := by linear_combination -h.2.2
    exact (mul_eq_zero.mp this).resolve_right hpos

/-- The four children that the clockwise branch emits for a triangle `v1 v2 v3` with edge
midpoints `(v1 + v2) / 2`, `(v2 + v3) / 2`, `(v1 + v3) / 2`: each has `-1/4` of the parent's
cross product. -/
theorem Vec3.cross_children_cw [Field K] [CharZero K] (v1 v2 v3 : Vec3 K) :
    Vec3.cross (v1 - (v1 + v2).scale (1 / 2)) ((v1 + v3).scale (1 / 2) - (v1 + v2).scale (1 / 2))
      = (Vec3.cross (v2 - v1) (v3 - v1)).scale (-(1 / 4)) ∧
    Vec3.cross ((v1 + v2).scale (1 / 2) - v2) ((v2 + v3).scale (1 / 2) - v2)
      = (Vec3.cross (v2 - v1) (v3 - v1)).scale (-(1 / 4)) ∧
    Vec3.cross ((v1 + v2).scale (1 / 2) - (v2 + v3).scale (1 / 2))
        ((v1 + v3).scale (1 / 2) - (v2 + v3).scale (1 / 2))
      = (Vec3.cross (v2 - v1) (v3 - v1)).scale (-(1 / 4)) ∧
    Vec3.cross ((v1 + v3).scale (1 / 2) - (v2 + v3).scale (1 / 2)) (v3 - (v2 + v3).scale (1 / 2))
      = (Vec3.cross (v2 - v1) (v3 - v1)).scale (-(1 / 4)) := by
  refine ⟨?_, ?_, ?_, ?_⟩ <;>
    · simp only [Vec3.cross, Vec3.scale, Vec3.add_def, Vec3.sub_def, Vec3.mk.injEq]
      refine ⟨?_, ?_, ?_⟩ <;> ring

end Algebra

/-! ## Normals after a pass -/

section Normals

variable {K : Type} [Field K] (normalize : Vec3 K → Vec3 K)

/-- The normals a pass with `recalcNormal = true` leaves are those `recalcNormals` computes
with `CW_winding = false`, whatever flag the pass was given. -/
theorem subdivideMesh_recalc_flag (mesh : ofMesh K) (CW_winding normalizeVert : Bool) :
    (subdivideMesh normalize mesh 1 true CW_winding normalizeVert).mesh =
      (recalcNormals normalize
        (subdivideMesh normalize mesh 1 false CW_winding normalizeVert).mesh false).mesh := by
  by_cases hmode : mesh.mode = .OF_PRIMITIVE_TRIANGLES
  · simp [subdivideMesh, subdivideIter, subdivide, recalcNormals, hmode]
  · simp [subdivideMesh, recalcNormals, hmode]

/-- The normal of vertex 0 of a six-vertex mesh with the index buffer that the clockwise pass
leaves for a single triangle: vertex 0 lies on the first triangle `(3, 0, 5)` only. -/
theorem computeNormals_head (vs : List (Vec3 K)) (h : vs.length = 6) (CW_winding : Bool) :
    (computeNormals normalize vs [3, 0, 5, 1, 3, 4, 4, 3, 5, 4, 5, 2] CW_winding)[0]? =
      some (normalize (0 + (if CW_winding then
        -normalize (Vec3.cross (vs.getD 0 0 - vs.getD 3 0) (vs.getD 5 0 - vs.getD 3 0))
        else normalize (Vec3.cross (vs.getD 0 0 - vs.getD 3 0) (vs.getD 5 0 - vs.getD 3 0))))) := by
  simp only [computeNormals, triangles, List.foldl_cons, List.foldl_nil, recalcStep, addAt, h]
  simp [List.replicate]

theorem Vec3.zero_add' (v : Vec3 K) : 0 + v = v := by
  simp [Vec3.add_def, Vec3.zero_def]

theorem Vec3.eq_zero_of_eq_neg [CharZero K] (v : Vec3 K) (h : v = -v) : v = 0 := by
  rw [Vec3.ext_iff'] at h ⊢
  simp only [Vec3.neg_def, Vec3.zero_def] at h ⊢
  have two : (2 : K) ≠ 0 := two_ne_zero
  refine ⟨?_, ?_, ?_⟩
  · have : 2 * v.x = 0 := by linear_combination h.1
    exact (mul_eq_zero.mp this).resolve_left two
  · have : 2 * v.y = 0 := by linear_combination h.2.1
    exact (mul_eq_zero.mp this).resolve_left two
  · have : 2 * v.z = 0 := by linear_combination h.2.2
    exact (mul_eq_zero.mp this).resolve_left two

/-- With an odd `normalize` that sends no non-zero vector to zero, the two winding flags give
different normals on that index buffer as soon as the first triangle is not degenerate. -/
theorem computeNormals_flag_ne [CharZero K] (hodd : ∀ v, normalize (-v) = -normalize v)
    (hnz : ∀ v, v ≠ 0 → normalize v ≠ 0) (vs : List (Vec3 K)) (hlen : vs.length = 6)
    (hc : Vec3.cross (vs.getD 0 0 - vs.getD 3 0) (vs.getD 5 0 - vs.getD 3 0) ≠ 0) :
    computeNormals normalize vs [3, 0, 5, 1, 3, 4, 4, 3, 5, 4, 5, 2] false ≠
      computeNormals normalize vs [3, 0, 5, 1, 3, 4, 4, 3, 5, 4, 5, 2] true := by
  intro h
  have h0 := congrArg (fun l : List (Vec3 K) => l[0]?) h
  simp only [computeNormals_head normalize vs hlen, Bool.false_eq_true, if_false, if_true,
    Option.some.injEq, Vec3.zero_add', hodd] at h0
  exact hnz _ (hnz _ hc) (Vec3.eq_zero_of_eq_neg _ h0)

/-- The Euclidean `glm::normalize` over the reals, `v * inversesqrt(dot(v, v))`, is odd. -/
theorem euclidean_normalize_odd (v : Vec3 ℝ) :
    (-v).scale (Real.sqrt (Vec3.dot (-v) (-v)))⁻¹ = -(v.scale (Real.sqrt (Vec3.dot v v))⁻¹) := by
  simp [Vec3.neg_def, Vec3.scale, Vec3.dot]

/-- The Euclidean `glm::normalize` over the reals sends no non-zero vector to zero. -/
theorem euclidean_normalize_ne_zero (v : Vec3 ℝ) (hv : v ≠ 0) :
    v.scale (Real.sqrt (Vec3.dot v v))⁻¹ ≠ 0 := by
  intro h
  apply hv
  have hd : 0 < Vec3.dot v v := by
    have hne : ¬ (v.x = 0 ∧ v.y = 0 ∧ v.z = 0) := by
      intro h0
      exact hv ((Vec3.ext_iff' v 0).mpr h0)
    simp only [Vec3.dot]
    by_contra hle
    have hx := mul_self_nonneg v.x
    have hy := mul_self_nonneg v.y
    have hz := mul_self_nonneg v.z
    have hx0 : v.x * v.x = 0 := by linarith
    have hy0 : v.y * v.y = 0 := by linarith
    have hz0 : v.z * v.z = 0 := by linarith
    exact hne ⟨mul_self_eq_zero.mp hx0, mul_self_eq_zero.mp hy0, mul_self_eq_zero.mp hz0⟩
  have hc : (Real.sqrt (Vec3.dot v v))⁻¹ ≠ 0 := inv_ne_zero (Real.sqrt_pos.mpr hd).ne'
  rw [Vec3.ext_iff'] at h ⊢
  simp only [Vec3.scale, Vec3.zero_def] at h ⊢
  exact ⟨(mul_eq_zero.mp h.1).resolve_right hc, (mul_eq_zero.mp h.2.1).resolve_right hc,
    (mul_eq_zero.mp h.2.2).resolve_right hc⟩

end Normals

/-! ## The claims -/

section Claims

/-- C1.  On a triangle-list mesh whose index count is `3 * T`, `subdivideMesh(mesh, k, ...)`
returns normally, whatever the three flags, and leaves an index buffer of length exactly
`3 * 4^k * T`. -/
theorem subdivideMesh_index_count {K : Type} [Field K] (normalize : Vec3 K → Vec3 K)
    (mesh : ofMesh K) (k T : Nat)
    (recalcNormal CW_winding normalizeVert : Bool)
    (hmode : mesh.mode = .OF_PRIMITIVE_TRIANGLES) (hT : mesh.indices.length = 3 * T) :
    (subdivideMesh normalize mesh k recalcNormal CW_winding normalizeVert).thrown = none ∧
    (subdivideMesh normalize mesh k recalcNormal CW_winding
      normalizeVert).mesh.indices.length = 3 * 4 ^ k * T := by
  rw [subdivideMesh_of_triangles normalize mesh k recalcNormal CW_winding normalizeVert hmode]
  exact subdivideIter_count normalize recalcNormal CW_winding normalizeVert k mesh T hmode hT

/-- Witness for C1: the two-triangle mesh subdivided three times has `3 * 4^3 * 2` indices. -/
theorem subdivideMesh_index_count_witness :
    (twoTriangles.mode = .OF_PRIMITIVE_TRIANGLES ∧ twoTriangles.indices.length = 3 * 2) ∧
    (subdivideMesh (fun v => v) twoTriangles 3 true true false).thrown = none ∧
    (subdivideMesh (fun v => v) twoTriangles 3 true true false).mesh.indices.length
      = 3 * 4 ^ 3 * 2 :=
  ⟨⟨rfl, rfl⟩, subdivideMesh_index_count (fun v => v) twoTriangles 3 2 true true false rfl rfl⟩

/-- C2.  Subdivision preserves the mesh invariant: on a triangle-list mesh whose index count is
a multiple of 3 and whose indices are all below its vertex count, `subdivideMesh(mesh, k, ...)`
(any `k`, either winding flag, `recalcNormal = false`, and equally `recalcNormal = true`)
returns normally and every index of the new index buffer is below the new vertex count. -/
theorem subdivideMesh_indices_in_range {K : Type} [Field K] (normalize : Vec3 K → Vec3 K)
    (mesh : ofMesh K) (k : Nat)
    (recalcNormal CW_winding normalizeVert : Bool)
    (hmode : mesh.mode = .OF_PRIMITIVE_TRIANGLES) (h3 : 3 ∣ mesh.indices.length)
    (hlt : ∀ i ∈ mesh.indices, i < mesh.vertices.length) :
    (subdivideMesh normalize mesh k recalcNormal CW_winding normalizeVert).thrown = none ∧
    ∀ i ∈ (subdivideMesh normalize mesh k recalcNormal CW_winding normalizeVert).mesh.indices,
      i < (subdivideMesh normalize mesh k recalcNormal CW_winding
        normalizeVert).mesh.vertices.length := by
  rw [subdivideMesh_of_triangles normalize mesh k recalcNormal CW_winding normalizeVert hmode]
  have h := subdivideIter_wellFormed normalize recalcNormal CW_winding normalizeVert k mesh
    ⟨hmode, h3, hlt⟩
  exact ⟨h.1, h.2.2.2⟩

/-- Witness for C2: the two-triangle mesh, two passes, clockwise flag, no normals. -/
theorem subdivideMesh_indices_in_range_witness :
    (twoTriangles.mode = .OF_PRIMITIVE_TRIANGLES ∧ 3 ∣ twoTriangles.indices.length ∧
      ∀ i ∈ twoTriangles.indices, i < twoTriangles.vertices.length) ∧
    (subdivideMesh (fun v => v) twoTriangles 2 false true false).thrown = none ∧
    ∀ i ∈ (subdivideMesh (fun v => v) twoTriangles 2 false true false).mesh.indices,
      i < (subdivideMesh (fun v => v) twoTriangles 2 false true false).mesh.vertices.length :=
  ⟨⟨rfl, by decide, by decide⟩,
    subdivideMesh_indices_in_range (fun v => v) twoTriangles 2 false true false rfl
      (by decide) (by decide)⟩

/-- C3.  Edge sharing in one counterclockwise pass.  The midpoint index `midpointOf` is a
function of the unordered pair (`mid(a, b) = mid(b, a)`), and for every input triangle number
`t` with corners `(i1, i2, i3)` the output triangles `4t .. 4t+3` are the four triples
`(i1, m12, m13)`, `(m12, i2, m23)`, `(m12, m23, m13)`, `(m13, m23, i3)` (top, left, centre,
right, in the order the code emits them) with `m12 = mid(i1, i2)`, `m23 = mid(i2, i3)`,
`m13 = mid(i1, i3)`.  So two triangles that share an edge, in either direction, use the same
midpoint index for it. -/
theorem subdivide_edge_sharing {K : Type} [Field K] (normalize : Vec3 K → Vec3 K)
    (mesh : ofMesh K)
    (recalcNormal normalizeVert : Bool) (hmode : mesh.mode = .OF_PRIMITIVE_TRIANGLES) :
    ∃ mid : Nat → Nat → Nat, (∀ a b, mid a b = mid b a) ∧
      ∀ (t i1 i2 i3 : Nat), (triangles mesh.indices)[t]? = some (i1, i2, i3) →
        (triangles (subdivideMesh normalize mesh 1 recalcNormal false
            normalizeVert).mesh.indices)[4 * t]? = some (i1, mid i1 i2, mid i1 i3) ∧
        (triangles (subdivideMesh normalize mesh 1 recalcNormal false
            normalizeVert).mesh.indices)[4 * t + 1]? = some (mid i1 i2, i2, mid i2 i3) ∧
        (triangles (subdivideMesh normalize mesh 1 recalcNormal false
            normalizeVert).mesh.indices)[4 * t + 2]? = some (mid i1 i2, mid i2 i3, mid i1 i3) ∧
        (triangles (subdivideMesh normalize mesh 1 recalcNormal false
            normalizeVert).mesh.indices)[4 * t + 3]? = some (mid i1 i3, mid i2 i3, i3) := by
  refine ⟨midpointOf normalize mesh false normalizeVert,
    midpointOf_comm normalize false normalizeVert mesh, ?_⟩
  intro t i1 i2 i3 ht
  rw [subdivideMesh_of_triangles normalize mesh 1 recalcNormal false normalizeVert hmode,
    subdivideIter_succ normalize mesh 0 recalcNormal false normalizeVert hmode]
  simp only [subdivideIter]
  rw [(subdivide_of_triangles normalize mesh recalcNormal false normalizeVert hmode).2.2.2,
    subdivideLoop_newIndices, triangles_flatMap_children]
  have key := flatMap_getElem?_four
    (fun t => triangles (children false
      (fun e => midpointOf normalize mesh false normalizeVert e.1 e.2) t))
    (fun a => by simp [children, triangles]) (triangles mesh.indices) t (i1, i2, i3) ht
  refine ⟨?_, ?_, ?_, ?_⟩
  · simpa [children, triangles] using key 0 (by omega)
  · simpa [children, triangles] using key 1 (by omega)
  · simpa [children, triangles] using key 2 (by omega)
  · simpa [children, triangles] using key 3 (by omega)

/-- Witness for C3, on the two-triangle mesh whose triangles visit their common edge in
opposite directions. -/
theorem subdivide_edge_sharing_witness :
    twoTriangles.mode = .OF_PRIMITIVE_TRIANGLES ∧
    ∃ mid : Nat → Nat → Nat, (∀ a b, mid a b = mid b a) ∧
      ∀ (t i1 i2 i3 : Nat), (triangles twoTriangles.indices)[t]? = some (i1, i2, i3) →
        (triangles (subdivideMesh (fun v => v) twoTriangles 1 false false
            false).mesh.indices)[4 * t]? = some (i1, mid i1 i2, mid i1 i3) ∧
        (triangles (subdivideMesh (fun v => v) twoTriangles 1 false false
            false).mesh.indices)[4 * t + 1]? = some (mid i1 i2, i2, mid i2 i3) ∧
        (triangles (subdivideMesh (fun v => v) twoTriangles 1 false false
            false).mesh.indices)[4 * t + 2]? = some (mid i1 i2, mid i2 i3, mid i1 i3) ∧
        (triangles (subdivideMesh (fun v => v) twoTriangles 1 false false
            false).mesh.indices)[4 * t + 3]? = some (mid i1 i3, mid i2 i3, i3) :=
  ⟨rfl, subdivide_edge_sharing (fun v => v) twoTriangles false false rfl⟩

/-- C4.  One pass adds exactly one vertex per distinct undirected edge.  On a triangle-list
mesh, after `subdivideMesh(mesh, 1, ...)`: the index buffer is the list of `children` built
from `midpointOf`; the vertex count has grown by the number of distinct unordered pairs among
the edges `(i1, i2)`, `(i2, i3)`, `(i1, i3)` of the input triangles; edges with different
unordered pairs have different midpoint indices, all of them new (at least the old vertex
count, below the new one); and a 3-vertex mesh with one triangle of distinct corners ends with
exactly 6 vertices and 4 triangles. -/
theorem subdivide_one_vertex_per_edge {K : Type} [Field K] (normalize : Vec3 K → Vec3 K)
    (mesh : ofMesh K)
    (recalcNormal CW_winding normalizeVert : Bool)
    (hmode : mesh.mode = .OF_PRIMITIVE_TRIANGLES) :
    (subdivideMesh normalize mesh 1 recalcNormal CW_winding normalizeVert).mesh.indices =
      (triangles mesh.indices).flatMap (children CW_winding
        (fun e => midpointOf normalize mesh CW_winding normalizeVert e.1 e.2)) ∧
    (subdivideMesh normalize mesh 1 recalcNormal CW_winding normalizeVert).mesh.vertices.length =
      mesh.vertices.length + numUndirectedEdges mesh.indices ∧
    (∀ e1 ∈ meshEdges mesh.indices, ∀ e2 ∈ meshEdges mesh.indices,
      undirected e1 ≠ undirected e2 →
        midpointOf normalize mesh CW_winding normalizeVert e1.1 e1.2 ≠
          midpointOf normalize mesh CW_winding normalizeVert e2.1 e2.2) ∧
    (∀ e ∈ meshEdges mesh.indices,
      mesh.vertices.length ≤ midpointOf normalize mesh CW_winding normalizeVert e.1 e.2 ∧
      midpointOf normalize mesh CW_winding normalizeVert e.1 e.2 <
        (subdivideMesh normalize mesh 1 recalcNormal CW_winding
          normalizeVert).mesh.vertices.length) ∧
    (∀ a b c : Nat, mesh.vertices.length = 3 → mesh.indices = [a, b, c] →
      a ≠ b → b ≠ c → a ≠ c →
      (subdivideMesh normalize mesh 1 recalcNormal CW_winding
        normalizeVert).mesh.vertices.length = 6 ∧
      (triangles (subdivideMesh normalize mesh 1 recalcNormal CW_winding
        normalizeVert).mesh.indices).length = 4) := by
  have hs := subdivide_of_triangles normalize mesh recalcNormal CW_winding normalizeVert hmode
  have hrun : (subdivideMesh normalize mesh 1 recalcNormal CW_winding normalizeVert).mesh =
      (subdivide normalize mesh recalcNormal CW_winding normalizeVert).mesh := by
    rw [subdivideMesh_of_triangles normalize mesh 1 recalcNormal CW_winding normalizeVert hmode,
      subdivideIter_succ normalize mesh 0 recalcNormal CW_winding normalizeVert hmode]
    rfl
  have hcount : (subdivide normalize mesh recalcNormal CW_winding
      normalizeVert).mesh.vertices.length =
      mesh.vertices.length + numUndirectedEdges mesh.indices := by
    rw [hs.2.2.1, (subdivideLoop_inv normalize CW_winding normalizeVert mesh).verts_len,
      subdivideLoop_table_size]
  rw [hrun]
  refine ⟨?_, hcount, ?_, ?_, ?_⟩
  · rw [hs.2.2.2, subdivideLoop_newIndices]
  · intro e1 h1 e2 h2 hne heq
    exact hne (midpointOf_injective normalize mesh CW_winding normalizeVert e1 e2 h1 h2 heq)
  · intro e he
    rw [hs.2.2.1]
    exact midpointOf_range normalize CW_winding normalizeVert mesh e he
  · intro a b c hV hidx hab hbc hac
    constructor
    · rw [hcount, hV, hidx, numUndirectedEdges_triangle a b c hab hbc hac]
    · have hlen := subdivide_indices_length normalize mesh recalcNormal CW_winding
        normalizeVert hmode
      rw [hidx] at hlen
      exact triangles_length 4 _ (by rw [hlen]; rfl)

/-- Witness for C4: the single triangle `(0, 1, 2)` on three vertices. -/
theorem subdivide_one_vertex_per_edge_witness :
    (unitTriangle ℚ).mode = .OF_PRIMITIVE_TRIANGLES ∧
    (subdivideMesh (fun v => v) (unitTriangle ℚ) 1 true false false).mesh.vertices.length = 6 ∧
    (triangles (subdivideMesh (fun v => v) (unitTriangle ℚ) 1 true false
      false).mesh.indices).length = 4 :=
  ⟨rfl, (subdivide_one_vertex_per_edge (fun v => v) (unitTriangle ℚ) true false false rfl).2.2.2.2
    0 1 2 rfl rfl (by decide) (by decide) (by decide)⟩

/-- C5.  Double winding swap is the identity: on a triangle-list mesh whose index count is a
multiple of 3, both calls of `swapWindingOrder` return normally and the second leaves the
original index buffer (and the original vertices, normals and mode). -/
theorem swapWindingOrder_twice {K : Type} (mesh : ofMesh K)
    (hmode : mesh.mode = .OF_PRIMITIVE_TRIANGLES) (_h3 : 3 ∣ mesh.indices.length) :
    (swapWindingOrder mesh).thrown = none ∧
    swapWindingOrder (swapWindingOrder mesh).mesh = { thrown := none, mesh := mesh } := by
  obtain ⟨mode, vertices, normals, indices⟩ := mesh
  simp only at hmode
  subst hmode
  simp [swapWindingOrder, swapPairs_swapPairs]

/-- Witness for C5: the two-triangle mesh. -/
theorem swapWindingOrder_twice_witness :
    (twoTriangles.mode = .OF_PRIMITIVE_TRIANGLES ∧ 3 ∣ twoTriangles.indices.length) ∧
    (swapWindingOrder twoTriangles).thrown = none ∧
    swapWindingOrder (swapWindingOrder twoTriangles).mesh =
      { thrown := none, mesh := twoTriangles } :=
  ⟨⟨rfl, by decide⟩, swapWindingOrder_twice twoTriangles rfl (by decide)⟩

/-- C6.  Each of `recalcNormals`, `swapWindingOrder` and `subdivideMesh` (for every iteration
count, `0` included) throws `std::invalid_argument` when the mesh's mode is not the triangle
list, leaving the whole mesh (vertices, normals, indices) as it was; on a triangle-list mesh
whose indices are in triples and in range, none of them throws. -/
theorem invalid_topology {K : Type} [Field K] (normalize : Vec3 K → Vec3 K)
    (mesh : ofMesh K) (iter : Nat)
    (recalcNormal CW_winding normalizeVert : Bool) :
    (mesh.mode ≠ .OF_PRIMITIVE_TRIANGLES →
      recalcNormals normalize mesh CW_winding =
        { thrown := some .invalid_argument, mesh := mesh } ∧
      swapWindingOrder mesh = { thrown := some .invalid_argument, mesh := mesh } ∧
      subdivideMesh normalize mesh iter recalcNormal CW_winding normalizeVert =
        { thrown := some .invalid_argument, mesh := mesh }) ∧
    (mesh.WellFormed →
      (recalcNormals normalize mesh CW_winding).thrown = none ∧
      (swapWindingOrder mesh).thrown = none ∧
      (subdivideMesh normalize mesh iter recalcNormal CW_winding normalizeVert).thrown =
        none) := by
  constructor
  · intro h
    simp [recalcNormals, swapWindingOrder, subdivideMesh, h]
  · intro h
    refine ⟨by simp [recalcNormals, h.1], by simp [swapWindingOrder, h.1], ?_⟩
    rw [subdivideMesh_of_triangles normalize mesh iter recalcNormal CW_winding normalizeVert h.1]
    exact (subdivideIter_wellFormed normalize recalcNormal CW_winding normalizeVert iter mesh
      h).1

/-- Witness for C6: a line strip (with `iter = 0`) and the two-triangle mesh. -/
theorem invalid_topology_witness :
    (lineStrip.mode ≠ .OF_PRIMITIVE_TRIANGLES ∧
      recalcNormals (fun v => v) lineStrip true =
        { thrown := some .invalid_argument, mesh := lineStrip } ∧
      swapWindingOrder lineStrip = { thrown := some .invalid_argument, mesh := lineStrip } ∧
      subdivideMesh (fun v => v) lineStrip 0 true true false =
        { thrown := some .invalid_argument, mesh := lineStrip }) ∧
    (twoTriangles.WellFormed ∧
      (recalcNormals (fun v => v) twoTriangles false).thrown = none ∧
      (swapWindingOrder twoTriangles).thrown = none ∧
      (subdivideMesh (fun v => v) twoTriangles 2 true false false).thrown = none) :=
  ⟨⟨by decide, (invalid_topology (fun v => v) lineStrip 0 true true false).1 (by decide)⟩,
    ⟨⟨rfl, by decide, by decide⟩,
      (invalid_topology (fun v => v) twoTriangles 2 true false false).2
        ⟨rfl, by decide, by decide⟩⟩⟩

/-- C7 (what the code does instead).  The pass ends with `recalcNormals(mesh)`, which takes
the default `CW_winding = false`.  On the single triangle `(0,0,0)`, `(1,0,0)`, `(0,1,0)` with
`CW_winding = true`, for every `normalize` that is odd and sends no non-zero vector to zero:
the normals left by `subdivideMesh(mesh, 1, true, true, false)` are those of
`recalcNormals(., false)` on the mesh produced by `subdivideMesh(mesh, 1, false, true, false)`,
and they differ from those of `recalcNormals(., true)` on that mesh. -/
theorem subdivide_recalc_ignores_winding {K : Type} [Field K] [CharZero K]
    (normalize : Vec3 K → Vec3 K) (hodd : ∀ v, normalize (-v) = -normalize v)
    (hnz : ∀ v, v ≠ 0 → normalize v ≠ 0) :
    (subdivideMesh normalize (unitTriangle K) 1 true true false).mesh.normals =
      (recalcNormals normalize
        (subdivideMesh normalize (unitTriangle K) 1 false true false).mesh false).mesh.normals ∧
    (subdivideMesh normalize (unitTriangle K) 1 true true false).mesh.normals ≠
      (recalcNormals normalize
        (subdivideMesh normalize (unitTriangle K) 1 false true false).mesh true).mesh.normals := by
  have hmesh : (subdivideMesh normalize (unitTriangle K) 1 false true false).mesh =
      { mode := .OF_PRIMITIVE_TRIANGLES
        vertices := [⟨0, 0, 0⟩, ⟨1, 0, 0⟩, ⟨0, 1, 0⟩,
          ((⟨0, 0, 0⟩ : Vec3 K) + ⟨1, 0, 0⟩).scale (1 / 2),
          ((⟨1, 0, 0⟩ : Vec3 K) + ⟨0, 1, 0⟩).scale (1 / 2),
          ((⟨0, 0, 0⟩ : Vec3 K) + ⟨0, 1, 0⟩).scale (1 / 2)]
        normals := []
        indices := [3, 0, 5, 1, 3, 4, 4, 3, 5, 4, 5, 2] } := rfl
  have hmode : (subdivideMesh normalize (unitTriangle K) 1 false true false).mesh.mode =
      .OF_PRIMITIVE_TRIANGLES := rfl
  have hflag := subdivideMesh_recalc_flag normalize (unitTriangle K) true false
  refine ⟨by rw [hflag], ?_⟩
  intro h
  rw [hflag, recalcNormals_of_triangles normalize _ false hmode,
    recalcNormals_of_triangles normalize _ true hmode, hmesh] at h
  simp only at h
  refine computeNormals_flag_ne normalize hodd hnz _ (by rfl) (fun hz => ?_) h
  have hz3 := congrArg Vec3.z hz
  simp [Vec3.cross, Vec3.scale, Vec3.add_def, Vec3.sub_def, Vec3.zero_def] at hz3

/-- Witness for C7: the reals with the Euclidean `glm::normalize`. -/
theorem subdivide_recalc_ignores_winding_witness :
    ((∀ v : Vec3 ℝ, (-v).scale (Real.sqrt (Vec3.dot (-v) (-v)))⁻¹ =
        -(v.scale (Real.sqrt (Vec3.dot v v))⁻¹)) ∧
      (∀ v : Vec3 ℝ, v ≠ 0 → v.scale (Real.sqrt (Vec3.dot v v))⁻¹ ≠ 0)) ∧
    (subdivideMesh (fun v => v.scale (Real.sqrt (Vec3.dot v v))⁻¹) (unitTriangle ℝ) 1 true true
        false).mesh.normals =
      (recalcNormals (fun v => v.scale (Real.sqrt (Vec3.dot v v))⁻¹)
        (subdivideMesh (fun v => v.scale (Real.sqrt (Vec3.dot v v))⁻¹) (unitTriangle ℝ) 1 false
          true false).mesh false).mesh.normals ∧
    (subdivideMesh (fun v => v.scale (Real.sqrt (Vec3.dot v v))⁻¹) (unitTriangle ℝ) 1 true true
        false).mesh.normals ≠
      (recalcNormals (fun v => v.scale (Real.sqrt (Vec3.dot v v))⁻¹)
        (subdivideMesh (fun v => v.scale (Real.sqrt (Vec3.dot v v))⁻¹) (unitTriangle ℝ) 1 false
          true false).mesh true).mesh.normals :=
  ⟨⟨euclidean_normalize_odd, euclidean_normalize_ne_zero⟩,
    subdivide_recalc_ignores_winding (fun v => v.scale (Real.sqrt (Vec3.dot v v))⁻¹)
      euclidean_normalize_odd euclidean_normalize_ne_zero⟩

/-- One pass with `CW_winding = true` and `normalizeVert = false` on a well-formed mesh: output
triangle `4t + j` is a child of input triangle `t`, and its cross product is `-1/4` of its
parent's. -/
theorem subdivide_cw_child_cross {K : Type} [Field K] [CharZero K]
    (normalize : Vec3 K → Vec3 K) (mesh : ofMesh K) (recalcNormal : Bool)
    (hwf : mesh.WellFormed) (t i1 i2 i3 : Nat)
    (ht : (triangles mesh.indices)[t]? = some (i1, i2, i3)) (j : Nat) (hj : j < 4) :
    ∃ a b c : Nat,
      (triangles (subdivideMesh normalize mesh 1 recalcNormal true false).mesh.indices)[4 * t + j]?
        = some (a, b, c) ∧
      Vec3.cross
        ((subdivideMesh normalize mesh 1 recalcNormal true false).mesh.vertices.getD b 0 -
          (subdivideMesh normalize mesh 1 recalcNormal true false).mesh.vertices.getD a 0)
        ((subdivideMesh normalize mesh 1 recalcNormal true false).mesh.vertices.getD c 0 -
          (subdivideMesh normalize mesh 1 recalcNormal true false).mesh.vertices.getD a 0) =
        (Vec3.cross (mesh.vertices.getD i2 0 - mesh.vertices.getD i1 0)
          (mesh.vertices.getD i3 0 - mesh.vertices.getD i1 0)).scale (-(1 / 4)) := by
  have hmode := hwf.1
  obtain ⟨T, hT⟩ := hwf.2.1
  have hs := subdivide_of_triangles normalize mesh recalcNormal true false hmode
  have hrun : (subdivideMesh normalize mesh 1 recalcNormal true false).mesh =
      (subdivide normalize mesh recalcNormal true false).mesh := by
    rw [subdivideMesh_of_triangles normalize mesh 1 recalcNormal true false hmode,
      subdivideIter_succ normalize mesh 0 recalcNormal true false hmode]
    rfl
  have htmem : (i1, i2, i3) ∈ triangles mesh.indices := List.getElem?_mem ht
  have hlt := triangles_mem_lt T mesh.indices hT hwf.2.2 _ htmem
  have hedge : ∀ e ∈ triangleEdges (i1, i2, i3), e ∈ meshEdges mesh.indices :=
    fun e he => List.mem_flatMap.mpr ⟨_, htmem, he⟩
  have p1 := subdivideLoop_vertex_old normalize true false mesh hwf i1 hlt.1
  have p2 := subdivideLoop_vertex_old normalize true false mesh hwf i2 hlt.2.1
  have p3 := subdivideLoop_vertex_old normalize true false mesh hwf i3 hlt.2.2
  have p12 := subdivideLoop_vertex_midpoint normalize true false mesh hwf (i1, i2)
    (hedge _ (by simp [triangleEdges]))
  have p23 := subdivideLoop_vertex_midpoint normalize true false mesh hwf (i2, i3)
    (hedge _ (by simp [triangleEdges]))
  have p13 := subdivideLoop_vertex_midpoint normalize true false mesh hwf (i1, i3)
    (hedge _ (by simp [triangleEdges]))
  simp only [midpointPosition, Bool.false_eq_true, if_false] at p12 p23 p13
  have key := flatMap_getElem?_four
    (fun t => triangles (children true
      (fun e => midpointOf normalize mesh true false e.1 e.2) t))
    (fun a => by simp [children, triangles]) (triangles mesh.indices) t (i1, i2, i3) ht j hj
  have halg := Vec3.cross_children_cw (mesh.vertices.getD i1 0) (mesh.vertices.getD i2 0)
    (mesh.vertices.getD i3 0)
  rw [hrun, hs.2.2.1, hs.2.2.2, subdivideLoop_newIndices, triangles_flatMap_children, key]
  have hcases : j = 0 ∨ j = 1 ∨ j = 2 ∨ j = 3 := by omega
  rcases hcases with rfl | rfl | rfl | rfl
  · refine ⟨midpointOf normalize mesh true false i1 i2, i1,
      midpointOf normalize mesh true false i1 i3, by simp [children, triangles], ?_⟩
    rw [p1, p12, p13]
    exact halg.1
  · refine ⟨i2, midpointOf normalize mesh true false i1 i2,
      midpointOf normalize mesh true false i2 i3, by simp [children, triangles], ?_⟩
    rw [p2, p12, p23]
    exact halg.2.1
  · refine ⟨midpointOf normalize mesh true false i2 i3,
      midpointOf normalize mesh true false i1 i2,
      midpointOf normalize mesh true false i1 i3, by simp [children, triangles], ?_⟩
    rw [p12, p23, p13]
    exact halg.2.2.1
  · refine ⟨midpointOf normalize mesh true false i2 i3,
      midpointOf normalize mesh true false i1 i3, i3, by simp [children, triangles], ?_⟩
    rw [p3, p23, p13]
    exact halg.2.2.2

/-- C8, as amended.  One pass with `CW_winding = true` and `normalizeVert = false` on a
well-formed mesh: for every input triangle number `t` with corners `(i1, i2, i3)` at positions
`v1, v2, v3`, each of the four output triangles `4t + j` has corners `(a, b, c)` whose positions
satisfy `cross(b - a, c - a) = -1/4 * cross(v2 - v1, v3 - v1)`.  The clockwise branch emits the
mirrored children, so every child faces against its parent: when the parent is not degenerate
the child's cross product is a negative multiple of the parent's and no positive one. -/
theorem subdivide_cw_reverses_orientation {K : Type} [LinearOrderedField K]
    (normalize : Vec3 K → Vec3 K) (mesh : ofMesh K) (recalcNormal : Bool)
    (hwf : mesh.WellFormed) (t i1 i2 i3 : Nat)
    (ht : (triangles mesh.indices)[t]? = some (i1, i2, i3)) (j : Nat) (hj : j < 4) :
    ∃ a b c : Nat,
      (triangles (subdivideMesh normalize mesh 1 recalcNormal true false).mesh.indices)[4 * t + j]?
        = some (a, b, c) ∧
      Vec3.cross
        ((subdivideMesh normalize mesh 1 recalcNormal true false).mesh.vertices.getD b 0 -
          (subdivideMesh normalize mesh 1 recalcNormal true false).mesh.vertices.getD a 0)
        ((subdivideMesh normalize mesh 1 recalcNormal true false).mesh.vertices.getD c 0 -
          (subdivideMesh normalize mesh 1 recalcNormal true false).mesh.vertices.getD a 0) =
        (Vec3.cross (mesh.vertices.getD i2 0 - mesh.vertices.getD i1 0)
          (mesh.vertices.getD i3 0 - mesh.vertices.getD i1 0)).scale (-(1 / 4)) ∧
      (Vec3.cross (mesh.vertices.getD i2 0 - mesh.vertices.getD i1 0)
          (mesh.vertices.getD i3 0 - mesh.vertices.getD i1 0) ≠ 0 →
        ∀ k : K, 0 < k →
          Vec3.cross
            ((subdivideMesh normalize mesh 1 recalcNormal true false).mesh.vertices.getD b 0 -
              (subdivideMesh normalize mesh 1 recalcNormal true false).mesh.vertices.getD a 0)
            ((subdivideMesh normalize mesh 1 recalcNormal true false).mesh.vertices.getD c 0 -
              (subdivideMesh normalize mesh 1 recalcNormal true false).mesh.vertices.getD a 0) ≠
          (Vec3.cross (mesh.vertices.getD i2 0 - mesh.vertices.getD i1 0)
            (mesh.vertices.getD i3 0 - mesh.vertices.getD i1 0)).scale k) := by
  obtain ⟨a, b, c, hidx, hcross⟩ :=
    subdivide_cw_child_cross normalize mesh recalcNormal hwf t i1 i2 i3 ht j hj
  exact ⟨a, b, c, hidx, hcross, fun hn k hk => hcross ▸ Vec3.scale_neg_quarter_ne _ hn k hk⟩

/-- Witness for C8: the first child of the single triangle `(0,0,0)`, `(1,0,0)`, `(0,1,0)`. -/
theorem subdivide_cw_reverses_orientation_witness :
    ((unitTriangle ℚ).WellFormed ∧ (triangles (unitTriangle ℚ).indices)[0]? = some (0, 1, 2) ∧
      0 < 4) ∧
    ∃ a b c : Nat,
      (triangles (subdivideMesh (fun v => v) (unitTriangle ℚ) 1 false true
        false).mesh.indices)[4 * 0 + 0]? = some (a, b, c) ∧
      Vec3.cross
        ((subdivideMesh (fun v => v) (unitTriangle ℚ) 1 false true false).mesh.vertices.getD b 0 -
          (subdivideMesh (fun v => v) (unitTriangle ℚ) 1 false true false).mesh.vertices.getD a 0)
        ((subdivideMesh (fun v => v) (unitTriangle ℚ) 1 false true false).mesh.vertices.getD c 0 -
          (subdivideMesh (fun v => v) (unitTriangle ℚ) 1 false true false).mesh.vertices.getD a 0) =
        (Vec3.cross ((unitTriangle ℚ).vertices.getD 1 0 - (unitTriangle ℚ).vertices.getD 0 0)
          ((unitTriangle ℚ).vertices.getD 2 0 - (unitTriangle ℚ).vertices.getD 0 0)).scale
            (-(1 / 4)) ∧
      (Vec3.cross ((unitTriangle ℚ).vertices.getD 1 0 - (unitTriangle ℚ).vertices.getD 0 0)
          ((unitTriangle ℚ).vertices.getD 2 0 - (unitTriangle ℚ).vertices.getD 0 0) ≠ 0 →
        ∀ k : ℚ, 0 < k →
          Vec3.cross
            ((subdivideMesh (fun v => v) (unitTriangle ℚ) 1 false true false).mesh.vertices.getD
                b 0 -
              (subdivideMesh (fun v => v) (unitTriangle ℚ) 1 false true false).mesh.vertices.getD
                a 0)
            ((subdivideMesh (fun v => v) (unitTriangle ℚ) 1 false true false).mesh.vertices.getD
                c 0 -
              (subdivideMesh (fun v => v) (unitTriangle ℚ) 1 false true false).mesh.vertices.getD
                a 0) ≠
          (Vec3.cross ((unitTriangle ℚ).vertices.getD 1 0 - (unitTriangle ℚ).vertices.getD 0 0)
            ((unitTriangle ℚ).vertices.getD 2 0 - (unitTriangle ℚ).vertices.getD 0 0)).scale k) :=
  ⟨⟨⟨rfl, by decide, by decide⟩, rfl, by decide⟩,
    subdivide_cw_reverses_orientation (fun v => v) (unitTriangle ℚ) false
      ⟨rfl, by decide, by decide⟩ 0 0 1 2 rfl 0 (by decide)⟩

/-- C8 as stated fails on the single triangle `(0,0,0)`, `(1,0,0)`, `(0,1,0)` subdivided once
with `CW_winding = true` and `normalizeVert = false`: it is not the case that each of the four
output triangles `(a, b, c)` has `cross(b - a, c - a)` equal to a positive multiple of the
parent's `cross(v2 - v1, v3 - v1) = (0, 0, 1)`; the first child already has `(0, 0, -1/4)`. -/
theorem subdivide_cw_not_positive_multiple :
    ¬ ∀ j, j < 4 → ∃ a b c : Nat, ∃ k : ℚ, 0 < k ∧
      (triangles (subdivideMesh (fun v => v) (unitTriangle ℚ) 1 false true
        false).mesh.indices)[4 * 0 + j]? = some (a, b, c) ∧
      Vec3.cross
        ((subdivideMesh (fun v => v) (unitTriangle ℚ) 1 false true false).mesh.vertices.getD b 0 -
          (subdivideMesh (fun v => v) (unitTriangle ℚ) 1 false true false).mesh.vertices.getD a 0)
        ((subdivideMesh (fun v => v) (unitTriangle ℚ) 1 false true false).mesh.vertices.getD c 0 -
          (subdivideMesh (fun v => v) (unitTriangle ℚ) 1 false true false).mesh.vertices.getD a 0) =
        (Vec3.cross ((unitTriangle ℚ).vertices.getD 1 0 - (unitTriangle ℚ).vertices.getD 0 0)
          ((unitTriangle ℚ).vertices.getD 2 0 - (unitTriangle ℚ).vertices.getD 0 0)).scale k := by
  intro h
  obtain ⟨a, b, c, k, hk, hidx, hcross⟩ := h 0 (by decide)
  obtain ⟨a', b', c', hidx', hcross'⟩ := subdivide_cw_child_cross (fun v => v) (unitTriangle ℚ)
    false ⟨rfl, by decide, by decide⟩ 0 0 1 2 rfl 0 (by decide)
  rw [hidx] at hidx'
  simp only [Option.some.injEq, Prod.mk.injEq] at hidx'
  obtain ⟨rfl, rfl, rfl⟩ := hidx'
  rw [hcross'] at hcross
  refine Vec3.scale_neg_quarter_ne _ ?_ k hk hcross
  intro h0
  rw [Vec3.ext_iff'] at h0
  simp [unitTriangle, Vec3.cross, Vec3.sub_def, Vec3.zero_def] at h0

/-- C9 (what the code does instead).  `makeTetrahedron(radius)` returns 4 vertices and 4
triangles, but the third component of vertices 1, 2, 3 is `radius * (-1 / 3)` with `-1 / 3` an
integer quotient, that is `0`.  With `sqrt(2)^2 = 2` and `sqrt(6)^2 = 6`: vertex 0 is at squared
distance `radius^2` from the origin, vertices 1, 2, 3 lie in the plane `z = 0` at squared
distance `8/9 * radius^2`, which is not `radius^2` unless `radius = 0`. -/
theorem makeTetrahedron_off_sphere {K : Type} [Field K] [CharZero K] (sqrt : K → K)
    (normalize : Vec3 K → Vec3 K) (radius : K) (h2 : sqrt 2 * sqrt 2 = 2)
    (h6 : sqrt 6 * sqrt 6 = 6) :
    ∃ mesh, makeTetrahedron sqrt normalize radius = .ok mesh ∧
      mesh.vertices.length = 4 ∧ (triangles mesh.indices).length = 4 ∧
      (∀ v, mesh.vertices[0]? = some v → Vec3.dot v v = radius * radius) ∧
      (∀ i v, 1 ≤ i → mesh.vertices[i]? = some v →
        v.z = 0 ∧ Vec3.dot v v = 8 / 9 * (radius * radius) ∧
        (radius ≠ 0 → Vec3.dot v v ≠ radius * radius)) := by
  have hthird : Int.tdiv (-1) 3 = 0 := rfl
  have hne : radius ≠ 0 → 8 / 9 * (radius * radius) ≠ radius * radius := by
    intro hr h
    have h0 : radius * radius = 0 := by linear_combination -9 * h
    exact hr (mul_self_eq_zero.mp h0)
  have hmk : makeTetrahedron sqrt normalize radius = .ok
      { mode := .OF_PRIMITIVE_TRIANGLES
        vertices := [Vec3.scale ⟨0, 0, 1⟩ radius,
          Vec3.scale ⟨2 * sqrt 2 / 3, 0, ((Int.tdiv (-1) 3 : Int) : K)⟩ radius,
          Vec3.scale ⟨-sqrt 2 / 3, sqrt 6 / 3, ((Int.tdiv (-1) 3 : Int) : K)⟩ radius,
          Vec3.scale ⟨-sqrt 2 / 3, -sqrt 6 / 3, ((Int.tdiv (-1) 3 : Int) : K)⟩ radius]
        normals := computeNormals normalize [Vec3.scale ⟨0, 0, 1⟩ radius,
          Vec3.scale ⟨2 * sqrt 2 / 3, 0, ((Int.tdiv (-1) 3 : Int) : K)⟩ radius,
          Vec3.scale ⟨-sqrt 2 / 3, sqrt 6 / 3, ((Int.tdiv (-1) 3 : Int) : K)⟩ radius,
          Vec3.scale ⟨-sqrt 2 / 3, -sqrt 6 / 3, ((Int.tdiv (-1) 3 : Int) : K)⟩ radius]
          [0, 1, 2, 0, 2, 3, 0, 3, 1, 1, 3, 2] false
        indices := [0, 1, 2, 0, 2, 3, 0, 3, 1, 1, 3, 2] } := by
    simp only [makeTetrahedron, recalcNormals, fromTables, ofMesh.empty,
      ofMesh.addVertex, ofMesh.addTriangle, List.foldl_cons, List.foldl_nil, List.map_cons,
      List.map_nil, Outcome.result, ne_eq, not_true_eq_false, if_false, List.nil_append,
      List.cons_append]
  refine ⟨_, hmk, rfl, rfl, ?_, ?_⟩
  · intro v hv
    simp only [List.nil_append, List.cons_append, List.getElem?_cons_zero,
      Option.some.injEq] at hv
    subst hv
    simp [Vec3.dot, Vec3.scale]
  · intro i v hi hv
    have hcases : i = 1 ∨ i = 2 ∨ i = 3 ∨ 4 ≤ i := by omega
    rcases hcases with rfl | rfl | rfl | h4
    · simp only [List.nil_append, List.cons_append, List.getElem?_cons_succ,
        List.getElem?_cons_zero, Option.some.injEq] at hv
      subst hv
      have hd : Vec3.dot (Vec3.scale (⟨2 * sqrt 2 / 3, 0, ((Int.tdiv (-1) 3 : Int) : K)⟩ : Vec3 K)
          radius) (Vec3.scale ⟨2 * sqrt 2 / 3, 0, ((Int.tdiv (-1) 3 : Int) : K)⟩ radius) =
          8 / 9 * (radius * radius) := by
        simp only [Vec3.dot, Vec3.scale, hthird, Int.cast_zero]
        linear_combination (4 / 9 * radius * radius) * h2
      exact ⟨by simp [Vec3.scale, hthird], hd, fun hr => hd ▸ hne hr⟩
    · simp only [List.nil_append, List.cons_append, List.getElem?_cons_succ,
        List.getElem?_cons_zero, Option.some.injEq] at hv
      subst hv
      have hd : Vec3.dot (Vec3.scale (⟨-sqrt 2 / 3, sqrt 6 / 3,
          ((Int.tdiv (-1) 3 : Int) : K)⟩ : Vec3 K) radius)
          (Vec3.scale ⟨-sqrt 2 / 3, sqrt 6 / 3, ((Int.tdiv (-1) 3 : Int) : K)⟩ radius) =
          8 / 9 * (radius * radius) := by
        simp only [Vec3.dot, Vec3.scale, hthird, Int.cast_zero]
        linear_combination (1 / 9 * radius * radius) * h2 + (1 / 9 * radius * radius) * h6
      exact ⟨by simp [Vec3.scale, hthird], hd, fun hr => hd ▸ hne hr⟩
    · simp only [List.nil_append, List.cons_append, List.getElem?_cons_succ,
        List.getElem?_cons_zero, Option.some.injEq] at hv
      subst hv
      have hd : Vec3.dot (Vec3.scale (⟨-sqrt 2 / 3, -sqrt 6 / 3,
          ((Int.tdiv (-1) 3 : Int) : K)⟩ : Vec3 K) radius)
          (Vec3.scale ⟨-sqrt 2 / 3, -sqrt 6 / 3, ((Int.tdiv (-1) 3 : Int) : K)⟩ radius) =
          8 / 9 * (radius * radius) := by
        simp only [Vec3.dot, Vec3.scale, hthird, Int.cast_zero]
        linear_combination (1 / 9 * radius * radius) * h2 + (1 / 9 * radius * radius) * h6
      exact ⟨by simp [Vec3.scale, hthird], hd, fun hr => hd ▸ hne hr⟩
    · exfalso
      have hlen : ¬ i < 4 := by omega
      simp only [List.nil_append, List.cons_append] at hv
      have := (List.getElem?_eq_some_iff.mp hv).1
      simp only [List.length_cons, List.length_nil] at this
      omega

/-- Witness for C9: the reals, the real square root, the Euclidean `glm::normalize`, and
`radius = 1`. -/
theorem makeTetrahedron_off_sphere_witness :
    (Real.sqrt 2 * Real.sqrt 2 = 2 ∧ Real.sqrt 6 * Real.sqrt 6 = 6) ∧
    ∃ mesh, makeTetrahedron Real.sqrt (fun v => v.scale (Real.sqrt (Vec3.dot v v))⁻¹) 1 =
        .ok mesh ∧
      mesh.vertices.length = 4 ∧ (triangles mesh.indices).length = 4 ∧
      (∀ v, mesh.vertices[0]? = some v → Vec3.dot v v = 1 * 1) ∧
      (∀ i v, 1 ≤ i → mesh.vertices[i]? = some v →
        v.z = 0 ∧ Vec3.dot v v = 8 / 9 * (1 * 1) ∧
        ((1 : ℝ) ≠ 0 → Vec3.dot v v ≠ 1 * 1)) :=
  ⟨⟨Real.mul_self_sqrt (by norm_num), Real.mul_self_sqrt (by norm_num)⟩,
    makeTetrahedron_off_sphere Real.sqrt (fun v => v.scale (Real.sqrt (Vec3.dot v v))⁻¹) 1
      (Real.mul_self_sqrt (by norm_num)) (Real.mul_self_sqrt (by norm_num))⟩

/-- C10 (what the code does instead).  `makePlane(2, 2, 2, 2)` has 4 vertices and 2 triangles,
both counterclockwise seen from `+z`, but the step between vertices is `width / xRes = 1`, not
`width / (xRes - 1) = 2`: the vertices are `(-1,-1,0)`, `(-1,0,0)`, `(0,-1,0)`, `(0,0,0)`, and
none of `(1,1,0)`, `(1,-1,0)`, `(-1,1,0)` is among them. -/
theorem makePlane_two_by_two :
    (makePlane (2 : ℚ) 2 2 2).vertices = [⟨-1, -1, 0⟩, ⟨-1, 0, 0⟩, ⟨0, -1, 0⟩, ⟨0, 0, 0⟩] ∧
    (makePlane (2 : ℚ) 2 2 2).indices = [0, 2, 3, 0, 3, 1] ∧
    (∀ t ∈ triangles (makePlane (2 : ℚ) 2 2 2).indices,
      0 < (Vec3.cross
        ((makePlane (2 : ℚ) 2 2 2).vertices.getD t.2.1 0 -
          (makePlane (2 : ℚ) 2 2 2).vertices.getD t.1 0)
        ((makePlane (2 : ℚ) 2 2 2).vertices.getD t.2.2 0 -
          (makePlane (2 : ℚ) 2 2 2).vertices.getD t.1 0)).z) ∧
    (⟨1, 1, 0⟩ : Vec3 ℚ) ∉ (makePlane (2 : ℚ) 2 2 2).vertices ∧
    (⟨1, -1, 0⟩ : Vec3 ℚ) ∉ (makePlane (2 : ℚ) 2 2 2).vertices ∧
    (⟨-1, 1, 0⟩ : Vec3 ℚ) ∉ (makePlane (2 : ℚ) 2 2 2).vertices := by
  have h1 : sizePred 2 = 1 := by decide
  have h2 : List.range 2 = [0, 1] := rfl
  have h3 : List.range 1 = [0] := rfl
  have hmesh : makePlane (2 : ℚ) 2 2 2 =
      { mode := .OF_PRIMITIVE_TRIANGLES
        vertices := [⟨-1, -1, 0⟩, ⟨-1, 0, 0⟩, ⟨0, -1, 0⟩, ⟨0, 0, 0⟩]
        normals := [⟨0, 0, 1⟩, ⟨0, 0, 1⟩, ⟨0, 0, 1⟩, ⟨0, 0, 1⟩]
        indices := [0, 2, 3, 0, 3, 1] } := by
    simp only [makePlane, h1, h2, h3, List.foldl_cons, List.foldl_nil, ofMesh.addVertex,
      ofMesh.addNormal, ofMesh.addTriangle, ofMesh.empty]
    norm_num
  rw [hmesh]
  refine ⟨rfl, rfl, ?_, ?_, ?_, ?_⟩
  · intro t ht
    simp only [triangles, List.mem_cons, List.mem_singleton, List.not_mem_nil, or_false] at ht
    rcases ht with rfl | rfl <;> norm_num [Vec3.cross, Vec3.sub_def]
  · norm_num
  · norm_num
  · norm_num

end Claims

/-! ## The builders -/

theorem foldl_addVertex {K : Type} (vs : List (Vec3 K)) : ∀ mesh : ofMesh K,
    vs.foldl (fun mesh v => mesh.addVertex v) mesh =
      { mesh with vertices := mesh.vertices ++ vs } := by
  induction vs with
  | nil => intro mesh; simp
  | cons v vs ih =>
    intro mesh
    rw [List.foldl_cons, ih]
    simp [ofMesh.addVertex]

theorem foldl_addTriangle {K : Type} (ts : List (Nat × Nat × Nat)) : ∀ mesh : ofMesh K,
    ts.foldl (fun mesh t => mesh.addTriangle t.1 t.2.1 t.2.2) mesh =
      { mesh with indices := mesh.indices ++ ts.flatMap (fun t => [t.1, t.2.1, t.2.2]) } := by
  induction ts with
  | nil => intro mesh; simp
  | cons t ts ih =>
    intro mesh
    rw [List.foldl_cons, ih]
    simp [ofMesh.addTriangle]

theorem fromTables_eq {K : Type} (vs : List (Vec3 K)) (ts : List (Nat × Nat × Nat)) :
    fromTables vs ts =
      { mode := .OF_PRIMITIVE_TRIANGLES, vertices := vs, normals := [],
        indices := ts.flatMap (fun t => [t.1, t.2.1, t.2.2]) } := by
  simp [fromTables, foldl_addVertex, foldl_addTriangle, ofMesh.empty]

section Builders

variable {K : Type} [Field K]

theorem recalcNormals_result (normalize : Vec3 K → Vec3 K) (mesh : ofMesh K) (CW_winding : Bool)
    (h : mesh.mode = .OF_PRIMITIVE_TRIANGLES) :
    (recalcNormals normalize mesh CW_winding).result = .ok
      { mesh with normals := computeNormals normalize mesh.vertices mesh.indices CW_winding } := by
  simp [recalcNormals, Outcome.result, h]

/-- What `makeIcosahedron` returns: the scaled vertex table, the index table, and the normals
that `recalcNormals` computes from them. -/
theorem makeIcosahedron_ok (sqrt : K → K) (normalize : Vec3 K → Vec3 K) (radius : K) :
    ∃ mesh, makeIcosahedron sqrt normalize radius = .ok mesh ∧
      mesh.mode = .OF_PRIMITIVE_TRIANGLES ∧
      mesh.vertices = ([⟨(1 + sqrt 5) / 2, 1, 0⟩, ⟨-((1 + sqrt 5) / 2), 1, 0⟩,
          ⟨(1 + sqrt 5) / 2, -1, 0⟩, ⟨-((1 + sqrt 5) / 2), -1, 0⟩,
          ⟨1, 0, (1 + sqrt 5) / 2⟩, ⟨1, 0, -((1 + sqrt 5) / 2)⟩,
          ⟨-1, 0, (1 + sqrt 5) / 2⟩, ⟨-1, 0, -((1 + sqrt 5) / 2)⟩,
          ⟨0, (1 + sqrt 5) / 2, 1⟩, ⟨0, -((1 + sqrt 5) / 2), 1⟩,
          ⟨0, (1 + sqrt 5) / 2, -1⟩, ⟨0, -((1 + sqrt 5) / 2), -1⟩] : List (Vec3 K)).map
            (fun v => v.scale (radius / sqrt ((1 + sqrt 5) / 2 * ((1 + sqrt 5) / 2) + 1))) ∧
      mesh.indices = ([(0, 8, 4), (0, 5, 10), (2, 4, 9), (2, 11, 5), (1, 6, 8), (1, 10, 7),
          (3, 9, 6), (3, 7, 11), (0, 10, 8), (1, 8, 10), (2, 9, 11), (3, 11, 9), (4, 2, 0),
          (5, 0, 2), (6, 1, 3), (7, 3, 1), (8, 6, 4), (9, 4, 6), (10, 5, 7),
          (11, 7, 5)] : List (Nat × Nat × Nat)).flatMap (fun t => [t.1, t.2.1, t.2.2]) := by
  unfold makeIcosahedron
  simp only [fromTables_eq]
  rw [recalcNormals_result normalize _ false rfl]
  exact ⟨_, rfl, rfl, rfl, rfl⟩

theorem makeIcosphere_ok (sqrt : K → K) (normalize : Vec3 K → Vec3 K) (radius : K) (k : Nat) :
    ∃ ico sphere, makeIcosahedron sqrt normalize 1 = .ok ico ∧
      makeIcosphere sqrt normalize radius k = .ok sphere ∧
      sphere.mode = .OF_PRIMITIVE_TRIANGLES ∧
      sphere.vertices = (subdivideIter normalize false false true k ico).mesh.vertices.map
        (fun v => v.scale radius) ∧
      sphere.indices = (subdivideIter normalize false false true k ico).mesh.indices := by
  obtain ⟨ico, hico, hmode, hv, hi⟩ := makeIcosahedron_ok sqrt normalize 1
  have hwf : ico.WellFormed := by
    refine ⟨hmode, ?_, ?_⟩
    · rw [hi]; decide
    · have hlen : ico.vertices.length = 12 := by rw [hv]; rfl
      rw [hi, hlen]; decide
  have hs := subdivideIter_wellFormed normalize false false true k ico hwf
  have hm : (scaleMesh (subdivideIter normalize false false true k ico).mesh radius).mode =
      .OF_PRIMITIVE_TRIANGLES := hs.2.1
  have hsph : makeIcosphere sqrt normalize radius k = .ok
      { scaleMesh (subdivideIter normalize false false true k ico).mesh radius with
        normals := computeNormals normalize
          (scaleMesh (subdivideIter normalize false false true k ico).mesh radius).vertices
          (scaleMesh (subdivideIter normalize false false true k ico).mesh radius).indices
          false } := by
    unfold makeIcosphere
    rw [hico]
    simp only [subdivideMesh_of_triangles normalize ico k false false true hmode, hs.1]
    rw [recalcNormals_result normalize _ false hm]
  exact ⟨ico, _, hico, hsph, hm, rfl, rfl⟩

end Builders

theorem Vec3.dot_scale_scale {K : Type} [Field K] (a b c s r : K) (hs0 : s ≠ 0)
    (h : a * a + b * b + c * c = s * s) :
    Vec3.dot (((⟨a, b, c⟩ : Vec3 K).scale (1 / s)).scale r)
      (((⟨a, b, c⟩ : Vec3 K).scale (1 / s)).scale r) = r * r := by
  have hu : s * (1 / s) = 1 := mul_one_div_cancel hs0
  simp only [Vec3.dot, Vec3.scale]
  linear_combination (r * r * (1 / s) * (1 / s)) * h + (r * r * (s * (1 / s) + 1)) * hu

/-! ## The index side of a pass does not look at positions -/

section Skeleton

variable {K L : Type} [Field K] [Field L] (normalize : Vec3 K → Vec3 K)
  (normalize' : Vec3 L → Vec3 L) (CW_winding normalizeVert normalizeVert' : Bool)

theorem addMidpoint_sim (s : SubdivState K) (s' : SubdivState L)
    (hm : s.midpoints = s'.midpoints) (hc : s.currV = s'.currV) (i1 i2 : Nat) :
    (addMidpoint normalize normalizeVert s i1 i2).1 =
        (addMidpoint normalize' normalizeVert' s' i1 i2).1 ∧
      (addMidpoint normalize normalizeVert s i1 i2).2.midpoints =
        (addMidpoint normalize' normalizeVert' s' i1 i2).2.midpoints ∧
      (addMidpoint normalize normalizeVert s i1 i2).2.currV =
        (addMidpoint normalize' normalizeVert' s' i1 i2).2.currV := by
  unfold addMidpoint
  rw [← hm]
  cases findMidpoint s.midpoints (i1, i2) with
  | none => simp [hm, hc]
  | some entry => simp [hm, hc]

theorem subdivideStep_sim (s : SubdivState K) (s' : SubdivState L)
    (hm : s.midpoints = s'.midpoints) (hc : s.currV = s'.currV)
    (hn : s.newIndices = s'.newIndices) (t : Nat × Nat × Nat) :
    (subdivideStep normalize CW_winding normalizeVert s t).midpoints =
        (subdivideStep normalize' CW_winding normalizeVert' s' t).midpoints ∧
      (subdivideStep normalize CW_winding normalizeVert s t).currV =
        (subdivideStep normalize' CW_winding normalizeVert' s' t).currV ∧
      (subdivideStep normalize CW_winding normalizeVert s t).newIndices =
        (subdivideStep normalize' CW_winding normalizeVert' s' t).newIndices := by
  have h1 := addMidpoint_sim normalize normalize' normalizeVert normalizeVert' s s' hm hc
    t.1 t.2.1
  have h2 := addMidpoint_sim normalize normalize' normalizeVert normalizeVert' _ _ h1.2.1 h1.2.2
    t.2.1 t.2.2
  have h3 := addMidpoint_sim normalize normalize' normalizeVert normalizeVert' _ _ h2.2.1 h2.2.2
    t.1 t.2.2
  have n1 := addMidpoint_newIndices normalize normalizeVert
  have n2 := addMidpoint_newIndices normalize' normalizeVert'
  unfold subdivideStep
  cases CW_winding <;> simp [h1.1, h2.1, h3.1, h3.2.1, h3.2.2, n1, n2, hn]

theorem foldl_sim (ts : List (Nat × Nat × Nat)) : ∀ (s : SubdivState K) (s' : SubdivState L),
    s.midpoints = s'.midpoints → s.currV = s'.currV → s.newIndices = s'.newIndices →
    (ts.foldl (subdivideStep normalize CW_winding normalizeVert) s).midpoints =
        (ts.foldl (subdivideStep normalize' CW_winding normalizeVert') s').midpoints ∧
      (ts.foldl (subdivideStep normalize CW_winding normalizeVert) s).newIndices =
        (ts.foldl (subdivideStep normalize' CW_winding normalizeVert') s').newIndices := by
  induction ts with
  | nil => intro s s' hm _ hn; exact ⟨hm, hn⟩
  | cons t ts ih =>
    intro s s' hm hc hn
    have h := subdivideStep_sim normalize normalize' CW_winding normalizeVert normalizeVert'
      s s' hm hc hn t
    exact ih _ _ h.1 h.2.1 h.2.2

/-- The midpoint table and the new index buffer of a pass are those of the pass on the
skeleton of the mesh. -/
theorem subdivideLoop_skeleton (mesh : ofMesh K) :
    (subdivideLoop normalize mesh CW_winding normalizeVert).midpoints =
        (subdivideLoop (fun v => v) (skeleton mesh.vertices.length mesh.indices) CW_winding
          false).midpoints ∧
      (subdivideLoop normalize mesh CW_winding normalizeVert).newIndices =
        (subdivideLoop (fun v => v) (skeleton mesh.vertices.length mesh.indices) CW_winding
          false).newIndices := by
  unfold subdivideLoop
  exact foldl_sim normalize (fun v => v) CW_winding normalizeVert false _ _ _ rfl
    (by simp [skeleton]) rfl

end Skeleton

section KST3

variable {K : Type} [Field K] (normalize : Vec3 K → Vec3 K)

theorem makeCube_ok (length : K) :
    ∃ cube, makeCube normalize length = .ok cube ∧ cube.mode = .OF_PRIMITIVE_TRIANGLES ∧
      cube.vertices.length = 8 ∧
      cube.indices = [0, 1, 2, 2, 3, 0, 1, 5, 6, 6, 2, 1, 7, 6, 5, 5, 4, 7,
        4, 0, 3, 3, 7, 4, 4, 5, 1, 1, 0, 4, 3, 2, 6, 6, 7, 3] := by
  unfold makeCube
  simp only [fromTables_eq]
  rw [recalcNormals_result normalize _ false rfl]
  exact ⟨_, rfl, rfl, rfl, rfl⟩

set_option maxRecDepth 100000 in
theorem makeKST3_ok (length : K) :
    ∃ mesh, makeKST3 normalize length = .ok mesh ∧ mesh.vertices.length = 25 ∧
      mesh.indices = ([(0, 7, 9), (7, 1, 8), (7, 8, 9), (10, 2, 11), (10, 11, 9), (9, 11, 0),
        (1, 12, 14), (12, 4, 13), (12, 13, 14), (14, 13, 5), (5, 15, 14), (15, 8, 14),
        (14, 8, 1), (6, 16, 17), (16, 5, 13), (16, 13, 17), (17, 13, 4), (4, 18, 17),
        (18, 3, 19), (18, 19, 17), (17, 19, 6), (3, 20, 21), (20, 0, 11), (20, 11, 21),
        (21, 11, 2), (2, 22, 21), (22, 6, 19), (22, 19, 21), (21, 19, 3), (3, 18, 23),
        (18, 4, 12), (18, 12, 23), (23, 12, 1), (1, 7, 23), (7, 0, 20), (7, 20, 23),
        (23, 20, 3), (2, 10, 24), (10, 15, 24), (24, 15, 5), (5, 16, 24), (16, 6, 22),
        (16, 22, 24), (24, 22, 2), (9, 8, 10), (8, 15, 10)] : List (Nat × Nat × Nat)).flatMap
          (fun t => [t.1, t.2.1, t.2.2]) := by
  obtain ⟨cube, hcube, hmode, hlen, hidx⟩ := makeCube_ok normalize length
  have hs := subdivide_of_triangles normalize cube true false false hmode
  have hthrown : (subdivideMesh normalize cube 1 true false false).thrown = none := by
    rw [subdivideMesh_of_triangles normalize cube 1 true false false hmode,
      subdivideIter_succ normalize cube 0 true false false hmode]
    rfl
  have hrun : (subdivideMesh normalize cube 1 true false false).mesh =
      (subdivide normalize cube true false false).mesh := by
    rw [subdivideMesh_of_triangles normalize cube 1 true false false hmode,
      subdivideIter_succ normalize cube 0 true false false hmode]
    rfl
  have hsk := subdivideLoop_skeleton normalize false false cube
  rw [hlen, hidx] at hsk
  have hnew : (subdivide normalize cube true false false).mesh.indices =
      (subdivideLoop (fun v => v) (skeleton 8 [0, 1, 2, 2, 3, 0, 1, 5, 6, 6, 2, 1, 7, 6, 5, 5, 4, 7,
        4, 0, 3, 3, 7, 4, 4, 5, 1, 1, 0, 4, 3, 2, 6, 6, 7, 3]) false false).newIndices := by
    rw [hs.2.2.2, hsk.2]
  have hvlen : (subdivide normalize cube true false false).mesh.vertices.length = 26 := by
    rw [hs.2.2.1, (subdivideLoop_inv normalize false false cube).verts_len, hsk.1, hlen]
    rfl
  unfold makeKST3
  rw [hcube]
  simp only [hthrown, hrun]
  rw [recalcNormals_result normalize _ false (by exact hs.2.1)]
  refine ⟨_, rfl, ?_, ?_⟩
  · simp only [ofMesh.removeVertex, List.length_eraseIdx, hvlen]
    rfl
  · simp only [ofMesh.removeVertex, hnew]
    rfl

end KST3

/-! ## The two winding conventions of a pass -/

section Winding

variable {K : Type} [Field K] (normalize : Vec3 K → Vec3 K) (normalizeVert : Bool)

theorem addMidpoint_core (s s' : SubdivState K) (hm : s.midpoints = s'.midpoints)
    (hc : s.currV = s'.currV) (hv : s.vertices = s'.vertices) (i1 i2 : Nat) :
    (addMidpoint normalize normalizeVert s i1 i2).1 =
        (addMidpoint normalize normalizeVert s' i1 i2).1 ∧
      (addMidpoint normalize normalizeVert s i1 i2).2.midpoints =
        (addMidpoint normalize normalizeVert s' i1 i2).2.midpoints ∧
      (addMidpoint normalize normalizeVert s i1 i2).2.currV =
        (addMidpoint normalize normalizeVert s' i1 i2).2.currV ∧
      (addMidpoint normalize normalizeVert s i1 i2).2.vertices =
        (addMidpoint normalize normalizeVert s' i1 i2).2.vertices := by
  unfold addMidpoint
  rw [← hm]
  cases findMidpoint s.midpoints (i1, i2) with
  | none => simp [hm, hc, hv]
  | some entry => simp [hm, hc, hv]

theorem subdivideStep_core (c c' : Bool) (s s' : SubdivState K)
    (hm : s.midpoints = s'.midpoints) (hc : s.currV = s'.currV) (hv : s.vertices = s'.vertices)
    (t : Nat × Nat × Nat) :
    (subdivideStep normalize c normalizeVert s t).midpoints =
        (subdivideStep normalize c' normalizeVert s' t).midpoints ∧
      (subdivideStep normalize c normalizeVert s t).currV =
        (subdivideStep normalize c' normalizeVert s' t).currV ∧
      (subdivideStep normalize c normalizeVert s t).vertices =
        (subdivideStep normalize c' normalizeVert s' t).vertices := by
  have h1 := addMidpoint_core normalize normalizeVert s s' hm hc hv t.1 t.2.1
  have h2 := addMidpoint_core normalize normalizeVert _ _ h1.2.1 h1.2.2.1 h1.2.2.2 t.2.1 t.2.2
  have h3 := addMidpoint_core normalize normalizeVert _ _ h2.2.1 h2.2.2.1 h2.2.2.2 t.1 t.2.2
  unfold subdivideStep
  cases c <;> cases c' <;> exact ⟨h3.2.1, h3.2.2.1, h3.2.2.2⟩

theorem foldl_core (c c' : Bool) (ts : List (Nat × Nat × Nat)) : ∀ s s' : SubdivState K,
    s.midpoints = s'.midpoints → s.currV = s'.currV → s.vertices = s'.vertices →
    (ts.foldl (subdivideStep normalize c normalizeVert) s).midpoints =
        (ts.foldl (subdivideStep normalize c' normalizeVert) s').midpoints ∧
      (ts.foldl (subdivideStep normalize c normalizeVert) s).vertices =
        (ts.foldl (subdivideStep normalize c' normalizeVert) s').vertices := by
  induction ts with
  | nil => intro s s' hm _ hv; exact ⟨hm, hv⟩
  | cons t ts ih =>
    intro s s' hm hc hv
    have h := subdivideStep_core normalize normalizeVert c c' s s' hm hc hv t
    exact ih _ _ h.1 h.2.1 h.2.2

/-- The midpoint table and the vertex buffer of a pass do not depend on the winding flag. -/
theorem subdivideLoop_core (mesh : ofMesh K) (c c' : Bool) :
    (subdivideLoop normalize mesh c normalizeVert).midpoints =
        (subdivideLoop normalize mesh c' normalizeVert).midpoints ∧
      (subdivideLoop normalize mesh c normalizeVert).vertices =
        (subdivideLoop normalize mesh c' normalizeVert).vertices :=
  foldl_core normalize normalizeVert c c' _ _ _ rfl rfl rfl

theorem midpointOf_winding (mesh : ofMesh K) (c c' : Bool) (a b : Nat) :
    midpointOf normalize mesh c normalizeVert a b =
      midpointOf normalize mesh c' normalizeVert a b := by
  unfold midpointOf
  rw [(subdivideLoop_core normalize normalizeVert mesh c c').1]

theorem swapPairs_append (n : Nat) : ∀ (l r : List Nat), l.length = 3 * n →
    swapPairs (l ++ r) = swapPairs l ++ swapPairs r := by
  induction n with
  | zero =>
    intro l r h
    have : l = [] := List.length_eq_zero.mp (by simpa using h)
    subst this
    rfl
  | succ n ih =>
    intro l r h
    match l, h with
    | a :: b :: c :: rest, h =>
      have hr : rest.length = 3 * n := by
        simp only [List.length_cons] at h
        omega
      simp [swapPairs, ih rest r hr]
    | [_, _], h => simp at h; omega
    | [_], h => simp at h; omega
    | [], h => simp at h

theorem swapPairs_flatMap_children (mid : Edge → Nat) (ts : List (Nat × Nat × Nat)) :
    swapPairs (ts.flatMap (children false mid)) = ts.flatMap (children true mid) := by
  induction ts with
  | nil => rfl
  | cons t ts ih =>
    rw [List.flatMap_cons, List.flatMap_cons,
      swapPairs_append 4 _ _ (children_length false mid t), ih]
    rfl

end Winding

/-- The four children that the counterclockwise branch emits for a triangle `v1 v2 v3` with edge
midpoints `(v1 + v2) / 2`, `(v2 + v3) / 2`, `(v1 + v3) / 2`: each has a quarter of the parent's
cross product. -/
theorem Vec3.cross_children_ccw {K : Type} [Field K] [CharZero K] (v1 v2 v3 : Vec3 K) :
    Vec3.cross ((v1 + v2).scale (1 / 2) - v1) ((v1 + v3).scale (1 / 2) - v1)
      = (Vec3.cross (v2 - v1) (v3 - v1)).scale (1 / 4) ∧
    Vec3.cross (v2 - (v1 + v2).scale (1 / 2)) ((v2 + v3).scale (1 / 2) - (v1 + v2).scale (1 / 2))
      = (Vec3.cross (v2 - v1) (v3 - v1)).scale (1 / 4) ∧
    Vec3.cross ((v2 + v3).scale (1 / 2) - (v1 + v2).scale (1 / 2))
        ((v1 + v3).scale (1 / 2) - (v1 + v2).scale (1 / 2))
      = (Vec3.cross (v2 - v1) (v3 - v1)).scale (1 / 4) ∧
    Vec3.cross ((v2 + v3).scale (1 / 2) - (v1 + v3).scale (1 / 2)) (v3 - (v1 + v3).scale (1 / 2))
      = (Vec3.cross (v2 - v1) (v3 - v1)).scale (1 / 4) := by
  refine ⟨?_, ?_, ?_, ?_⟩ <;>
    · simp only [Vec3.cross, Vec3.scale, Vec3.add_def, Vec3.sub_def, Vec3.mk.injEq]
      refine ⟨?_, ?_, ?_⟩ <;> ring

/-- An entry of the table is what the table returns for its own key. -/
theorem table_entry_lookup {K : Type} {V : Nat} {s : SubdivState K} (hs : TableInv V s)
    (entry : Edge × Nat) (he : entry ∈ s.midpoints) :
    lookupMidpoint s.midpoints entry.1 = some entry.2 := by
  have hsome : (lookupMidpoint s.midpoints entry.1).isSome := by
    simp only [lookupMidpoint, findMidpoint, Option.isSome_map', List.find?_isSome]
    exact ⟨entry, he, by simp [pairCompare]⟩
  obtain ⟨v, hv⟩ := Option.isSome_iff_exists.mp hsome
  obtain ⟨k, hk, hc⟩ := lookupMidpoint_mem hv
  have hsymm : Symmetric (fun e1 e2 : Edge × Nat => pairCompare e1.1 e2.1 = false) := by
    intro a b hab
    rw [pairCompare_comm]
    exact hab
  by_cases heq : (k, v) = entry
  · rw [hv, ← heq]
  · have := hs.keys.forall hsymm hk he heq
    simp only at this
    rw [this] at hc
    exact absurd hc (by simp)

/-! ## The accumulator of `recalcNormals` -/

section Accumulator

variable {K : Type} [Field K] (normalize : Vec3 K → Vec3 K)

theorem computeNormals_eq (vertices : List (Vec3 K)) (indices : List Nat) (CW_winding : Bool) :
    computeNormals normalize vertices indices CW_winding =
      (accumulatedNormals normalize vertices indices CW_winding).map normalize := rfl

theorem addAt_length (l : List (Vec3 K)) (i : Nat) (n : Vec3 K) :
    (addAt l i n).length = l.length := by
  simp [addAt]

theorem addAt_getD (l : List (Vec3 K)) (i j : Nat) (n : Vec3 K) (hi : i < l.length) :
    (addAt l j n).getD i 0 = if j = i then l.getD i 0 + n else l.getD i 0 := by
  unfold addAt
  by_cases h : j = i
  · subst h
    simp [hi]
  · simp [h, List.getElem?_set_ne h]

theorem recalcStep_length (vertices : List (Vec3 K)) (CW_winding : Bool) (l : List (Vec3 K))
    (t : Nat × Nat × Nat) :
    (recalcStep normalize vertices CW_winding l t).length = l.length := by
  simp [recalcStep, addAt_length]

theorem foldl_recalcStep_length (vertices : List (Vec3 K)) (CW_winding : Bool)
    (ts : List (Nat × Nat × Nat)) : ∀ l : List (Vec3 K),
    (ts.foldl (recalcStep normalize vertices CW_winding) l).length = l.length := by
  induction ts with
  | nil => intro l; rfl
  | cons t ts ih => intro l; rw [List.foldl_cons, ih, recalcStep_length]

theorem recalcStep_eq (vertices : List (Vec3 K)) (CW_winding : Bool) (l : List (Vec3 K))
    (t : Nat × Nat × Nat) :
    recalcStep normalize vertices CW_winding l t =
      addAt (addAt (addAt l t.1 (faceNormal normalize vertices CW_winding t)) t.2.1
        (faceNormal normalize vertices CW_winding t)) t.2.2
        (faceNormal normalize vertices CW_winding t) := by
  unfold recalcStep faceNormal
  cases CW_winding <;> rfl

theorem recalcStep_getD (vertices : List (Vec3 K)) (CW_winding : Bool) (l : List (Vec3 K))
    (t : Nat × Nat × Nat) (i : Nat) (hi : i < l.length) :
    (recalcStep normalize vertices CW_winding l t).getD i 0 =
      (([t.1, t.2.1, t.2.2].filter (fun j => decide (j = i))).map
        (fun _ => faceNormal normalize vertices CW_winding t)).foldl (fun a n => a + n)
          (l.getD i 0) := by
  rw [recalcStep_eq]
  rw [addAt_getD _ _ _ _ (by simpa [addAt_length] using hi),
    addAt_getD _ _ _ _ (by simpa [addAt_length] using hi), addAt_getD _ _ _ _ hi]
  by_cases h1 : t.1 = i <;> by_cases h2 : t.2.1 = i <;> by_cases h3 : t.2.2 = i <;>
    simp [List.filter, h1, h2, h3]

theorem foldl_recalcStep_getD (vertices : List (Vec3 K)) (CW_winding : Bool)
    (ts : List (Nat × Nat × Nat)) (i : Nat) : ∀ l : List (Vec3 K), i < l.length →
    (ts.foldl (recalcStep normalize vertices CW_winding) l).getD i 0 =
      (ts.flatMap (fun t => ([t.1, t.2.1, t.2.2].filter (fun j => decide (j = i))).map
        (fun _ => faceNormal normalize vertices CW_winding t))).foldl (fun a n => a + n)
          (l.getD i 0) := by
  induction ts with
  | nil => intro l _; rfl
  | cons t ts ih =>
    intro l hi
    rw [List.foldl_cons, ih _ (by rw [recalcStep_length]; exact hi), List.flatMap_cons,
      List.foldl_append, recalcStep_getD normalize vertices CW_winding l t i hi]

/-- After the first loop of `recalcNormals`, the accumulator of vertex `i` holds the sum of the
unit face normals incident to `i`. -/
theorem accumulatedNormals_getD (vertices : List (Vec3 K)) (indices : List Nat)
    (CW_winding : Bool) (i : Nat) (hi : i < vertices.length) :
    (accumulatedNormals normalize vertices indices CW_winding).getD i 0 =
      incidentNormalSum normalize vertices indices CW_winding i := by
  unfold accumulatedNormals incidentNormalSum incidentNormals
  rw [foldl_recalcStep_getD normalize vertices CW_winding _ i _ (by simpa using hi)]
  simp [hi]

theorem accumulatedNormals_length (vertices : List (Vec3 K)) (indices : List Nat)
    (CW_winding : Bool) :
    (accumulatedNormals normalize vertices indices CW_winding).length = vertices.length := by
  unfold accumulatedNormals
  rw [foldl_recalcStep_length]
  simp

end Accumulator

section AccumulatorNaN

variable {K : Type} [Field K] (normalize : Vec3 K → Option (Vec3 K))

end AccumulatorNaN

section SwapNormals

variable {K : Type} [Field K] (normalize : Vec3 K → Vec3 K)

theorem addAt_comm (l : List (Vec3 K)) (i j : Nat) (n : Vec3 K) :
    addAt (addAt l i n) j n = addAt (addAt l j n) i n := by
  by_cases h : i = j
  · subst h
    rfl
  · have hji : j ≠ i := fun e => h e.symm
    unfold addAt
    simp only [List.getD_eq_getElem?_getD, List.getElem?_set_ne h, List.getElem?_set_ne hji]
    exact List.set_comm _ _ _ h

theorem Vec3.neg_neg' (v : Vec3 K) : -(-v) = v := by
  simp [Vec3.neg_def]

theorem Vec3.cross_swap (v1 v2 v3 : Vec3 K) :
    Vec3.cross (v1 - v2) (v3 - v2) = -Vec3.cross (v2 - v1) (v3 - v1) := by
  simp only [Vec3.cross, Vec3.sub_def, Vec3.neg_def, Vec3.mk.injEq]
  refine ⟨?_, ?_, ?_⟩ <;> ring

theorem triangles_swapPairs (n : Nat) : ∀ l : List Nat, l.length = 3 * n →
    triangles (swapPairs l) = (triangles l).map (fun t => (t.2.1, t.1, t.2.2)) := by
  induction n with
  | zero =>
    intro l h
    have : l = [] := List.length_eq_zero.mp (by simpa using h)
    subst this
    rfl
  | succ n ih =>
    intro l h
    match l, h with
    | a :: b :: c :: rest, h =>
      have hr : rest.length = 3 * n := by
        simp only [List.length_cons] at h
        omega
      simp [swapPairs, triangles, ih rest hr]
    | [_, _], h => simp at h; omega
    | [_], h => simp at h; omega
    | [], h => simp at h

theorem recalcStep_swap (hodd : ∀ v, normalize (-v) = -normalize v) (vertices : List (Vec3 K))
    (l : List (Vec3 K)) (t : Nat × Nat × Nat) :
    recalcStep normalize vertices true l (t.2.1, t.1, t.2.2) =
      recalcStep normalize vertices false l t := by
  rw [recalcStep_eq, recalcStep_eq]
  have hn : faceNormal normalize vertices true (t.2.1, t.1, t.2.2) =
      faceNormal normalize vertices false t := by
    simp only [faceNormal, Bool.false_eq_true, if_true, if_false]
    rw [Vec3.cross_swap, hodd, Vec3.neg_neg']
  rw [hn]
  simp only
  rw [addAt_comm l t.2.1 t.1]

theorem computeNormals_swap (hodd : ∀ v, normalize (-v) = -normalize v)
    (vertices : List (Vec3 K)) (indices : List Nat) (h3 : 3 ∣ indices.length) :
    computeNormals normalize vertices (swapPairs indices) true =
      computeNormals normalize vertices indices false := by
  obtain ⟨n, hn⟩ := h3
  unfold computeNormals
  rw [triangles_swapPairs n indices hn, List.foldl_map]
  congr 1
  generalize List.replicate vertices.length (0 : Vec3 K) = acc
  induction triangles indices generalizing acc with
  | nil => rfl
  | cons t ts ih =>
    rw [List.foldl_cons, List.foldl_cons, recalcStep_swap normalize hodd, ih]

end SwapNormals

/-! ## Counting the edges of a subdivided mesh -/

section EdgeCount

theorem undirected_of_lt {a b : Nat} (h : a < b) : undirected (a, b) = (a, b) := by
  simp [undirected, Nat.min_def, Nat.max_def]
  omega

theorem undirected_of_gt {a b : Nat} (h : b < a) : undirected (a, b) = (b, a) := by
  simp [undirected, Nat.min_def, Nat.max_def]
  omega

theorem undirected_swap (a b : Nat) : undirected (a, b) = undirected (b, a) := by
  simp [undirected, Nat.min_comm, Nat.max_comm]

theorem undirected_cases (e : Edge) :
    undirected e = e ∨ undirected e = (e.2, e.1) := by
  obtain ⟨a, b⟩ := e
  rcases Nat.lt_or_ge b a with h | h
  · exact Or.inr (undirected_of_gt h)
  · rcases Nat.eq_or_lt_of_le h with h | h
    · subst h
      exact Or.inl (by simp [undirected])
    · exact Or.inl (undirected_of_lt h)

theorem childTriangles_eq (mid : Edge → Nat) (t : Nat × Nat × Nat) :
    childTriangles mid t =
      [(t.1, mid (t.1, t.2.1), mid (t.1, t.2.2)),
        (mid (t.1, t.2.1), t.2.1, mid (t.2.1, t.2.2)),
        (mid (t.1, t.2.1), mid (t.2.1, t.2.2), mid (t.1, t.2.2)),
        (mid (t.1, t.2.2), mid (t.2.1, t.2.2), t.2.2)] := by
  simp [childTriangles, children, triangles]

theorem flatMap_length_const {α β : Type} (f : α → List β) (k : Nat)
    (hf : ∀ a, (f a).length = k) (l : List α) : (l.flatMap f).length = k * l.length := by
  induction l with
  | nil => simp
  | cons a l ih =>
    rw [List.flatMap_cons, List.length_append, ih, hf, List.length_cons]
    ring

variable {V : Nat} {ts : List (Nat × Nat × Nat)} {mid : Edge → Nat}

theorem PassData.mid_undirected (h : PassData V ts mid) (e : Edge) :
    mid (undirected e) = mid e := by
  rcases undirected_cases e with h1 | h1
  · rw [h1]
  · rw [h1, h.symm]

theorem PassData.edges_mem (_h : PassData V ts mid) {t : Nat × Nat × Nat} (ht : t ∈ ts) :
    (t.1, t.2.1) ∈ ts.flatMap triangleEdges ∧ (t.2.1, t.2.2) ∈ ts.flatMap triangleEdges ∧
      (t.1, t.2.2) ∈ ts.flatMap triangleEdges :=
  ⟨List.mem_flatMap.mpr ⟨t, ht, by simp [triangleEdges]⟩,
    List.mem_flatMap.mpr ⟨t, ht, by simp [triangleEdges]⟩,
    List.mem_flatMap.mpr ⟨t, ht, by simp [triangleEdges]⟩⟩

/-- Everything a pass knows about one input triangle. -/
theorem PassData.tri (h : PassData V ts mid) {t : Nat × Nat × Nat} (ht : t ∈ ts) :
    t.1 < V ∧ t.2.1 < V ∧ t.2.2 < V ∧ t.1 ≠ t.2.1 ∧ t.2.1 ≠ t.2.2 ∧ t.1 ≠ t.2.2 ∧
    V ≤ mid (t.1, t.2.1) ∧ V ≤ mid (t.2.1, t.2.2) ∧ V ≤ mid (t.1, t.2.2) ∧
    mid (t.1, t.2.1) ≠ mid (t.2.1, t.2.2) ∧ mid (t.2.1, t.2.2) ≠ mid (t.1, t.2.2) ∧
    mid (t.1, t.2.1) ≠ mid (t.1, t.2.2) := by
  obtain ⟨l1, l2, l3⟩ := h.lt t ht
  obtain ⟨d1, d2, d3⟩ := h.simple.1 t ht
  obtain ⟨e1, e2, e3⟩ := h.edges_mem ht
  refine ⟨l1, l2, l3, d1, d2, d3, h.ge _ e1, h.ge _ e2, h.ge _ e3, ?_, ?_, ?_⟩
  · intro heq
    have := h.inj _ e1 _ e2 heq
    simp only [undirected, Prod.mk.injEq, Nat.min_def, Nat.max_def] at this
    split_ifs at this <;> omega
  · intro heq
    have := h.inj _ e2 _ e3 heq
    simp only [undirected, Prod.mk.injEq, Nat.min_def, Nat.max_def] at this
    split_ifs at this <;> omega
  · intro heq
    have := h.inj _ e1 _ e3 heq
    simp only [undirected, Prod.mk.injEq, Nat.min_def, Nat.max_def] at this
    split_ifs at this <;> omega

/-- Everything a pass knows about one input edge. -/
theorem PassData.edge (h : PassData V ts mid) {e : Edge} (he : e ∈ ts.flatMap triangleEdges) :
    e.1 < V ∧ e.2 < V ∧ e.1 ≠ e.2 ∧ V ≤ mid e := by
  obtain ⟨t, ht, het⟩ := List.mem_flatMap.mp he
  have ht3 := h.tri ht
  simp only [triangleEdges, List.mem_cons, List.mem_singleton, List.not_mem_nil, or_false] at het
  rcases het with rfl | rfl | rfl
  · exact ⟨ht3.1, ht3.2.1, ht3.2.2.2.1, ht3.2.2.2.2.2.2.1⟩
  · exact ⟨ht3.2.1, ht3.2.2.1, ht3.2.2.2.2.1, ht3.2.2.2.2.2.2.2.1⟩
  · exact ⟨ht3.1, ht3.2.2.1, ht3.2.2.2.2.2.1, ht3.2.2.2.2.2.2.2.2.1⟩

end EdgeCount

section EdgeCount2

variable {V : Nat} {ts : List (Nat × Nat × Nat)} {mid : Edge → Nat}

theorem PassData.mem_edgeSet (h : PassData V ts mid) {u : Edge}
    (hu : u ∈ ((ts.flatMap triangleEdges).map undirected).dedup) :
    ∃ e ∈ ts.flatMap triangleEdges, undirected e = u ∧ (u = e ∨ u = (e.2, e.1)) ∧
      u.1 < V ∧ u.2 < V ∧ u.1 ≠ u.2 ∧ V ≤ mid u ∧ mid u = mid e := by
  rw [List.mem_dedup, List.mem_map] at hu
  obtain ⟨e, he, rfl⟩ := hu
  have hm := h.mid_undirected e
  obtain ⟨l1, l2, d, g⟩ := h.edge he
  refine ⟨e, he, rfl, ?_, ?_⟩
  · rcases undirected_cases e with h1 | h1
    · exact Or.inl h1
    · exact Or.inr h1
  · rcases undirected_cases e with h1 | h1
    · rw [h1]
      exact ⟨l1, l2, d, g, rfl⟩
    · rw [h1]
      exact ⟨l2, l1, fun x => d x.symm, by rw [h.symm]; exact g, h.symm _ _⟩

theorem PassData.edgeSet_inj (h : PassData V ts mid) {u u' : Edge}
    (hu : u ∈ ((ts.flatMap triangleEdges).map undirected).dedup)
    (hu' : u' ∈ ((ts.flatMap triangleEdges).map undirected).dedup) (heq : mid u = mid u') :
    u = u' := by
  obtain ⟨e, he, rfl, -, -, -, -, -, hm⟩ := h.mem_edgeSet hu
  obtain ⟨e', he', rfl, -, -, -, -, -, hm'⟩ := h.mem_edgeSet hu'
  rw [hm, hm'] at heq
  exact h.inj e he e' he' heq

/-- The twelve undirected edges of the four children of an input triangle. -/
theorem PassData.child_edges (h : PassData V ts mid) {t : Nat × Nat × Nat} (ht : t ∈ ts) :
    ((childTriangles mid t).flatMap triangleEdges).map undirected =
      [(t.1, mid (t.1, t.2.1)), undirected (mid (t.1, t.2.1), mid (t.1, t.2.2)),
        (t.1, mid (t.1, t.2.2)),
        (t.2.1, mid (t.1, t.2.1)), (t.2.1, mid (t.2.1, t.2.2)),
        undirected (mid (t.1, t.2.1), mid (t.2.1, t.2.2)),
        undirected (mid (t.1, t.2.1), mid (t.2.1, t.2.2)),
        undirected (mid (t.2.1, t.2.2), mid (t.1, t.2.2)),
        undirected (mid (t.1, t.2.1), mid (t.1, t.2.2)),
        undirected (mid (t.2.1, t.2.2), mid (t.1, t.2.2)),
        (t.2.2, mid (t.2.1, t.2.2)), (t.2.2, mid (t.1, t.2.2))] := by
  obtain ⟨l1, l2, l3, -, -, -, g12, g23, g13, -, -, -⟩ := h.tri ht
  have a1 : undirected (t.1, mid (t.1, t.2.1)) = (t.1, mid (t.1, t.2.1)) :=
    undirected_of_lt (by omega)
  have a2 : undirected (t.1, mid (t.1, t.2.2)) = (t.1, mid (t.1, t.2.2)) :=
    undirected_of_lt (by omega)
  have a3 : undirected (mid (t.1, t.2.1), t.2.1) = (t.2.1, mid (t.1, t.2.1)) :=
    undirected_of_gt (by omega)
  have a4 : undirected (t.2.1, mid (t.2.1, t.2.2)) = (t.2.1, mid (t.2.1, t.2.2)) :=
    undirected_of_lt (by omega)
  have a5 : undirected (mid (t.2.1, t.2.2), t.2.2) = (t.2.2, mid (t.2.1, t.2.2)) :=
    undirected_of_gt (by omega)
  have a6 : undirected (mid (t.1, t.2.2), t.2.2) = (t.2.2, mid (t.1, t.2.2)) :=
    undirected_of_gt (by omega)
  have a7 : undirected (mid (t.1, t.2.2), mid (t.2.1, t.2.2)) =
      undirected (mid (t.2.1, t.2.2), mid (t.1, t.2.2)) := undirected_swap _ _
  simp only [childTriangles_eq, triangleEdges, List.flatMap_cons, List.flatMap_nil,
    List.cons_append, List.nil_append, List.append_nil, List.map_cons, List.map_nil,
    a1, a2, a3, a4, a5, a6, a7]

theorem PassData.half_mem (h : PassData V ts mid) {e : Edge}
    (he : e ∈ ts.flatMap triangleEdges) :
    (e.1, mid e) ∈ (((ts.flatMap triangleEdges).map undirected).dedup).flatMap (halfEdges mid) ∧
    (e.2, mid e) ∈
      (((ts.flatMap triangleEdges).map undirected).dedup).flatMap (halfEdges mid) := by
  have hu : undirected e ∈ ((ts.flatMap triangleEdges).map undirected).dedup :=
    List.mem_dedup.mpr (List.mem_map.mpr ⟨e, he, rfl⟩)
  have hm := h.mid_undirected e
  rcases undirected_cases e with h1 | h1
  · constructor
    · exact List.mem_flatMap.mpr ⟨_, hu, by simp [halfEdges, h1]⟩
    · exact List.mem_flatMap.mpr ⟨_, hu, by simp [halfEdges, h1]⟩
  · constructor
    · exact List.mem_flatMap.mpr ⟨_, hu, by rw [halfEdges, hm, h1]; simp⟩
    · exact List.mem_flatMap.mpr ⟨_, hu, by rw [halfEdges, hm, h1]; simp⟩

/-- The undirected edges of the subdivided mesh are the halves of the old edges and the inner
edges of the old triangles. -/
theorem PassData.new_edges_mem (h : PassData V ts mid) (x : Edge) :
    x ∈ ((ts.flatMap (childTriangles mid)).flatMap triangleEdges).map undirected ↔
      x ∈ (((ts.flatMap triangleEdges).map undirected).dedup).flatMap (halfEdges mid) ++
        ts.flatMap (innerEdges mid) := by
  have hN : x ∈ ((ts.flatMap (childTriangles mid)).flatMap triangleEdges).map undirected ↔
      ∃ t ∈ ts, x ∈ ((childTriangles mid t).flatMap triangleEdges).map undirected := by
    simp only [List.mem_map, List.mem_flatMap]
    constructor
    · rintro ⟨e, ⟨c, ⟨t, ht, hc⟩, hec⟩, rfl⟩
      exact ⟨t, ht, e, ⟨c, hc, hec⟩, rfl⟩
    · rintro ⟨t, ht, e, ⟨c, hc, hec⟩, rfl⟩
      exact ⟨e, ⟨c, ⟨t, ht, hc⟩, hec⟩, rfl⟩
  rw [hN, List.mem_append]
  constructor
  · rintro ⟨t, ht, hx⟩
    obtain ⟨e1, e2, e3⟩ := h.edges_mem ht
    have h1 := h.half_mem e1
    have h2 := h.half_mem e2
    have h3 := h.half_mem e3
    have hJ : ∀ y ∈ innerEdges mid t, y ∈ ts.flatMap (innerEdges mid) :=
      fun y hy => List.mem_flatMap.mpr ⟨t, ht, hy⟩
    rw [h.child_edges ht] at hx
    simp only [List.mem_cons, List.mem_singleton, List.not_mem_nil, or_false] at hx
    rcases hx with rfl | rfl | rfl | rfl | rfl | rfl | rfl | rfl | rfl | rfl | rfl | rfl
    · exact Or.inl h1.1
    · exact Or.inr (hJ _ (by simp [innerEdges]))
    · exact Or.inl h3.1
    · exact Or.inl h1.2
    · exact Or.inl h2.1
    · exact Or.inr (hJ _ (by simp [innerEdges]))
    · exact Or.inr (hJ _ (by simp [innerEdges]))
    · exact Or.inr (hJ _ (by simp [innerEdges]))
    · exact Or.inr (hJ _ (by simp [innerEdges]))
    · exact Or.inr (hJ _ (by simp [innerEdges]))
    · exact Or.inl h2.2
    · exact Or.inl h3.2
  · rintro (hx | hx)
    · obtain ⟨u, hu, hxu⟩ := List.mem_flatMap.mp hx
      obtain ⟨e, he, -, hue, -, -, -, -, hm⟩ := h.mem_edgeSet hu
      obtain ⟨t, ht, het⟩ := List.mem_flatMap.mp he
      refine ⟨t, ht, ?_⟩
      rw [h.child_edges ht]
      simp only [halfEdges, hm, List.mem_cons, List.mem_singleton, List.not_mem_nil,
        or_false] at hxu
      simp only [triangleEdges, List.mem_cons, List.mem_singleton, List.not_mem_nil,
        or_false] at het
      rcases het with rfl | rfl | rfl <;> rcases hue with rfl | rfl <;>
        rcases hxu with rfl | rfl <;> simp
    · obtain ⟨t, ht, hxt⟩ := List.mem_flatMap.mp hx
      refine ⟨t, ht, ?_⟩
      rw [h.child_edges ht]
      simp only [innerEdges, List.mem_cons, List.mem_singleton, List.not_mem_nil,
        or_false] at hxt
      rcases hxt with rfl | rfl | rfl <;> simp

end EdgeCount2

section EdgeCount3

variable {V : Nat} {ts : List (Nat × Nat × Nat)} {mid : Edge → Nat}

theorem undirected_eq_cases {a b c d : Nat} (h : undirected (a, b) = undirected (c, d)) :
    (a = c ∧ b = d) ∨ (a = d ∧ b = c) := by
  simp only [undirected, Prod.mk.injEq, Nat.min_def, Nat.max_def] at h
  split_ifs at h <;> omega

theorem edgeSet_eq_of_undirected {e e' : Edge} (h : undirected e = undirected e') :
    ({e.1, e.2} : Finset Nat) = {e'.1, e'.2} := by
  rcases undirected_eq_cases h with ⟨h1, h2⟩ | ⟨h1, h2⟩
  · rw [h1, h2]
  · rw [h1, h2, Finset.pair_comm]

/-- Two different edges of a non-degenerate triangle cover its three corners. -/
theorem vertexSet_eq_of_edges {t : Nat × Nat × Nat} {A B : Edge} (hA : A ∈ triangleEdges t)
    (hB : B ∈ triangleEdges t) (hne : A ≠ B) :
    vertexSet t = ({A.1, A.2} ∪ {B.1, B.2} : Finset Nat) := by
  simp only [triangleEdges, List.mem_cons, List.mem_singleton, List.not_mem_nil, or_false]
    at hA hB
  rcases hA with rfl | rfl | rfl <;> rcases hB with rfl | rfl | rfl <;>
    first
    | exact absurd rfl hne
    | (ext a
       simp only [vertexSet, Finset.mem_insert, Finset.mem_singleton, Finset.mem_union]
       tauto)

/-- Two triangles of the pass that have two different edges in common, as unordered pairs,
have the same corners. -/
theorem vertexSet_eq_of_common {t t' : Nat × Nat × Nat} {A B A' B' : Edge}
    (hA : A ∈ triangleEdges t) (hB : B ∈ triangleEdges t) (hA' : A' ∈ triangleEdges t')
    (hB' : B' ∈ triangleEdges t') (hne : undirected A ≠ undirected B)
    (h1 : undirected A = undirected A') (h2 : undirected B = undirected B') :
    vertexSet t = vertexSet t' := by
  have hAB : A ≠ B := fun e => hne (e ▸ rfl)
  have hAB' : A' ≠ B' := fun e => hne (by rw [h1, h2, e])
  rw [vertexSet_eq_of_edges hA hB hAB, vertexSet_eq_of_edges hA' hB' hAB',
    edgeSet_eq_of_undirected h1, edgeSet_eq_of_undirected h2]

/-- An inner edge joins the midpoints of two different edges of its triangle. -/
theorem PassData.inner_mem (h : PassData V ts mid) {t : Nat × Nat × Nat} (ht : t ∈ ts)
    {x : Edge} (hx : x ∈ innerEdges mid t) :
    ∃ A ∈ triangleEdges t, ∃ B ∈ triangleEdges t, undirected A ≠ undirected B ∧
      mid A ≠ mid B ∧ V ≤ mid A ∧ V ≤ mid B ∧ x = undirected (mid A, mid B) := by
  obtain ⟨-, -, -, -, -, -, g12, g23, g13, n1, n2, n3⟩ := h.tri ht
  simp only [innerEdges, List.mem_cons, List.mem_singleton, List.not_mem_nil, or_false] at hx
  rcases hx with rfl | rfl | rfl
  · exact ⟨(t.1, t.2.1), by simp [triangleEdges], (t.1, t.2.2), by simp [triangleEdges],
      fun e => n3 (by rw [← h.mid_undirected, e, h.mid_undirected]), n3, g12, g13, rfl⟩
  · exact ⟨(t.1, t.2.1), by simp [triangleEdges], (t.2.1, t.2.2), by simp [triangleEdges],
      fun e => n1 (by rw [← h.mid_undirected, e, h.mid_undirected]), n1, g12, g23, rfl⟩
  · exact ⟨(t.2.1, t.2.2), by simp [triangleEdges], (t.1, t.2.2), by simp [triangleEdges],
      fun e => n2 (by rw [← h.mid_undirected, e, h.mid_undirected]), n2, g23, g13, rfl⟩

theorem PassData.edge_of_triangle (_h : PassData V ts mid) {t : Nat × Nat × Nat} (ht : t ∈ ts)
    {e : Edge} (he : e ∈ triangleEdges t) : e ∈ ts.flatMap triangleEdges :=
  List.mem_flatMap.mpr ⟨t, ht, he⟩

theorem PassData.half_nodup (h : PassData V ts mid) :
    ((((ts.flatMap triangleEdges).map undirected).dedup).flatMap (halfEdges mid)).Nodup := by
  rw [List.nodup_flatMap]
  constructor
  · intro u hu
    obtain ⟨e, -, -, -, -, -, hne, -, -⟩ := h.mem_edgeSet hu
    simp only [halfEdges, List.nodup_cons, List.mem_singleton, Prod.mk.injEq, List.not_mem_nil,
      not_false_eq_true, List.nodup_nil, and_true]
    exact hne
  · refine (List.nodup_dedup _).imp_of_mem ?_
    intro u u' hu hu' hne
    show List.Disjoint (halfEdges mid u) (halfEdges mid u')
    intro x hx hx'
    simp only [halfEdges, List.mem_cons, List.mem_singleton, List.not_mem_nil, or_false]
      at hx hx'
    have hm : mid u = mid u' := by
      rcases hx with rfl | rfl <;> rcases hx' with hx' | hx' <;>
        exact (Prod.mk.inj hx').2
    exact hne (h.edgeSet_inj hu hu' hm)

theorem PassData.inner_nodup (h : PassData V ts mid) :
    (ts.flatMap (innerEdges mid)).Nodup := by
  rw [List.nodup_flatMap]
  constructor
  · intro t ht
    obtain ⟨-, -, -, -, -, -, -, -, -, n1, n2, n3⟩ := h.tri ht
    simp only [innerEdges, List.nodup_cons, List.mem_cons, List.mem_singleton,
      List.not_mem_nil, or_false, not_or, not_false_eq_true, List.nodup_nil, and_true]
    refine ⟨⟨?_, ?_⟩, ?_⟩
    · intro e
      rcases undirected_eq_cases e with ⟨-, e2⟩ | ⟨e1, e2⟩
      · exact n2 e2.symm
      · exact n2 (by omega)
    · intro e
      rcases undirected_eq_cases e with ⟨e1, e2⟩ | ⟨e1, -⟩
      · exact n1 e1
      · exact n3 e1
    · intro e
      rcases undirected_eq_cases e with ⟨e1, e2⟩ | ⟨e1, e2⟩
      · exact n1 e1
      · exact n3 e1
  · refine h.simple.2.imp_of_mem ?_
    intro t t' ht ht' hne
    show List.Disjoint (innerEdges mid t) (innerEdges mid t')
    intro x hx hx'
    obtain ⟨A, hA, B, hB, hAB, -, -, -, rfl⟩ := h.inner_mem ht hx
    obtain ⟨A', hA', B', hB', -, -, -, -, hx'⟩ := h.inner_mem ht' hx'
    apply hne
    rcases undirected_eq_cases hx' with ⟨e1, e2⟩ | ⟨e1, e2⟩
    · exact vertexSet_eq_of_common hA hB hA' hB' hAB
        (h.inj _ (h.edge_of_triangle ht hA) _ (h.edge_of_triangle ht' hA') e1)
        (h.inj _ (h.edge_of_triangle ht hB) _ (h.edge_of_triangle ht' hB') e2)
    · exact vertexSet_eq_of_common hA hB hB' hA' hAB
        (h.inj _ (h.edge_of_triangle ht hA) _ (h.edge_of_triangle ht' hB') e1)
        (h.inj _ (h.edge_of_triangle ht hB) _ (h.edge_of_triangle ht' hA') e2)

theorem PassData.half_inner_disjoint (h : PassData V ts mid) :
    List.Disjoint
      ((((ts.flatMap triangleEdges).map undirected).dedup).flatMap (halfEdges mid))
      (ts.flatMap (innerEdges mid)) := by
  intro x hx hx'
  obtain ⟨u, hu, hxu⟩ := List.mem_flatMap.mp hx
  obtain ⟨t, ht, hxt⟩ := List.mem_flatMap.mp hx'
  obtain ⟨e, -, -, -, l1, l2, -, -, -⟩ := h.mem_edgeSet hu
  obtain ⟨A, -, B, -, -, -, gA, gB, rfl⟩ := h.inner_mem ht hxt
  simp only [halfEdges, List.mem_cons, List.mem_singleton, List.not_mem_nil, or_false,
    undirected, Prod.mk.injEq] at hxu
  have hmin : V ≤ min (mid A) (mid B) := Nat.le_min.mpr ⟨gA, gB⟩
  rcases hxu with ⟨h1, -⟩ | ⟨h1, -⟩ <;> omega

/-- The number of distinct undirected edges after a pass: two halves for every old edge and
three inner edges for every old triangle. -/
theorem PassData.edge_count (h : PassData V ts mid) :
    (((ts.flatMap (childTriangles mid)).flatMap triangleEdges).map undirected).dedup.length =
      2 * ((ts.flatMap triangleEdges).map undirected).dedup.length + 3 * ts.length := by
  have hnodup : ((((ts.flatMap triangleEdges).map undirected).dedup).flatMap (halfEdges mid) ++
      ts.flatMap (innerEdges mid)).Nodup :=
    List.nodup_append.mpr ⟨h.half_nodup, h.inner_nodup, h.half_inner_disjoint⟩
  have hperm : ((((ts.flatMap (childTriangles mid)).flatMap triangleEdges).map
      undirected).dedup).Perm
      ((((ts.flatMap triangleEdges).map undirected).dedup).flatMap (halfEdges mid) ++
        ts.flatMap (innerEdges mid)) :=
    (List.perm_ext_iff_of_nodup (List.nodup_dedup _) hnodup).mpr
      (fun x => List.mem_dedup.trans (h.new_edges_mem x))
  rw [hperm.length_eq, List.length_append,
    flatMap_length_const (halfEdges mid) 2 (fun _ => rfl),
    flatMap_length_const (innerEdges mid) 3 (fun _ => rfl)]

end EdgeCount3

section Simple

variable {V : Nat} {ts : List (Nat × Nat × Nat)} {mid : Edge → Nat}

theorem mem_vertexSet (t : Nat × Nat × Nat) (x : Nat) :
    x ∈ vertexSet t ↔ x = t.1 ∨ x = t.2.1 ∨ x = t.2.2 := by
  simp [vertexSet]

theorem vertexSet_ne_of_mem {c c' : Nat × Nat × Nat} (x : Nat) (hx : x ∈ vertexSet c)
    (hx' : x ∉ vertexSet c') : vertexSet c ≠ vertexSet c' :=
  fun e => hx' (e ▸ hx)

theorem edge_mem_vertexSet {t : Nat × Nat × Nat} {e : Edge} (he : e ∈ triangleEdges t) :
    e.1 ∈ vertexSet t ∧ e.2 ∈ vertexSet t := by
  simp only [triangleEdges, List.mem_cons, List.mem_singleton, List.not_mem_nil, or_false] at he
  rcases he with rfl | rfl | rfl <;> simp [mem_vertexSet]

/-- Every corner of a triangle is a corner of each of its children, or an endpoint of an edge
whose midpoint is. -/
theorem PassData.covering (_h : PassData V ts mid) {t c : Nat × Nat × Nat}
    (hc : c ∈ childTriangles mid t) {v : Nat} (hv : v ∈ vertexSet t) :
    v ∈ vertexSet c ∨
      ∃ e ∈ triangleEdges t, mid e ∈ vertexSet c ∧ (v = e.1 ∨ v = e.2) := by
  rw [childTriangles_eq] at hc
  simp only [List.mem_cons, List.mem_singleton, List.not_mem_nil, or_false] at hc
  rw [mem_vertexSet] at hv
  rcases hc with rfl | rfl | rfl | rfl <;> rcases hv with rfl | rfl | rfl
  · exact Or.inl (by simp [mem_vertexSet])
  · exact Or.inr ⟨(t.1, t.2.1), by simp [triangleEdges], by simp [mem_vertexSet], Or.inr rfl⟩
  · exact Or.inr ⟨(t.1, t.2.2), by simp [triangleEdges], by simp [mem_vertexSet], Or.inr rfl⟩
  · exact Or.inr ⟨(t.1, t.2.1), by simp [triangleEdges], by simp [mem_vertexSet], Or.inl rfl⟩
  · exact Or.inl (by simp [mem_vertexSet])
  · exact Or.inr ⟨(t.2.1, t.2.2), by simp [triangleEdges], by simp [mem_vertexSet], Or.inr rfl⟩
  · exact Or.inr ⟨(t.1, t.2.1), by simp [triangleEdges], by simp [mem_vertexSet], Or.inl rfl⟩
  · exact Or.inr ⟨(t.1, t.2.1), by simp [triangleEdges], by simp [mem_vertexSet], Or.inr rfl⟩
  · exact Or.inr ⟨(t.2.1, t.2.2), by simp [triangleEdges], by simp [mem_vertexSet], Or.inr rfl⟩
  · exact Or.inr ⟨(t.1, t.2.2), by simp [triangleEdges], by simp [mem_vertexSet], Or.inl rfl⟩
  · exact Or.inr ⟨(t.2.1, t.2.2), by simp [triangleEdges], by simp [mem_vertexSet], Or.inl rfl⟩
  · exact Or.inl (by simp [mem_vertexSet])

/-- A corner of a child is an old corner of its parent, or the midpoint of one of the parent's
edges. -/
theorem PassData.child_corner (h : PassData V ts mid) {t c : Nat × Nat × Nat} (ht : t ∈ ts)
    (hc : c ∈ childTriangles mid t) {x : Nat} (hx : x ∈ vertexSet c) :
    (x < V ∧ x ∈ vertexSet t) ∨ (V ≤ x ∧ ∃ e ∈ triangleEdges t, x = mid e) := by
  obtain ⟨l1, l2, l3, -, -, -, g12, g23, g13, -, -, -⟩ := h.tri ht
  have e12 : V ≤ mid (t.1, t.2.1) ∧ ∃ e ∈ triangleEdges t, mid (t.1, t.2.1) = mid e :=
    ⟨g12, _, by simp [triangleEdges], rfl⟩
  have e23 : V ≤ mid (t.2.1, t.2.2) ∧ ∃ e ∈ triangleEdges t, mid (t.2.1, t.2.2) = mid e :=
    ⟨g23, _, by simp [triangleEdges], rfl⟩
  have e13 : V ≤ mid (t.1, t.2.2) ∧ ∃ e ∈ triangleEdges t, mid (t.1, t.2.2) = mid e :=
    ⟨g13, _, by simp [triangleEdges], rfl⟩
  have o1 : t.1 < V ∧ t.1 ∈ vertexSet t := ⟨l1, by simp [mem_vertexSet]⟩
  have o2 : t.2.1 < V ∧ t.2.1 ∈ vertexSet t := ⟨l2, by simp [mem_vertexSet]⟩
  have o3 : t.2.2 < V ∧ t.2.2 ∈ vertexSet t := ⟨l3, by simp [mem_vertexSet]⟩
  rw [childTriangles_eq] at hc
  simp only [List.mem_cons, List.mem_singleton, List.not_mem_nil, or_false] at hc
  rw [mem_vertexSet] at hx
  rcases hc with rfl | rfl | rfl | rfl <;> rcases hx with rfl | rfl | rfl
  · exact Or.inl o1
  · exact Or.inr e12
  · exact Or.inr e13
  · exact Or.inr e12
  · exact Or.inl o2
  · exact Or.inr e23
  · exact Or.inr e12
  · exact Or.inr e23
  · exact Or.inr e13
  · exact Or.inr e13
  · exact Or.inr e23
  · exact Or.inl o3

/-- Children with the same corners come from parents with the same corners. -/
theorem PassData.parent_subset (h : PassData V ts mid) {t t' c c' : Nat × Nat × Nat}
    (ht : t ∈ ts) (ht' : t' ∈ ts) (hc : c ∈ childTriangles mid t)
    (hc' : c' ∈ childTriangles mid t') (heq : vertexSet c = vertexSet c') :
    vertexSet t ⊆ vertexSet t' := by
  intro v hv
  have hvV : v < V := by
    obtain ⟨l1, l2, l3, -⟩ := h.tri ht
    rw [mem_vertexSet] at hv
    rcases hv with rfl | rfl | rfl <;> assumption
  rcases h.covering hc hv with hvc | ⟨e, he, hme, hve⟩
  · rw [heq] at hvc
    rcases h.child_corner ht' hc' hvc with ⟨-, hvt⟩ | ⟨hge, -⟩
    · exact hvt
    · omega
  · rw [heq] at hme
    have hge := h.ge e (h.edge_of_triangle ht he)
    rcases h.child_corner ht' hc' hme with ⟨hlt, -⟩ | ⟨-, e', he', hmm⟩
    · omega
    · have hund := h.inj e (h.edge_of_triangle ht he) e' (h.edge_of_triangle ht' he') hmm
      have hset := edgeSet_eq_of_undirected hund
      have hv' : v ∈ ({e'.1, e'.2} : Finset Nat) := by
        rw [← hset]
        rcases hve with rfl | rfl <;> simp
      obtain ⟨m1, m2⟩ := edge_mem_vertexSet he'
      simp only [Finset.mem_insert, Finset.mem_singleton] at hv'
      rcases hv' with rfl | rfl <;> assumption

/-- A pass on simple triangles leaves simple triangles. -/
theorem PassData.children_simple (h : PassData V ts mid) :
    SimpleTriangles (ts.flatMap (childTriangles mid)) := by
  constructor
  · intro c hc
    obtain ⟨t, ht, hct⟩ := List.mem_flatMap.mp hc
    obtain ⟨l1, l2, l3, d1, d2, d3, g12, g23, g13, n1, n2, n3⟩ := h.tri ht
    rw [childTriangles_eq] at hct
    simp only [List.mem_cons, List.mem_singleton, List.not_mem_nil, or_false] at hct
    rcases hct with rfl | rfl | rfl | rfl <;> refine ⟨?_, ?_, ?_⟩ <;> simp only <;> omega
  · rw [List.pairwise_flatMap]
    constructor
    · intro t ht
      obtain ⟨l1, l2, l3, d1, d2, d3, g12, g23, g13, n1, n2, n3⟩ := h.tri ht
      rw [childTriangles_eq]
      simp only [List.pairwise_cons, List.mem_cons, List.mem_singleton, List.not_mem_nil,
        or_false, forall_eq_or_imp, forall_eq, IsEmpty.forall_iff, implies_true,
        List.Pairwise.nil, and_true]
      refine ⟨⟨?_, ?_, ?_⟩, ⟨?_, ?_⟩, ?_⟩
      · exact vertexSet_ne_of_mem t.1 (by simp [mem_vertexSet])
          (by simp only [mem_vertexSet]; omega)
      · exact vertexSet_ne_of_mem t.1 (by simp [mem_vertexSet])
          (by simp only [mem_vertexSet]; omega)
      · exact vertexSet_ne_of_mem t.1 (by simp [mem_vertexSet])
          (by simp only [mem_vertexSet]; omega)
      · exact vertexSet_ne_of_mem t.2.1 (by simp [mem_vertexSet])
          (by simp only [mem_vertexSet]; omega)
      · exact vertexSet_ne_of_mem t.2.1 (by simp [mem_vertexSet])
          (by simp only [mem_vertexSet]; omega)
      · exact (vertexSet_ne_of_mem t.2.2 (by simp [mem_vertexSet])
          (by simp only [mem_vertexSet]; omega)).symm
    · refine h.simple.2.imp_of_mem ?_
      intro t t' ht ht' hne c hc c' hc' heq
      exact hne (Finset.Subset.antisymm (h.parent_subset ht ht' hc hc' heq)
        (h.parent_subset ht' ht hc' hc heq.symm))

end Simple

section Levels

variable {K : Type} [Field K] (normalize : Vec3 K → Vec3 K) (normalizeVert : Bool)

theorem passData_of_mesh (mesh : ofMesh K) (hwf : mesh.WellFormed)
    (hs : SimpleTriangles (triangles mesh.indices)) :
    PassData mesh.vertices.length (triangles mesh.indices)
      (fun e => midpointOf normalize mesh false normalizeVert e.1 e.2) := by
  obtain ⟨-, ⟨T, hT⟩, hlt⟩ := hwf
  exact
    { lt := triangles_mem_lt T mesh.indices hT hlt
      symm := fun a b => midpointOf_comm normalize false normalizeVert mesh a b
      inj := fun e1 h1 e2 h2 heq =>
        midpointOf_injective normalize mesh false normalizeVert e1 e2 h1 h2 heq
      ge := fun e he => (midpointOf_range normalize false normalizeVert mesh e he).1
      simple := hs }

/-- One counterclockwise pass on a well-formed mesh with simple triangles: the result is
well-formed with simple triangles, has four times the triangles, `E` more vertices and
`2 * E + 3 * T` undirected edges, where `T` and `E` count the old triangles and edges. -/
theorem subdivide_level (mesh : ofMesh K) (recalcNormal : Bool) (hwf : mesh.WellFormed)
    (hs : SimpleTriangles (triangles mesh.indices)) :
    (subdivide normalize mesh recalcNormal false normalizeVert).mesh.WellFormed ∧
    SimpleTriangles
      (triangles (subdivide normalize mesh recalcNormal false normalizeVert).mesh.indices) ∧
    (triangles (subdivide normalize mesh recalcNormal false normalizeVert).mesh.indices).length =
      4 * (triangles mesh.indices).length ∧
    numUndirectedEdges (subdivide normalize mesh recalcNormal false normalizeVert).mesh.indices =
      2 * numUndirectedEdges mesh.indices + 3 * (triangles mesh.indices).length ∧
    (subdivide normalize mesh recalcNormal false normalizeVert).mesh.vertices.length =
      mesh.vertices.length + numUndirectedEdges mesh.indices := by
  have hp := passData_of_mesh normalize normalizeVert mesh hwf hs
  have hsub := subdivide_of_triangles normalize mesh recalcNormal false normalizeVert hwf.1
  have htri : triangles (subdivide normalize mesh recalcNormal false normalizeVert).mesh.indices =
      (triangles mesh.indices).flatMap
        (childTriangles (fun e => midpointOf normalize mesh false normalizeVert e.1 e.2)) := by
    rw [hsub.2.2.2, subdivideLoop_newIndices, triangles_flatMap_children]
    rfl
  refine ⟨subdivide_wellFormed normalize mesh recalcNormal false normalizeVert hwf, ?_, ?_, ?_,
    ?_⟩
  · rw [htri]
    exact hp.children_simple
  · rw [htri, flatMap_length_const _ 4 (fun t => by rw [childTriangles_eq]; rfl)]
  · unfold numUndirectedEdges meshEdges
    rw [htri]
    exact hp.edge_count
  · rw [hsub.2.2.1, (subdivideLoop_inv normalize false normalizeVert mesh).verts_len,
      subdivideLoop_table_size]

/-- Counterclockwise passes on a closed simple mesh at level `j` of the icosphere counts:
`20 * 4^j` triangles, `30 * 4^j` edges, `10 * 4^j + 2` vertices. -/
theorem subdivideIter_level (recalcNormal : Bool) (k : Nat) : ∀ (mesh : ofMesh K) (j : Nat),
    mesh.WellFormed → SimpleTriangles (triangles mesh.indices) →
    (triangles mesh.indices).length = 20 * 4 ^ j →
    numUndirectedEdges mesh.indices = 30 * 4 ^ j →
    mesh.vertices.length = 10 * 4 ^ j + 2 →
    (subdivideIter normalize recalcNormal false normalizeVert k mesh).thrown = none ∧
    (subdivideIter normalize recalcNormal false normalizeVert k mesh).mesh.WellFormed ∧
    (triangles (subdivideIter normalize recalcNormal false normalizeVert k
      mesh).mesh.indices).length = 20 * 4 ^ (j + k) ∧
    (subdivideIter normalize recalcNormal false normalizeVert k mesh).mesh.vertices.length =
      10 * 4 ^ (j + k) + 2 := by
  induction k with
  | zero =>
    intro mesh j hwf _ hT _ hV
    exact ⟨rfl, hwf, hT, hV⟩
  | succ k ih =>
    intro mesh j hwf hs hT hE hV
    rw [subdivideIter_succ normalize mesh k recalcNormal false normalizeVert hwf.1]
    obtain ⟨w, s, t, e, v⟩ := subdivide_level normalize normalizeVert mesh recalcNormal hwf hs
    have h := ih _ (j + 1) w s (by rw [t, hT]; ring) (by rw [e, hE, hT]; ring)
      (by rw [v, hV, hE]; ring)
    have hjk : j + 1 + k = j + (k + 1) := by omega
    rw [hjk] at h
    exact h

end Levels

theorem icosahedron_simple :
    SimpleTriangles [(0, 8, 4), (0, 5, 10), (2, 4, 9), (2, 11, 5), (1, 6, 8), (1, 10, 7),
      (3, 9, 6), (3, 7, 11), (0, 10, 8), (1, 8, 10), (2, 9, 11), (3, 11, 9), (4, 2, 0),
      (5, 0, 2), (6, 1, 3), (7, 3, 1), (8, 6, 4), (9, 4, 6), (10, 5, 7), (11, 7, 5)] := by
  constructor
  · decide
  · decide

theorem icosahedron_edges :
    numUndirectedEdges (([(0, 8, 4), (0, 5, 10), (2, 4, 9), (2, 11, 5), (1, 6, 8), (1, 10, 7),
      (3, 9, 6), (3, 7, 11), (0, 10, 8), (1, 8, 10), (2, 9, 11), (3, 11, 9), (4, 2, 0),
      (5, 0, 2), (6, 1, 3), (7, 3, 1), (8, 6, 4), (9, 4, 6), (10, 5, 7),
      (11, 7, 5)] : List (Nat × Nat × Nat)).flatMap (fun t => [t.1, t.2.1, t.2.2])) = 30 := by
  decide

/-! ## The claims, continued -/

section MoreClaims

/-- C11 (what the code does instead).  `makePlane(2, 2, 3, 2)` has `3 * 2 = 6` vertices, laid
out with stride `yRes` (vertex `(x, y)` is number `x * yRes + y`), but its triangles are indexed
with stride `xRes` (`x * xRes + y`): the index buffer is
`[0, 3, 4, 0, 4, 1, 3, 6, 7, 3, 7, 4]`, and the indices 6 and 7 are not below the vertex
count. -/
theorem makePlane_three_by_two :
    (makePlane (2 : ℚ) 2 3 2).vertices.length = 3 * 2 ∧
    (makePlane (2 : ℚ) 2 3 2).indices = [0, 3, 4, 0, 4, 1, 3, 6, 7, 3, 7, 4] ∧
    ¬ ∀ i ∈ (makePlane (2 : ℚ) 2 3 2).indices, i < (makePlane (2 : ℚ) 2 3 2).vertices.length := by
  have h1 : sizePred 3 = 2 := by decide
  have h2 : sizePred 2 = 1 := by decide
  have r3 : List.range 3 = [0, 1, 2] := rfl
  have r2 : List.range 2 = [0, 1] := rfl
  have r1 : List.range 1 = [0] := rfl
  have hv : (makePlane (2 : ℚ) 2 3 2).vertices.length = 6 := by
    simp only [makePlane, h1, h2, r1, r2, r3, List.foldl_cons, List.foldl_nil, ofMesh.addVertex,
      ofMesh.addNormal, ofMesh.addTriangle, ofMesh.empty]
    rfl
  have hi : (makePlane (2 : ℚ) 2 3 2).indices = [0, 3, 4, 0, 4, 1, 3, 6, 7, 3, 7, 4] := by
    simp only [makePlane, h1, h2, r1, r2, r3, List.foldl_cons, List.foldl_nil, ofMesh.addVertex,
      ofMesh.addNormal, ofMesh.addTriangle, ofMesh.empty]
    rfl
  refine ⟨hv, hi, ?_⟩
  rw [hv, hi]
  decide

/-- C12 (what the code does instead).  `makePlane(2, 2, 2, 3)` has `2 * (2 - 1) * (3 - 1) = 4`
triangles, but they are indexed with stride `xRes` on vertices laid out with stride `yRes`: the
first triangle `(0, 2, 3)` joins `(-1, -1, 0)`, `(-1, 1/3, 0)`, `(0, -1, 0)`, and the `z`
component of `cross(p2 - p1, p3 - p1)` is `-4/3`: it is clockwise seen from `+z`. -/
theorem makePlane_two_by_three :
    (makePlane (2 : ℚ) 2 2 3).vertices =
      [⟨-1, -1, 0⟩, ⟨-1, -1 / 3, 0⟩, ⟨-1, 1 / 3, 0⟩, ⟨0, -1, 0⟩, ⟨0, -1 / 3, 0⟩, ⟨0, 1 / 3, 0⟩] ∧
    (makePlane (2 : ℚ) 2 2 3).indices = [0, 2, 3, 0, 3, 1, 1, 3, 4, 1, 4, 2] ∧
    (triangles (makePlane (2 : ℚ) 2 2 3).indices).length = 2 * (2 - 1) * (3 - 1) ∧
    (Vec3.cross
        ((makePlane (2 : ℚ) 2 2 3).vertices.getD 2 0 - (makePlane (2 : ℚ) 2 2 3).vertices.getD 0 0)
        ((makePlane (2 : ℚ) 2 2 3).vertices.getD 3 0 -
          (makePlane (2 : ℚ) 2 2 3).vertices.getD 0 0)).z = -(4 / 3) := by
  have h1 : sizePred 3 = 2 := by decide
  have h2 : sizePred 2 = 1 := by decide
  have r3 : List.range 3 = [0, 1, 2] := rfl
  have r2 : List.range 2 = [0, 1] := rfl
  have r1 : List.range 1 = [0] := rfl
  have hmesh : makePlane (2 : ℚ) 2 2 3 =
      { mode := .OF_PRIMITIVE_TRIANGLES
        vertices := [⟨-1, -1, 0⟩, ⟨-1, -1 / 3, 0⟩, ⟨-1, 1 / 3, 0⟩, ⟨0, -1, 0⟩, ⟨0, -1 / 3, 0⟩,
          ⟨0, 1 / 3, 0⟩]
        normals := [⟨0, 0, 1⟩, ⟨0, 0, 1⟩, ⟨0, 0, 1⟩, ⟨0, 0, 1⟩, ⟨0, 0, 1⟩, ⟨0, 0, 1⟩]
        indices := [0, 2, 3, 0, 3, 1, 1, 3, 4, 1, 4, 2] } := by
    simp only [makePlane, h1, h2, r1, r2, r3, List.foldl_cons, List.foldl_nil, ofMesh.addVertex,
      ofMesh.addNormal, ofMesh.addTriangle, ofMesh.empty]
    norm_num
  rw [hmesh]
  refine ⟨rfl, rfl, rfl, ?_⟩
  norm_num [Vec3.cross, Vec3.sub_def]

/-- C13.  With `sqrt` a square root on the non-negative numbers and `radius ≥ 0`:
`makeIcosphere(radius, 0)` returns a mesh with 12 vertices and 20 triangles, its index buffer is
that of `makeIcosahedron(radius)` (which has 12 vertices and 20 triangles too), and every one
of its vertices is at distance `radius` from the origin (`dot(v, v) = radius^2`, and
`sqrt(dot(v, v)) = radius`). -/
theorem makeIcosphere_zero {K : Type} [LinearOrderedField K] (sqrt : K → K)
    (normalize : Vec3 K → Vec3 K) (radius : K)
    (hsq : ∀ x : K, 0 ≤ x → sqrt x * sqrt x = x) (hnn : ∀ x : K, 0 ≤ sqrt x)
    (hr : 0 ≤ radius) :
    ∃ sphere ico, makeIcosphere sqrt normalize radius 0 = .ok sphere ∧
      makeIcosahedron sqrt normalize radius = .ok ico ∧
      sphere.vertices.length = 12 ∧ (triangles sphere.indices).length = 20 ∧
      ico.vertices.length = 12 ∧ (triangles ico.indices).length = 20 ∧
      sphere.indices = ico.indices ∧
      ∀ v ∈ sphere.vertices, Vec3.dot v v = radius * radius ∧ sqrt (Vec3.dot v v) = radius := by
  obtain ⟨ico1, sphere, hico1, hsph, -, hsv, hsi⟩ := makeIcosphere_ok sqrt normalize radius 0
  obtain ⟨ico1', hico1', -, hv1, hi1⟩ := makeIcosahedron_ok sqrt normalize 1
  obtain ⟨ico, hico, -, hv, hi⟩ := makeIcosahedron_ok sqrt normalize radius
  have : ico1 = ico1' := by
    rw [hico1] at hico1'
    exact Except.ok.inj hico1'
  subst this
  simp only [subdivideIter] at hsv hsi
  have hroot : ∀ x : K, 0 ≤ x → sqrt (x * x) = x := by
    intro x hx
    have h1 := hsq (x * x) (mul_self_nonneg x)
    exact (mul_self_inj_of_nonneg (hnn _) hx).mp h1
  have ht : (0 : K) < (1 + sqrt 5) / 2 * ((1 + sqrt 5) / 2) + 1 := by
    have := mul_self_nonneg ((1 + sqrt 5) / 2)
    linarith
  have hs := hsq _ ht.le
  have hs0 : sqrt ((1 + sqrt 5) / 2 * ((1 + sqrt 5) / 2) + 1) ≠ 0 := by
    intro h0
    rw [h0] at hs
    simp at hs
    exact ht.ne hs
  refine ⟨sphere, ico, hsph, hico, by rw [hsv, hv1]; rfl, by rw [hsi, hi1]; rfl,
    by rw [hv]; rfl, by rw [hi]; rfl, by rw [hsi, hi1, hi], ?_⟩
  intro v hv'
  rw [hsv, hv1] at hv'
  have hd : Vec3.dot v v = radius * radius := by
    simp only [List.map_cons, List.map_nil, List.mem_cons, List.mem_singleton,
      List.not_mem_nil, or_false] at hv'
    rcases hv' with rfl | rfl | rfl | rfl | rfl | rfl | rfl | rfl | rfl | rfl | rfl | rfl <;>
    · refine Vec3.dot_scale_scale _ _ _ _ radius hs0 ?_
      rw [hs]
      ring
  exact ⟨hd, by rw [hd]; exact hroot radius hr⟩

/-- Witness for C13: the reals, the real square root, the Euclidean `glm::normalize`, and
`radius = 5`. -/
theorem makeIcosphere_zero_witness :
    ((∀ x : ℝ, 0 ≤ x → Real.sqrt x * Real.sqrt x = x) ∧ (∀ x : ℝ, 0 ≤ Real.sqrt x) ∧
      (0 : ℝ) ≤ 5) ∧
    ∃ sphere ico,
      makeIcosphere Real.sqrt (fun v => v.scale (Real.sqrt (Vec3.dot v v))⁻¹) 5 0 = .ok sphere ∧
      makeIcosahedron Real.sqrt (fun v => v.scale (Real.sqrt (Vec3.dot v v))⁻¹) 5 = .ok ico ∧
      sphere.vertices.length = 12 ∧ (triangles sphere.indices).length = 20 ∧
      ico.vertices.length = 12 ∧ (triangles ico.indices).length = 20 ∧
      sphere.indices = ico.indices ∧
      ∀ v ∈ sphere.vertices, Vec3.dot v v = 5 * 5 ∧ Real.sqrt (Vec3.dot v v) = 5 :=
  ⟨⟨fun _ hx => Real.mul_self_sqrt hx, Real.sqrt_nonneg, by norm_num⟩,
    makeIcosphere_zero Real.sqrt (fun v => v.scale (Real.sqrt (Vec3.dot v v))⁻¹) 5
      (fun _ hx => Real.mul_self_sqrt hx) Real.sqrt_nonneg (by norm_num)⟩

/-- C14.  The icosphere has no duplicated vertices at any level: for every radius and every
iteration count `k`, `makeIcosphere(radius, k)` returns a well-formed mesh with exactly
`20 * 4^k` triangles and exactly `10 * 4^k + 2` vertices. -/
theorem makeIcosphere_counts {K : Type} [Field K] (sqrt : K → K) (normalize : Vec3 K → Vec3 K)
    (radius : K) (k : Nat) :
    ∃ sphere, makeIcosphere sqrt normalize radius k = .ok sphere ∧ sphere.WellFormed ∧
      (triangles sphere.indices).length = 20 * 4 ^ k ∧
      sphere.vertices.length = 10 * 4 ^ k + 2 := by
  obtain ⟨ico, sphere, hico, hsph, hmode, hsv, hsi⟩ := makeIcosphere_ok sqrt normalize radius k
  obtain ⟨ico', hico', hm, hv, hi⟩ := makeIcosahedron_ok sqrt normalize 1
  have : ico = ico' := by
    rw [hico] at hico'
    exact Except.ok.inj hico'
  subst this
  have hlen : ico.vertices.length = 12 := by rw [hv]; rfl
  have htri : triangles ico.indices = [(0, 8, 4), (0, 5, 10), (2, 4, 9), (2, 11, 5), (1, 6, 8),
      (1, 10, 7), (3, 9, 6), (3, 7, 11), (0, 10, 8), (1, 8, 10), (2, 9, 11), (3, 11, 9),
      (4, 2, 0), (5, 0, 2), (6, 1, 3), (7, 3, 1), (8, 6, 4), (9, 4, 6), (10, 5, 7),
      (11, 7, 5)] := by rw [hi]; rfl
  have hwf : ico.WellFormed := by
    refine ⟨hm, ?_, ?_⟩
    · rw [hi]; decide
    · rw [hi, hlen]; decide
  have h := subdivideIter_level normalize true false k ico 0 hwf
    (by rw [htri]; exact icosahedron_simple) (by rw [htri]; rfl)
    (by rw [hi]; exact icosahedron_edges) (by rw [hlen]; rfl)
  rw [Nat.zero_add] at h
  refine ⟨sphere, hsph, ⟨hmode, ?_, ?_⟩, ?_, ?_⟩
  · rw [hsi]
    exact h.2.1.2.1
  · rw [hsi, hsv, List.length_map]
    exact h.2.1.2.2
  · rw [hsi]
    exact h.2.2.1
  · rw [hsv, List.length_map]
    exact h.2.2.2

set_option maxRecDepth 100000 in
/-- C15.  `makeKST3` re-closes the hole left by the removed corner: for every side length it
returns a mesh with 25 vertices and 46 triangles, every index is below 25, and every directed
edge `(a, b)` of a triangle occurs in exactly one triangle, as does its reverse `(b, a)`: the
surface is closed and consistently oriented. -/
theorem makeKST3_closed {K : Type} [Field K] (normalize : Vec3 K → Vec3 K) (length : K) :
    ∃ mesh, makeKST3 normalize length = .ok mesh ∧
      mesh.vertices.length = 25 ∧ (triangles mesh.indices).length = 46 ∧
      (∀ i ∈ mesh.indices, i < 25) ∧
      ∀ t ∈ triangles mesh.indices, ∀ e ∈ directedEdges t,
        trianglesWithEdge mesh.indices e = 1 ∧ trianglesWithEdge mesh.indices (e.2, e.1) = 1 := by
  obtain ⟨mesh, hmesh, hlen, hidx⟩ := makeKST3_ok normalize length
  refine ⟨mesh, hmesh, hlen, ?_, ?_, ?_⟩
  · rw [hidx]
    decide!
  · rw [hidx]
    decide!
  · rw [hidx]
    decide!

/-- C17.  The clockwise convention of one pass is the mirror of the counterclockwise one: on a
triangle-list mesh whose index count is a multiple of 3, for either value of `normalizeVert`,
`subdivideMesh(m, 1, false, true, nv)` leaves the same vertices as
`subdivideMesh(m, 1, false, false, nv)`, and its index buffer is the one `swapWindingOrder`
makes of the counterclockwise result: every emitted triangle with its first two indices
exchanged. -/
theorem subdivide_cw_mirror {K : Type} [Field K] (normalize : Vec3 K → Vec3 K)
    (mesh : ofMesh K) (normalizeVert : Bool) (hmode : mesh.mode = .OF_PRIMITIVE_TRIANGLES)
    (_h3 : 3 ∣ mesh.indices.length) :
    (subdivideMesh normalize mesh 1 false true normalizeVert).mesh.vertices =
      (subdivideMesh normalize mesh 1 false false normalizeVert).mesh.vertices ∧
    (swapWindingOrder (subdivideMesh normalize mesh 1 false false normalizeVert).mesh).thrown =
      none ∧
    (subdivideMesh normalize mesh 1 false true normalizeVert).mesh.indices =
      (swapWindingOrder
        (subdivideMesh normalize mesh 1 false false normalizeVert).mesh).mesh.indices := by
  have hrun : ∀ c : Bool, (subdivideMesh normalize mesh 1 false c normalizeVert).mesh =
      (subdivide normalize mesh false c normalizeVert).mesh := by
    intro c
    rw [subdivideMesh_of_triangles normalize mesh 1 false c normalizeVert hmode,
      subdivideIter_succ normalize mesh 0 false c normalizeVert hmode]
    rfl
  have ht := subdivide_of_triangles normalize mesh false true normalizeVert hmode
  have hf := subdivide_of_triangles normalize mesh false false normalizeVert hmode
  rw [hrun true, hrun false]
  refine ⟨?_, ?_, ?_⟩
  · rw [ht.2.2.1, hf.2.2.1]
    exact (subdivideLoop_core normalize normalizeVert mesh true false).2
  · simp [swapWindingOrder, hf.2.1]
  · simp only [swapWindingOrder, hf.2.1, ne_eq, not_true_eq_false, if_false]
    rw [ht.2.2.2, hf.2.2.2, subdivideLoop_newIndices, subdivideLoop_newIndices,
      swapPairs_flatMap_children]
    congr 1
    funext t
    exact children_congr true t
      (fun e _ => midpointOf_winding normalize normalizeVert mesh true false e.1 e.2)

/-- Witness for C17: the two-triangle mesh, without vertex normalisation. -/
theorem subdivide_cw_mirror_witness :
    (twoTriangles.mode = .OF_PRIMITIVE_TRIANGLES ∧ 3 ∣ twoTriangles.indices.length) ∧
    (subdivideMesh (fun v => v) twoTriangles 1 false true false).mesh.vertices =
      (subdivideMesh (fun v => v) twoTriangles 1 false false false).mesh.vertices ∧
    (swapWindingOrder (subdivideMesh (fun v => v) twoTriangles 1 false false false).mesh).thrown =
      none ∧
    (subdivideMesh (fun v => v) twoTriangles 1 false true false).mesh.indices =
      (swapWindingOrder
        (subdivideMesh (fun v => v) twoTriangles 1 false false false).mesh).mesh.indices :=
  ⟨⟨rfl, by decide⟩, subdivide_cw_mirror (fun v => v) twoTriangles false rfl (by decide)⟩

/-- C18.  Counterclockwise subdivision preserves orientation exactly.  One pass with
`CW_winding = false` and `normalizeVert = false` on a well-formed mesh: for every input triangle
number `t` with corners at positions `v1, v2, v3`, each of the four output triangles `4t + j`
has corners `(a, b, c)` whose positions satisfy
`cross(b - a, c - a) = cross(v2 - v1, v3 - v1) / 4`: the parent's face direction, a quarter of
its area. -/
theorem subdivide_ccw_preserves_orientation {K : Type} [Field K] [CharZero K]
    (normalize : Vec3 K → Vec3 K) (mesh : ofMesh K) (recalcNormal : Bool)
    (hwf : mesh.WellFormed) (t i1 i2 i3 : Nat)
    (ht : (triangles mesh.indices)[t]? = some (i1, i2, i3)) (j : Nat) (hj : j < 4) :
    ∃ a b c : Nat,
      (triangles (subdivideMesh normalize mesh 1 recalcNormal false
        false).mesh.indices)[4 * t + j]? = some (a, b, c) ∧
      Vec3.cross
        ((subdivideMesh normalize mesh 1 recalcNormal false false).mesh.vertices.getD b 0 -
          (subdivideMesh normalize mesh 1 recalcNormal false false).mesh.vertices.getD a 0)
        ((subdivideMesh normalize mesh 1 recalcNormal false false).mesh.vertices.getD c 0 -
          (subdivideMesh normalize mesh 1 recalcNormal false false).mesh.vertices.getD a 0) =
        (Vec3.cross (mesh.vertices.getD i2 0 - mesh.vertices.getD i1 0)
          (mesh.vertices.getD i3 0 - mesh.vertices.getD i1 0)).scale (1 / 4) := by
  have hmode := hwf.1
  obtain ⟨T, hT⟩ := hwf.2.1
  have hs := subdivide_of_triangles normalize mesh recalcNormal false false hmode
  have hrun : (subdivideMesh normalize mesh 1 recalcNormal false false).mesh =
      (subdivide normalize mesh recalcNormal false false).mesh := by
    rw [subdivideMesh_of_triangles normalize mesh 1 recalcNormal false false hmode,
      subdivideIter_succ normalize mesh 0 recalcNormal false false hmode]
    rfl
  have htmem : (i1, i2, i3) ∈ triangles mesh.indices := List.getElem?_mem ht
  have hlt := triangles_mem_lt T mesh.indices hT hwf.2.2 _ htmem
  have hedge : ∀ e ∈ triangleEdges (i1, i2, i3), e ∈ meshEdges mesh.indices :=
    fun e he => List.mem_flatMap.mpr ⟨_, htmem, he⟩
  have p1 := subdivideLoop_vertex_old normalize false false mesh hwf i1 hlt.1
  have p2 := subdivideLoop_vertex_old normalize false false mesh hwf i2 hlt.2.1
  have p3 := subdivideLoop_vertex_old normalize false false mesh hwf i3 hlt.2.2
  have p12 := subdivideLoop_vertex_midpoint normalize false false mesh hwf (i1, i2)
    (hedge _ (by simp [triangleEdges]))
  have p23 := subdivideLoop_vertex_midpoint normalize false false mesh hwf (i2, i3)
    (hedge _ (by simp [triangleEdges]))
  have p13 := subdivideLoop_vertex_midpoint normalize false false mesh hwf (i1, i3)
    (hedge _ (by simp [triangleEdges]))
  simp only [midpointPosition, Bool.false_eq_true, if_false] at p12 p23 p13
  have key := flatMap_getElem?_four
    (fun t => triangles (children false
      (fun e => midpointOf normalize mesh false false e.1 e.2) t))
    (fun a => by simp [children, triangles]) (triangles mesh.indices) t (i1, i2, i3) ht j hj
  have halg := Vec3.cross_children_ccw (mesh.vertices.getD i1 0) (mesh.vertices.getD i2 0)
    (mesh.vertices.getD i3 0)
  rw [hrun, hs.2.2.1, hs.2.2.2, subdivideLoop_newIndices, triangles_flatMap_children, key]
  have hcases : j = 0 ∨ j = 1 ∨ j = 2 ∨ j = 3 := by omega
  rcases hcases with rfl | rfl | rfl | rfl
  · refine ⟨i1, midpointOf normalize mesh false false i1 i2,
      midpointOf normalize mesh false false i1 i3, by simp [children, triangles], ?_⟩
    rw [p1, p12, p13]
    exact halg.1
  · refine ⟨midpointOf normalize mesh false false i1 i2, i2,
      midpointOf normalize mesh false false i2 i3, by simp [children, triangles], ?_⟩
    rw [p2, p12, p23]
    exact halg.2.1
  · refine ⟨midpointOf normalize mesh false false i1 i2,
      midpointOf normalize mesh false false i2 i3,
      midpointOf normalize mesh false false i1 i3, by simp [children, triangles], ?_⟩
    rw [p12, p23, p13]
    exact halg.2.2.1
  · refine ⟨midpointOf normalize mesh false false i1 i3,
      midpointOf normalize mesh false false i2 i3, i3, by simp [children, triangles], ?_⟩
    rw [p3, p23, p13]
    exact halg.2.2.2

/-- Witness for C18: the centre child of the second triangle of the two-triangle mesh. -/
theorem subdivide_ccw_preserves_orientation_witness :
    (twoTriangles.WellFormed ∧ (triangles twoTriangles.indices)[1]? = some (2, 1, 3) ∧ 2 < 4) ∧
    ∃ a b c : Nat,
      (triangles (subdivideMesh (fun v => v) twoTriangles 1 false false
        false).mesh.indices)[4 * 1 + 2]? = some (a, b, c) ∧
      Vec3.cross
        ((subdivideMesh (fun v => v) twoTriangles 1 false false false).mesh.vertices.getD b 0 -
          (subdivideMesh (fun v => v) twoTriangles 1 false false false).mesh.vertices.getD a 0)
        ((subdivideMesh (fun v => v) twoTriangles 1 false false false).mesh.vertices.getD c 0 -
          (subdivideMesh (fun v => v) twoTriangles 1 false false false).mesh.vertices.getD a 0) =
        (Vec3.cross (twoTriangles.vertices.getD 1 0 - twoTriangles.vertices.getD 2 0)
          (twoTriangles.vertices.getD 3 0 - twoTriangles.vertices.getD 2 0)).scale (1 / 4) :=
  ⟨⟨⟨rfl, by decide, by decide⟩, rfl, by decide⟩,
    subdivide_ccw_preserves_orientation (fun v => v) twoTriangles false
      ⟨rfl, by decide, by decide⟩ 1 2 1 3 rfl 2 (by decide)⟩

/-- C19.  A pass only appends vertices.  With `normalizeVert = false`, on a well-formed mesh of
`V` vertices: the first `V` vertices after the pass are the old ones, unchanged, and every
appended vertex (index `j` with `V ≤ j`) was created for an edge `(a, b)` of the mesh, is the
one the pass uses as the midpoint of that edge, and sits at the arithmetic mean
`(va + vb) / 2` of the old positions of `a` and `b`. -/
theorem subdivide_appends_midpoints {K : Type} [Field K] (normalize : Vec3 K → Vec3 K)
    (mesh : ofMesh K) (recalcNormal CW_winding : Bool) (hwf : mesh.WellFormed) :
    (subdivideMesh normalize mesh 1 recalcNormal CW_winding false).mesh.vertices.take
      mesh.vertices.length = mesh.vertices ∧
    ∀ j, mesh.vertices.length ≤ j →
      j < (subdivideMesh normalize mesh 1 recalcNormal CW_winding false).mesh.vertices.length →
      ∃ a b, (a, b) ∈ meshEdges mesh.indices ∧
        midpointOf normalize mesh CW_winding false a b = j ∧
        (subdivideMesh normalize mesh 1 recalcNormal CW_winding false).mesh.vertices[j]? =
          some ((mesh.vertices.getD a 0 + mesh.vertices.getD b 0).scale (1 / 2)) := by
  have hmode := hwf.1
  have hs := subdivide_of_triangles normalize mesh recalcNormal CW_winding false hmode
  have hrun : (subdivideMesh normalize mesh 1 recalcNormal CW_winding false).mesh =
      (subdivide normalize mesh recalcNormal CW_winding false).mesh := by
    rw [subdivideMesh_of_triangles normalize mesh 1 recalcNormal CW_winding false hmode,
      subdivideIter_succ normalize mesh 0 recalcNormal CW_winding false hmode]
    rfl
  have hv := subdivideLoop_vertices normalize CW_winding false mesh hwf
  have hinv := subdivideLoop_inv normalize CW_winding false mesh
  rw [hrun, hs.2.2.1]
  constructor
  · rw [hv, List.take_left]
  · intro j hVj hj
    rw [hinv.verts_len] at hj
    have hjm : j - mesh.vertices.length <
        (subdivideLoop normalize mesh CW_winding false).midpoints.length := by omega
    have hmem := List.getElem_mem hjm
    have hkey := subdivideLoop_keys normalize CW_winding false mesh _ hmem
    have hval : ((subdivideLoop normalize mesh CW_winding false).midpoints[
        j - mesh.vertices.length]).2 = j := by
      have h1 : ((subdivideLoop normalize mesh CW_winding false).midpoints.map Prod.snd)[
          j - mesh.vertices.length]? = some ((subdivideLoop normalize mesh CW_winding
            false).midpoints[j - mesh.vertices.length]).2 := by
        rw [List.getElem?_map, List.getElem?_eq_getElem hjm]
        rfl
      rw [hinv.values, List.getElem?_range' _ _ hjm] at h1
      simp only [Nat.one_mul, Option.some.injEq] at h1
      omega
    have hlook := table_entry_lookup hinv _ hmem
    refine ⟨_, _, hkey, ?_, ?_⟩
    · unfold midpointOf
      rw [hlook, hval]
      rfl
    · rw [hv, List.getElem?_append_right hVj, List.getElem?_map, List.getElem?_eq_getElem hjm]
      simp [midpointPosition]

/-- Witness for C19: the two-triangle mesh. -/
theorem subdivide_appends_midpoints_witness :
    twoTriangles.WellFormed ∧
    (subdivideMesh (fun v => v) twoTriangles 1 false false false).mesh.vertices.take
      twoTriangles.vertices.length = twoTriangles.vertices ∧
    ∀ j, twoTriangles.vertices.length ≤ j →
      j < (subdivideMesh (fun v => v) twoTriangles 1 false false false).mesh.vertices.length →
      ∃ a b, (a, b) ∈ meshEdges twoTriangles.indices ∧
        midpointOf (fun v => v) twoTriangles false false a b = j ∧
        (subdivideMesh (fun v => v) twoTriangles 1 false false false).mesh.vertices[j]? =
          some ((twoTriangles.vertices.getD a 0 + twoTriangles.vertices.getD b 0).scale
            (1 / 2)) :=
  ⟨⟨rfl, by decide, by decide⟩,
    subdivide_appends_midpoints (fun v => v) twoTriangles false false
      ⟨rfl, by decide, by decide⟩⟩

/-- C20.  Swapping the winding order and switching the winding flag cancel out in normal
recalculation: on a well-formed triangle-list mesh, with `normalize` an odd function,
`recalcNormals(swapWindingOrder(m), CW_winding = true)` leaves the same normal list as
`recalcNormals(m, CW_winding = false)`, and none of the three calls throws. -/
theorem recalcNormals_swap_cancels {K : Type} [Field K] (normalize : Vec3 K → Vec3 K)
    (hodd : ∀ v, normalize (-v) = -normalize v) (mesh : ofMesh K) (hwf : mesh.WellFormed) :
    (swapWindingOrder mesh).thrown = none ∧
    (recalcNormals normalize (swapWindingOrder mesh).mesh true).thrown = none ∧
    (recalcNormals normalize mesh false).thrown = none ∧
    (recalcNormals normalize (swapWindingOrder mesh).mesh true).mesh.normals =
      (recalcNormals normalize mesh false).mesh.normals := by
  have hmode := hwf.1
  have hsw : swapWindingOrder mesh =
      { thrown := none, mesh := { mesh with indices := swapPairs mesh.indices } } := by
    simp [swapWindingOrder, hmode]
  have hmode' : ({ mesh with indices := swapPairs mesh.indices } : ofMesh K).mode =
      .OF_PRIMITIVE_TRIANGLES := hmode
  rw [hsw, recalcNormals_of_triangles normalize _ true hmode',
    recalcNormals_of_triangles normalize mesh false hmode]
  exact ⟨rfl, rfl, rfl, computeNormals_swap normalize hodd mesh.vertices mesh.indices hwf.2.1⟩

/-- Witness for C20: the single triangle over the reals with the Euclidean `glm::normalize`. -/
theorem recalcNormals_swap_cancels_witness :
    ((∀ v : Vec3 ℝ, (-v).scale (Real.sqrt (Vec3.dot (-v) (-v)))⁻¹ =
        -(v.scale (Real.sqrt (Vec3.dot v v))⁻¹)) ∧
      (unitTriangle ℝ).WellFormed) ∧
    (swapWindingOrder (unitTriangle ℝ)).thrown = none ∧
    (recalcNormals (fun v => v.scale (Real.sqrt (Vec3.dot v v))⁻¹)
      (swapWindingOrder (unitTriangle ℝ)).mesh true).thrown = none ∧
    (recalcNormals (fun v => v.scale (Real.sqrt (Vec3.dot v v))⁻¹) (unitTriangle ℝ)
      false).thrown = none ∧
    (recalcNormals (fun v => v.scale (Real.sqrt (Vec3.dot v v))⁻¹)
      (swapWindingOrder (unitTriangle ℝ)).mesh true).mesh.normals =
      (recalcNormals (fun v => v.scale (Real.sqrt (Vec3.dot v v))⁻¹) (unitTriangle ℝ)
        false).mesh.normals :=
  ⟨⟨euclidean_normalize_odd, ⟨rfl, by decide, by decide⟩⟩,
    recalcNormals_swap_cancels (fun v => v.scale (Real.sqrt (Vec3.dot v v))⁻¹)
      euclidean_normalize_odd (unitTriangle ℝ) ⟨rfl, by decide, by decide⟩⟩

end MoreClaims

end OfxMeshGen
